import Mathlib

/-!
goip: client-IP resolution behind trusted proxies

A shallow embedding of `goip.go` (package `goip`) together with the parts of the
Go standard library it calls (`strings`, `net`, `net/netip`, `net/textproto`,
`net/http.Header`, `regexp`), followed by theorems about the embedded program.

Conventions of the embedding

* A Go `string` is a Lean `String`; the library helpers work on its `List Char`.
  Only valid UTF-8 strings are represented.  Every delimiter the program looks
  for is ASCII, so positions counted in characters and in bytes agree.
* A Go `net.IP` / `net.IPMask` is a `List Nat` of bytes (each below 256); the nil
  slice returned on a parse failure is `none`.
* A nilable Go slice argument (`proxies []string`) is an `Option (List String)`.
* A method that mutates its receiver returns the receiver after the call.
-/

namespace GoIP

/-! ## `strings` and `net/textproto` helpers -/

/-- Go `strings.Split(s, string(sep))` for a one-character separator: the pieces
between the separators, in order; always at least one piece. -/
def splitOn (sep : Char) : List Char → List (List Char)
  | [] => [[]]
  | c :: cs =>
    if c = sep then [] :: splitOn sep cs
    else
      match splitOn sep cs with
      | [] => [[c]]
      | seg :: rest => (c :: seg) :: rest

/-- Go `strings.Split(s, ",")`. -/
def Split (s : String) (sep : Char) : List String :=
  (splitOn sep s.data).map String.mk

/-- Go `unicode.IsSpace`: the characters with the Unicode White_Space property. -/
def isSpace (c : Char) : Bool :=
  let n := c.toNat
  (9 ≤ n && n ≤ 13) || n = 32 || n = 0x85 || n = 0xA0 || n = 0x1680 ||
  (0x2000 ≤ n && n ≤ 0x200A) || n = 0x2028 || n = 0x2029 || n = 0x202F ||
  n = 0x205F || n = 0x3000

/-- Strip from both ends every character satisfying `f` (Go `strings.TrimFunc`). -/
def trimFunc (f : Char → Bool) (cs : List Char) : List Char :=
  ((cs.dropWhile f).reverse.dropWhile f).reverse

/-- Go `strings.TrimSpace`. -/
def TrimSpace (s : String) : String :=
  String.mk (trimFunc isSpace s.data)

/-- Go `strings.Trim(s, cutset)`. -/
def Trim (s : String) (cutset : String) : String :=
  String.mk (trimFunc (fun c => cutset.data.contains c) s.data)

/-- Go `textproto.TrimString`: strips leading and trailing ASCII space, tab, CR, LF. -/
def TrimString (s : String) : String :=
  String.mk (trimFunc (fun c => c = ' ' || c = '\t' || c = '\n' || c = '\r') s.data)

/-- Go `strings.Contains(s, "/")` and friends, for a one-character needle. -/
def Contains (s : String) (c : Char) : Bool :=
  s.data.contains c

/-- ASCII lower-casing of one character.  `strings.ToLower` agrees with it on ASCII
and on U+017F (long s), which it leaves alone; these are the only characters
the key group of the pair pattern can capture. -/
def lowerChar (c : Char) : Char :=
  if 'A' ≤ c ∧ c ≤ 'Z' then Char.ofNat (c.toNat + 32) else c

/-- Go `strings.ToLower` (on the strings the program applies it to). -/
def ToLower (s : String) : String :=
  String.mk (s.data.map lowerChar)

/-! ## `net/netip` address parsing -/

/-- Go `net.IP`: a byte slice, of length 4 or 16 when well formed. -/
abbrev IP := List Nat

/-- The result of `netip.ParseAddr`: an IPv4 address (4 bytes) or an IPv6 address
(16 bytes) with its zone. -/
inductive Addr where
  | v4 (b : List Nat)
  | v6 (b : List Nat) (zone : String)
deriving DecidableEq, Repr

/-- Value of a decimal digit character. -/
def digitVal (c : Char) : Nat := c.toNat - 48

/-- Whether `c` is one of `0` to `9`. -/
def isDigit (c : Char) : Bool := '0' ≤ c && c ≤ '9'

/-- The loop of `netip.parseIPv4Fields`.  `fields` holds the octets stored so far
(`pos` is its length), `val` and `digLen` are the current octet and its digit
count, `first` says that the character is the first of the text, `prevDot` that
the previous character was a dot. -/
def parseIPv4Loop : List Char → List Nat → Nat → Nat → Bool → Bool → Option (List Nat)
  | [], fields, val, _, _, _ =>
    if fields.length < 3 then none else some (fields ++ [val])
  | c :: cs, fields, val, digLen, first, prevDot =>
    if isDigit c then
      if digLen = 1 ∧ val = 0 then none
      else
        let val1 := val * 10 + digitVal c
        if val1 > 255 then none
        else parseIPv4Loop cs fields val1 (digLen + 1) false false
    else if c = '.' then
      if first ∨ cs = [] ∨ prevDot then none
      else if fields.length = 3 then none
      else parseIPv4Loop cs (fields ++ [val]) 0 0 false true
    else none

/-- Go `netip.parseIPv4Fields` on the whole text: the four octets, or failure. -/
def parseIPv4Fields (s : List Char) : Option (List Nat) :=
  parseIPv4Loop s [] 0 0 true false

/-- Value of a hexadecimal digit, if `c` is one. -/
def hexVal (c : Char) : Option Nat :=
  if '0' ≤ c ∧ c ≤ '9' then some (c.toNat - 48)
  else if 'a' ≤ c ∧ c ≤ 'f' then some (c.toNat - 97 + 10)
  else if 'A' ≤ c ∧ c ≤ 'F' then some (c.toNat - 65 + 10)
  else none

/-- The inner loop of `netip.parseIPv6` reading one hexadecimal group: `off` digits
read so far with value `acc`.  Returns the digit count, the value and the rest of
the text, or `none` when the group has more than four digits. -/
def hexGroup : List Char → Nat → Nat → Option (Nat × Nat × List Char)
  | [], off, acc => some (off, acc, [])
  | c :: cs, off, acc =>
    match hexVal c with
    | none => some (off, acc, c :: cs)
    | some d =>
      let acc1 := acc * 16 + d
      if off > 3 then none
      else if acc1 > 0xFFFF then none
      else hexGroup cs (off + 1) acc1

/-- The main loop of `netip.parseIPv6`.  `n` counts the 16-bit groups that still
fit (`i = 16 - 2 * n`), `ip` holds the `i` bytes written so far, `ellipsis` is the
byte position of `::` if one was seen.  Returns the rest of the text, the bytes
and the ellipsis position at loop exit. -/
def parseIPv6Loop : Nat → List Char → List Nat → Option Nat →
    Option (List Char × List Nat × Option Nat)
  | 0, s, ip, ellipsis => some (s, ip, ellipsis)
  | n + 1, s, ip, ellipsis =>
    match hexGroup s 0 0 with
    | none => none
    | some (off, acc, rest) =>
      if off = 0 then none
      else
        match rest with
        | '.' :: _ =>
          if ellipsis = none ∧ ip.length ≠ 12 then none
          else if ip.length + 4 > 16 then none
          else
            match parseIPv4Fields s with
            | none => none
            | some four => some ([], ip ++ four, ellipsis)
        | [] => some ([], ip ++ [acc / 256, acc % 256], ellipsis)
        | c :: rest1 =>
          let ip1 := ip ++ [acc / 256, acc % 256]
          if c ≠ ':' then none
          else
            match rest1 with
            | [] => none
            | ':' :: rest2 =>
              if ellipsis ≠ none then none
              else
                match rest2 with
                | [] => some ([], ip1, some ip1.length)
                | _ => parseIPv6Loop n rest2 ip1 (some ip1.length)
            | _ => parseIPv6Loop n rest1 ip1 ellipsis

/-- Split a text at the first occurrence of `sep`: the part before it and, when
`sep` occurs, the part after it. -/
def cutAt (sep : Char) : List Char → List Char × Option (List Char)
  | [] => ([], none)
  | c :: cs =>
    if c = sep then ([], some cs)
    else
      let r := cutAt sep cs
      (c :: r.1, r.2)

/-- Go `netip.parseIPv6`. -/
def parseIPv6 (input : List Char) : Option Addr :=
  let cut := cutAt '%' input
  let zone : List Char := cut.2.getD []
  if cut.2 = some [] then none
  else
    let start : List Char × Option Nat :=
      match cut.1 with
      | ':' :: ':' :: rest => (rest, some 0)
      | s => (s, none)
    if start.2 = some 0 ∧ start.1 = [] then
      some (Addr.v6 (List.replicate 16 0) (String.mk zone))
    else
      match parseIPv6Loop 8 start.1 [] start.2 with
      | none => none
      | some (rest, ip, ellipsis) =>
        if rest ≠ [] then none
        else if ip.length < 16 then
          match ellipsis with
          | none => none
          | some e =>
            some (Addr.v6 (ip.take e ++ List.replicate (16 - ip.length) 0 ++ ip.drop e)
              (String.mk zone))
        else if ellipsis ≠ none then none
        else some (Addr.v6 ip (String.mk zone))

/-- The dispatch loop of `netip.ParseAddr`: the first of `.`, `:` and `%` in the text
decides how the whole text `s` is parsed. -/
def parseAddrScan (s : List Char) : List Char → Option Addr
  | [] => none
  | c :: cs =>
    if c = '.' then (parseIPv4Fields s).map Addr.v4
    else if c = ':' then parseIPv6 s
    else if c = '%' then none
    else parseAddrScan s cs

/-- Go `netip.ParseAddr`. -/
def ParseAddr (s : String) : Option Addr :=
  parseAddrScan s.data s.data

/-- The 12-byte header of an IPv4-mapped IPv6 address (`::ffff:0:0/96`). -/
def v4InV6Head : List Nat := [0, 0, 0, 0, 0, 0, 0, 0, 0, 0, 0xff, 0xff]

/-- Go `netip.Addr.As16`. -/
def Addr.As16 : Addr → List Nat
  | Addr.v4 b => v4InV6Head ++ b
  | Addr.v6 b _ => b

/-- Go `netip.Addr.BitLen`. -/
def Addr.BitLen : Addr → Nat
  | Addr.v4 _ => 32
  | Addr.v6 _ _ => 128

/-- Go `netip.Addr.Zone`. -/
def Addr.Zone : Addr → String
  | Addr.v4 _ => ""
  | Addr.v6 _ z => z

/-- Go `net.ParseIP`: the 16-byte form of the address, `none` (nil) when the text is
not an IP literal or carries a zone. -/
def ParseIP (s : String) : Option IP :=
  match ParseAddr s with
  | none => none
  | some a => if a.Zone ≠ "" then none else some a.As16

/-! ## `net.IP`, `net.IPMask`, `net.IPNet` -/

/-- Go `net.IP.To4`: the 4-byte form of an IPv4 address (4 bytes, or 16 bytes in the
IPv4-mapped range), `none` (nil) otherwise. -/
def To4 (ip : IP) : Option IP :=
  if ip.length = 4 then some ip
  else if ip.length = 16 ∧ ip.take 10 = List.replicate 10 0 ∧
      ip.getD 10 0 = 0xff ∧ ip.getD 11 0 = 0xff then some (ip.drop 12)
  else none

/-- Decimal text of a byte (Go `strconv` for the octets of a dotted quad). -/
def decByte (v : Nat) : List Char :=
  if v < 10 then [Char.ofNat (48 + v)]
  else if v < 100 then [Char.ofNat (48 + v / 10), Char.ofNat (48 + v % 10)]
  else [Char.ofNat (48 + v / 100), Char.ofNat (48 + v / 10 % 10), Char.ofNat (48 + v % 10)]

/-- The lower-case hexadecimal digit of a value below 16. -/
def hexDigit (d : Nat) : Char :=
  if d < 10 then Char.ofNat (48 + d) else Char.ofNat (87 + d)

/-- Go `netip.appendHex`: a 16-bit group in hexadecimal without leading zeros. -/
def appendHex (x : Nat) : List Char :=
  (if x ≥ 0x1000 then [hexDigit (x / 0x1000)] else []) ++
  (if x ≥ 0x100 then [hexDigit (x / 0x100 % 16)] else []) ++
  (if x ≥ 0x10 then [hexDigit (x / 0x10 % 16)] else []) ++
  [hexDigit (x % 16)]

/-- Go `netip.Addr.string4` on four octets. -/
def string4 (b : List Nat) : List Char :=
  decByte (b.getD 0 0) ++ ['.'] ++ decByte (b.getD 1 0) ++ ['.'] ++
  decByte (b.getD 2 0) ++ ['.'] ++ decByte (b.getD 3 0)

/-- The eight 16-bit groups of a 16-byte address (Go `netip.Addr.v6u16`). -/
def v6u16 (ip : List Nat) (i : Nat) : Nat :=
  ip.getD (2 * i) 0 * 256 + ip.getD (2 * i + 1) 0

/-- Length of the run of zero groups starting at group `i`, scanning at most `n`
groups (the inner loop of `netip.Addr.appendTo6`). -/
def zeroRun (ip : List Nat) : Nat → Nat → Nat
  | 0, _ => 0
  | n + 1, i => if i < 8 ∧ v6u16 ip i = 0 then zeroRun ip n (i + 1) + 1 else 0

/-- The first loop of `netip.Addr.appendTo6`: the longest run of at least two zero
groups, the first one on a tie, as `(zeroStart, zeroEnd)`; `(255, 255)` when there
is none.  `n` groups remain to be visited from group `i`. -/
def zeroSpan (ip : List Nat) : Nat → Nat → Nat × Nat → Nat × Nat
  | 0, _, best => best
  | n + 1, i, best =>
    let l := zeroRun ip 8 i
    if l ≥ 2 ∧ l > best.2 - best.1 then zeroSpan ip n (i + 1) (i, i + l)
    else zeroSpan ip n (i + 1) best

/-- The second loop of `netip.Addr.appendTo6`, from group `i` with `n` iterations
left. -/
def appendGroups (ip : List Nat) (zeroStart zeroEnd : Nat) : Nat → Nat → List Char
  | 0, _ => []
  | n + 1, i =>
    if i ≥ 8 then []
    else if i = zeroStart then
      if zeroEnd ≥ 8 then [':', ':']
      else [':', ':'] ++ appendHex (v6u16 ip zeroEnd) ++
        appendGroups ip zeroStart zeroEnd n (zeroEnd + 1)
    else
      (if i > 0 then [':'] else []) ++ appendHex (v6u16 ip i) ++
        appendGroups ip zeroStart zeroEnd n (i + 1)

/-- Go `netip.Addr.string6` for an address without zone. -/
def string6 (ip : List Nat) : List Char :=
  let span := zeroSpan ip 8 0 (255, 255)
  appendGroups ip span.1 span.2 8 0

/-- Go `net.hexString`: two lower-case hexadecimal digits per byte. -/
def hexString (b : List Nat) : List Char :=
  b.flatMap (fun v => [hexDigit (v / 16 % 16), hexDigit (v % 16)])

/-- Go `net.IP.String`. -/
def IP.String (ip : IP) : String :=
  if ip.length = 0 then "<nil>"
  else if ip.length ≠ 4 ∧ ip.length ≠ 16 then String.mk ('?' :: hexString ip)
  else
    match To4 ip with
    | some p4 => String.mk (string4 p4)
    | none => String.mk (string6 ip)

/-- The loop of Go `net.CIDRMask`: `l` mask bytes with `n` one-bits left to place. -/
def cidrMaskBytes : Nat → Nat → List Nat
  | 0, _ => []
  | l + 1, n =>
    if n ≥ 8 then 0xff :: cidrMaskBytes l (n - 8)
    else (255 - 255 / 2 ^ n) :: cidrMaskBytes l 0

/-- Go `net.CIDRMask(ones, bits)`; the nil mask is the empty list. -/
def CIDRMask (ones bits : Nat) : List Nat :=
  if bits ≠ 32 ∧ bits ≠ 128 then []
  else if ones > bits then []
  else cidrMaskBytes (bits / 8) ones

/-- Bytewise AND of an address with a mask of the same length. -/
def andBytes : List Nat → List Nat → List Nat
  | a :: as, m :: ms => (a &&& m) :: andBytes as ms
  | _, _ => []

/-- Go `net.IP.Mask`; the nil result is the empty list. -/
def IP.Mask (ip : IP) (mask : List Nat) : IP :=
  let mask1 := if mask.length = 16 ∧ ip.length = 4 ∧ mask.take 12 = List.replicate 12 0xff
    then mask.drop 12 else mask
  let ip1 := if mask1.length = 4 ∧ ip.length = 16 ∧ ip.take 12 = v4InV6Head
    then ip.drop 12 else ip
  if ip1.length ≠ mask1.length then [] else andBytes ip1 mask1

/-- Go `net.IPNet`: a network number and its mask. -/
structure IPNet where
  IP : GoIP.IP
  Mask : List Nat
deriving DecidableEq, Repr

/-- Go `net.ParseError` (its `Type` field is `Kind` here). -/
structure ParseError where
  Kind : String
  Text : String
deriving DecidableEq, Repr

/-- Go `net.dtoi`: the decimal number at the start of the text and the count of
digits read; fails on no digit or on a value of `0xFFFFFF` or more. -/
def dtoiLoop : List Char → Nat → Nat → Option (Nat × Nat)
  | [], n, i => if i = 0 then none else some (n, i)
  | c :: cs, n, i =>
    if isDigit c then
      let n1 := n * 10 + digitVal c
      if n1 ≥ 0xFFFFFF then none else dtoiLoop cs n1 (i + 1)
    else if i = 0 then none else some (n, i)

/-- Go `net.dtoi`. -/
def dtoi (s : List Char) : Option (Nat × Nat) := dtoiLoop s 0 0

/-- Go `net.ParseCIDR`, keeping the network (the second result). -/
def ParseCIDR (s : String) : Except ParseError IPNet :=
  match cutAt '/' s.data with
  | (_, none) => .error ⟨"CIDR address", s⟩
  | (addr, some mask) =>
    match ParseAddr (String.mk addr) with
    | none => .error ⟨"CIDR address", s⟩
    | some ipAddr =>
      if ipAddr.Zone ≠ "" then .error ⟨"CIDR address", s⟩
      else
        match dtoi mask with
        | none => .error ⟨"CIDR address", s⟩
        | some (n, i) =>
          if i ≠ mask.length ∨ n > ipAddr.BitLen then .error ⟨"CIDR address", s⟩
          else
            let m := CIDRMask n ipAddr.BitLen
            .ok ⟨IP.Mask ipAddr.As16 m, m⟩

/-- Go `net.networkNumberAndMask`; a nil result is a pair of empty lists. -/
def networkNumberAndMask (n : IPNet) : List Nat × List Nat :=
  let ip4 := To4 n.IP
  let ip := ip4.getD n.IP
  if ip4 = none ∧ ip.length ≠ 16 then ([], [])
  else if n.Mask.length = 4 then
    if ip.length ≠ 4 then ([], []) else (ip, n.Mask)
  else if n.Mask.length = 16 then
    if ip.length = 4 then (ip, n.Mask.drop 12) else (ip, n.Mask)
  else ([], [])

/-- The comparison loop of Go `net.IPNet.Contains`: the first `l` bytes of network
number and address agree under the mask. -/
def maskedEq : List Nat → List Nat → List Nat → Nat → Bool
  | _, _, _, 0 => true
  | nn, m, ip, l + 1 =>
    if nn.getD 0 0 &&& m.getD 0 0 ≠ ip.getD 0 0 &&& m.getD 0 0 then false
    else maskedEq (nn.drop 1) (m.drop 1) (ip.drop 1) l

/-- Go `net.IPNet.Contains`. -/
def IPNet.Contains (n : IPNet) (ip : GoIP.IP) : Bool :=
  let nm := networkNumberAndMask n
  let ip1 := (To4 ip).getD ip
  if ip1.length ≠ nm.1.length then false
  else maskedEq nm.1 nm.2 ip1 ip1.length

/-- Position of the first `c` in the text (Go `bytealg.IndexByteString`). -/
def indexByte (c : Char) : List Char → Option Nat
  | [] => none
  | x :: xs => if x = c then some 0 else (indexByte c xs).map (· + 1)

/-- Position of the last `c` in the text (Go `bytealg.LastIndexByteString`). -/
def lastIndexByte (c : Char) : List Char → Option Nat
  | [] => none
  | x :: xs =>
    match lastIndexByte c xs with
    | some i => some (i + 1)
    | none => if x = c then some 0 else none

/-- Go `net.SplitHostPort`: host and port, or the error (its text abridged). -/
def SplitHostPort (hostport : String) : Except String (String × String) :=
  let hp := hostport.data
  match lastIndexByte ':' hp with
  | none => .error "missing port in address"
  | some i =>
    let bracket : Except String (List Char × Nat × Nat) :=
      if hp.head? = some '[' then
        match indexByte ']' hp with
        | none => .error "missing ] in address"
        | some e =>
          if e + 1 = hp.length then .error "missing port in address"
          else if e + 1 = i then .ok ((hp.drop 1).take (e - 1), 1, e + 1)
          else if hp.getD (e + 1) ' ' = ':' then .error "too many colons in address"
          else .error "missing port in address"
      else
        let host := hp.take i
        if host.contains ':' then .error "too many colons in address"
        else .ok (host, 0, 0)
    match bracket with
    | .error e => .error e
    | .ok (host, j, k) =>
      if (hp.drop j).contains '[' then .error "unexpected [ in address"
      else if (hp.drop k).contains ']' then .error "unexpected ] in address"
      else .ok (String.mk host, String.mk (hp.drop (i + 1)))

/-! ## `net/http.Header` -/

/-- Go `textproto.validHeaderFieldByte`: the token characters of RFC 7230. -/
def validHeaderFieldByte (c : Char) : Bool :=
  let n := c.toNat
  (48 ≤ n && n ≤ 57) || (65 ≤ n && n ≤ 90) || (97 ≤ n && n ≤ 122) ||
  [33, 35, 36, 37, 38, 39, 42, 43, 45, 46, 94, 95, 96, 124, 126].contains n

/-- The canonicalising loop of Go `textproto.canonicalMIMEHeaderKey`: upper case at
the start and after each dash, lower case elsewhere. -/
def canonLoop : List Char → Bool → List Char
  | [], _ => []
  | c :: cs, upper =>
    let c1 :=
      if upper ∧ 'a' ≤ c ∧ c ≤ 'z' then Char.ofNat (c.toNat - 32)
      else if ¬ upper ∧ 'A' ≤ c ∧ c ≤ 'Z' then Char.ofNat (c.toNat + 32)
      else c
    c1 :: canonLoop cs (c1 = '-')

/-- Go `textproto.CanonicalMIMEHeaderKey`: a key with a character outside the token
set is returned unchanged, any other key is canonicalised. -/
def CanonicalMIMEHeaderKey (s : String) : String :=
  if s.data.all validHeaderFieldByte then String.mk (canonLoop s.data true) else s

/-- Go `http.Header`: a map from canonical header names to the values received. -/
abbrev Header := List (String × List String)

/-- Go `http.Header.Get`: the first value stored under the canonical form of the
key, the empty string when there is none. -/
def Header.Get (h : Header) (key : String) : String :=
  match h.lookup (CanonicalMIMEHeaderKey key) with
  | none => ""
  | some v => v.headD ""

/-- Go `http.Request`, reduced to what `ClientIP` reads; a nil `Header` is `none`. -/
structure Request where
  Header : Option Header
  RemoteAddr : String

/-! ## The pair pattern of `ParseForwardedHeader`

The Go regular expression
`(?i)(for|by|host|proto)=("[^"]+"|\[[^\]]+\]|[^;,\s]+)`
under the leftmost-first semantics of package `regexp`. -/

/-- Whether the input character `c` matches the pattern letter `p` (a lower-case
ASCII letter) under the `(?i)` flag: Go folds case with `unicode.SimpleFold`, so the
letter matches itself, its upper case and, for `s`, U+017F (long s). -/
def foldMatch (p c : Char) : Bool :=
  c = p || c = Char.ofNat (p.toNat - 32) || (p = 's' && c = Char.ofNat 0x17F)

/-- Match the literal `pat` case-insensitively at the start of the input: the
matched text and the rest. -/
def matchLit : List Char → List Char → Option (List Char × List Char)
  | [], cs => some ([], cs)
  | _ :: _, [] => none
  | p :: ps, c :: cs =>
    if foldMatch p c then
      match matchLit ps cs with
      | none => none
      | some (m, rest) => some (c :: m, rest)
    else none

/-- The key group `(for|by|host|proto)`: the alternatives in order. -/
def matchKey (cs : List Char) : Option (List Char × List Char) :=
  match matchLit "for".data cs with
  | some r => some r
  | none =>
    match matchLit "by".data cs with
    | some r => some r
    | none =>
      match matchLit "host".data cs with
      | some r => some r
      | none => matchLit "proto".data cs

/-- A delimited value `open [^close]+ close`: the matched text (delimiters included)
and the rest. -/
def matchDelimited (opn cls : Char) : List Char → Option (List Char × List Char)
  | [] => none
  | c :: cs =>
    if c ≠ opn then none
    else
      let body := cs.takeWhile (· ≠ cls)
      if body = [] then none
      else
        match cs.dropWhile (· ≠ cls) with
        | [] => none
        | _ :: rest => some (opn :: body ++ [cls], rest)

/-- The class `[;,\s]`: Go `\s` is space, tab, newline, form feed, carriage
return. -/
def isPairSep (c : Char) : Bool :=
  c = ';' || c = ',' || c = ' ' || c = '\t' || c = '\n' || c = Char.ofNat 12 || c = '\r'

/-- The value group: a quoted string, else a bracketed literal, else a bare token
(the longest run outside `[;,\s]`). -/
def matchValue (cs : List Char) : Option (List Char × List Char) :=
  match matchDelimited '"' '"' cs with
  | some r => some r
  | none =>
    match matchDelimited '[' ']' cs with
    | some r => some r
    | none =>
      let tok := cs.takeWhile (fun c => !isPairSep c)
      if tok = [] then none else some (tok, cs.dropWhile (fun c => !isPairSep c))

/-- One match of the whole pattern at the start of the input: the two captured
groups and the number of characters matched. -/
def matchPair (cs : List Char) : Option (String × String × Nat) :=
  match matchKey cs with
  | none => none
  | some (key, rest) =>
    match rest with
    | '=' :: rest1 =>
      match matchValue rest1 with
      | none => none
      | some (value, _) => some (String.mk key, String.mk value, key.length + 1 + value.length)
    | _ => none

/-- Go `Regexp.FindAllStringSubmatch(element, -1)`, keeping the two groups of each
match: successive non-overlapping matches, each the leftmost one after the end of
the previous.  `skip` counts the characters of the current match still to pass. -/
def findAllPairs : Nat → List Char → List (String × String)
  | _, [] => []
  | skip + 1, _ :: cs => findAllPairs skip cs
  | 0, c :: cs =>
    match matchPair (c :: cs) with
    | some (key, value, n) => (key, value) :: findAllPairs (n - 1) cs
    | none => findAllPairs 0 cs

/-! ## `goip.go` -/

/-- The header names of `goip.go`. -/
def Forwarded : String := "Forwarded"

/-- `XForwardedFor`. -/
def XForwardedFor : String := "X-Forwarded-For"

/-- `XRealIP`. -/
def XRealIP : String := "X-Real-IP"

/-- `XAppEngineRemoteAddr`. -/
def XAppEngineRemoteAddr : String := "X-Appengine-Remote-Addr"

/-- `remoteIPHeaders`. -/
def remoteIPHeaders : List String := [XForwardedFor, XRealIP]

/-- `trustedCIDRs`, the default list of trusted networks. -/
def trustedCIDRs : List String :=
  ["0.0.0.0/0", "127.0.0.1/8", "10.0.0.0/8", "172.16.0.0/12", "192.168.0.0/16",
   "169.254.0.0/16", "::/0", "::1/128", "fc00::/7", "fe80::/10"]

/-- `parseIP`: the address in 4-byte form when it is IPv4, else in 16-byte form, or
`none` (nil). -/
def parseIP (ip : String) : Option IP :=
  match ParseIP ip with
  | none => none
  | some parsedIP =>
    match To4 parsedIP with
    | some ipv4 => some ipv4
    | none => some parsedIP

/-- The loop body of `parseCIDRs` for one entry: the text handed to `net.ParseCIDR`,
or the error for a bare entry that is not an IP address. -/
def cidrText (trustedProxy : String) : Except ParseError String :=
  if !Contains trustedProxy '/' then
    match parseIP trustedProxy with
    | none => .error ⟨"IP address", trustedProxy⟩
    | some ip =>
      if ip.length = 4 then .ok (trustedProxy ++ "/32")
      else if ip.length = 16 then .ok (trustedProxy ++ "/128")
      else .ok trustedProxy
  else .ok trustedProxy

/-- The loop of `parseCIDRs`: `cidr` holds the networks appended so far. -/
def parseCIDRsLoop : List String → List IPNet → Except ParseError (List IPNet)
  | [], cidr => .ok cidr
  | trustedProxy :: rest, cidr =>
    match cidrText trustedProxy with
    | .error e => .error e
    | .ok text =>
      match ParseCIDR text with
      | .error e => .error e
      | .ok cidrNet => parseCIDRsLoop rest (cidr ++ [cidrNet])

/-- `parseCIDRs`.  A nil result slice is the empty list. -/
def parseCIDRs (proxies : Option (List String)) : Except ParseError (List IPNet) :=
  match proxies with
  | none => .ok []
  | some l => parseCIDRsLoop l []

/-- `defaultTrustedCIDRs` as `init` leaves it. -/
def defaultTrustedCIDRs : List IPNet :=
  match parseCIDRs (some trustedCIDRs) with
  | .ok l => l
  | .error _ => []

/-- `Parser`.  `trustedCIDRs` is the slice behind the atomic pointer, `none` while
the pointer is nil (the zero value of the struct). -/
structure Parser where
  trustedCIDRs : Option (List IPNet)
  xHeader : List String
deriving DecidableEq

/-- `NewParse`. -/
def NewParse (proxies : Option (List String)) (customHeader : List String) :
    Except ParseError Parser :=
  if proxies = none ∨ (proxies.getD []).length ≤ 0 then
    .ok ⟨some defaultTrustedCIDRs, customHeader⟩
  else
    match parseCIDRs proxies with
    | .error err => .error err
    | .ok cidrs => .ok ⟨some cidrs, customHeader⟩

/-- `defaultParser` as `init` leaves it. -/
def defaultParser : Parser :=
  match NewParse none [] with
  | .ok p => p
  | .error _ => ⟨none, []⟩

/-- `(*Parser).SetTrustedProxies`: the parser after the call and the error
returned (`none` for nil). -/
def Parser.SetTrustedProxies (p : Parser) (proxies : Option (List String)) :
    Parser × Option ParseError :=
  match parseCIDRs proxies with
  | .error err => (p, some err)
  | .ok cidrs => ({ p with trustedCIDRs := some cidrs }, none)

/-- `(*Parser).isTrustedProxy`. -/
def Parser.isTrustedProxy (p : Parser) (ip : IP) : Bool :=
  match p.trustedCIDRs with
  | none => false
  | some cidrs => cidrs.any (fun cidr => cidr.Contains ip)

/-- The loop of `validateXHeader`, entered with `i + 1 = n`: it visits `items[i]`,
then `items[i-1]`, and so on. -/
def validateXHeaderLoop (p : Parser) (items : List String) : Nat → String × Bool
  | 0 => ("", false)
  | i + 1 =>
    let ipStr := TrimSpace (items.getD i "")
    match ParseIP ipStr with
    | none => ("", false)
    | some ip =>
      if i = 0 ∨ ¬ p.isTrustedProxy ip then (ipStr, true)
      else validateXHeaderLoop p items i

/-- `(*Parser).validateXHeader`. -/
def Parser.validateXHeader (p : Parser) (header : String) : String × Bool :=
  if header = "" then ("", false)
  else
    let items := Split header ','
    validateXHeaderLoop p items items.length

/-- `ForwardedHeader`. -/
structure ForwardedHeader where
  For : String
  By : String
  Host : String
  Proto : String
deriving DecidableEq, Repr

/-- The inner loop of `ParseForwardedHeader` over the pairs of one element. -/
def applyPairs : List (String × String) → ForwardedHeader → Except String ForwardedHeader
  | [], forwarded => .ok forwarded
  | pair :: pairs, forwarded =>
    let key := ToLower pair.1
    let value := Trim (Trim pair.2 "\"") "[]"
    if key = "for" then applyPairs pairs { forwarded with For := value }
    else if key = "by" then applyPairs pairs { forwarded with By := value }
    else if key = "host" then applyPairs pairs { forwarded with Host := value }
    else if key = "proto" then applyPairs pairs { forwarded with Proto := value }
    else .error ("unknown forwarded header key: " ++ key)

/-- The outer loop of `ParseForwardedHeader` over the elements; `result` holds the
elements appended so far. -/
def parseElements : List String → List ForwardedHeader →
    Except String (List ForwardedHeader)
  | [], result => .ok result
  | element :: elements, result =>
    match applyPairs (findAllPairs 0 element.data) ⟨"", "", "", ""⟩ with
    | .error e => .error e
    | .ok forwarded => parseElements elements (result ++ [forwarded])

/-- `ParseForwardedHeader`. -/
def ParseForwardedHeader (headerValue : String) : Except String (List ForwardedHeader) :=
  parseElements (Split headerValue ',') []

/-- The loop of `validateHeader`, entered with `i + 1 = n`. -/
def validateHeaderLoop (p : Parser) (items : List ForwardedHeader) : Nat → String × Bool
  | 0 => ("", false)
  | i + 1 =>
    let ipStr := (items.getD i ⟨"", "", "", ""⟩).For
    match ParseIP ipStr with
    | none => ("", false)
    | some ip =>
      if i = 0 ∨ ¬ p.isTrustedProxy ip then (ipStr, true)
      else validateHeaderLoop p items i

/-- `(*Parser).validateHeader`. -/
def Parser.validateHeader (p : Parser) (header : String) : String × Bool :=
  if header = "" then ("", false)
  else
    match ParseForwardedHeader header with
    | .error _ => ("", false)
    | .ok items => validateHeaderLoop p items items.length

/-- The first loop of `ClientIP`: the value of the first header of the list that
is not empty. -/
def firstHeaderValue (getValue : String → String) : List String → Option String
  | [] => none
  | h :: hs =>
    let value := getValue h
    if value ≠ "" then some value else firstHeaderValue getValue hs

/-- The second loop of `ClientIP`: the address of the first header of the list whose
walk is valid. -/
def firstValidXHeader (p : Parser) (getValue : String → String) : List String → Option String
  | [] => none
  | h :: hs =>
    let r := p.validateXHeader (getValue h)
    if r.2 then some r.1 else firstValidXHeader p getValue hs

/-- The host that `ClientIP` reads from `RemoteAddr`: `net.SplitHostPort` on the
trimmed address, the empty string when it fails. -/
def remoteHost (remoteAddr : String) : String :=
  match SplitHostPort (TrimString remoteAddr) with
  | .ok hp => hp.1
  | .error _ => ""

/-- `(*Parser).ClientIP`; a nil request is `none`. -/
def Parser.ClientIP (p : Parser) (req : Option Request) (customHeader : List String) :
    String :=
  match req with
  | none => ""
  | some r =>
    match r.Header with
    | none => ""
    | some header =>
      let getValue := header.Get
      let xHeader := p.xHeader ++ customHeader
      match firstHeaderValue getValue xHeader with
      | some value => value
      | none =>
        match ParseIP (remoteHost r.RemoteAddr) with
        | none => ""
        | some remoteIp =>
          let trusted := p.isTrustedProxy remoteIp
          if !trusted then IP.String remoteIp
          else
            match firstValidXHeader p getValue remoteIPHeaders with
            | some ip => ip
            | none =>
              let r1 := p.validateHeader (getValue Forwarded)
              if r1.2 then r1.1 else IP.String remoteIp

/-- The package-level `ClientIP`, on the default parser `d`. -/
def ClientIP (d : Parser) (req : Option Request) (customHeader : List String) : String :=
  d.ClientIP req customHeader

/-- The package-level `SetTrustedProxies`, on the default parser `d`. -/
def SetTrustedProxies (d : Parser) (proxies : Option (List String)) :
    Parser × Option ParseError :=
  d.SetTrustedProxies proxies

/-! ## Notions used to state the properties -/

/-- The value a request carries for a header name: `req.Header.Get(key)`, the empty
string when the request has no header set. -/
def Request.Get (r : Request) (key : String) : String :=
  match r.Header with
  | none => ""
  | some h => h.Get key

/-- The comma-separated, whitespace-trimmed segments of a header value. -/
def segments (value : String) : List String :=
  (Split value ',').map TrimSpace

/-- A text is a valid IP address when `net.ParseIP` accepts it. -/
def validIP (s : String) : Bool :=
  (ParseIP s).isSome

/-- A text is a valid CIDR string when `net.ParseCIDR` accepts it. -/
def validCIDR (s : String) : Bool :=
  match ParseCIDR s with
  | .ok _ => true
  | .error _ => false

/-- Whether one pass of the loop body of `parseCIDRs` goes through for an entry:
`cidrText` gives a text and `net.ParseCIDR` accepts it. -/
def entryOK (e : String) : Bool :=
  match cidrText e with
  | .error _ => false
  | .ok text => validCIDR text

/-- The value a possibly nil request carries for a header name. -/
def headerValue (req : Option Request) (key : String) : String :=
  match req with
  | none => ""
  | some r => r.Get key

/-- The element `ParseForwardedHeader` builds from one comma-separated segment: the
body of its outer loop. -/
def parseElement (element : String) : Except String ForwardedHeader :=
  applyPairs (findAllPairs 0 element.data) ⟨"", "", "", ""⟩

/-- A token: a text with no comma, semicolon, double quote, square bracket or
whitespace. -/
def isToken (t : String) : Bool :=
  t.data.all (fun c => !(c = ',' || c = ';' || c = '"' || c = '[' || c = ']' || isSpace c))

/-- The `Forwarded` value `for=x_1, for=x_2, ..., for=x_n`. -/
def forwardedOf : List String → String
  | [] => ""
  | [x] => "for=" ++ x
  | x :: y :: ys => "for=" ++ x ++ ", " ++ forwardedOf (y :: ys)

/-- The `X-Forwarded-For` value `x_1, x_2, ..., x_n`. -/
def xffOf : List String → String
  | [] => ""
  | [x] => x
  | x :: y :: ys => x ++ ", " ++ xffOf (y :: ys)

/-- The element whose field for `key` is `t` and whose other fields are empty. -/
def elementWith (key t : String) : ForwardedHeader :=
  if key = "for" then ⟨t, "", "", ""⟩
  else if key = "by" then ⟨"", t, "", ""⟩
  else if key = "host" then ⟨"", "", t, ""⟩
  else if key = "proto" then ⟨"", "", "", t⟩
  else ⟨"", "", "", ""⟩

/-- The values of the hexadecimal digits `appendHex` writes for a 16-bit group. -/
def hexDigits (x : Nat) : List Nat :=
  (if x ≥ 0x1000 then [x / 0x1000] else []) ++
  (if x ≥ 0x100 then [x / 0x100 % 16] else []) ++
  (if x ≥ 0x10 then [x / 0x10 % 16] else []) ++
  [x % 16]

/-- The parser `myParse` of `example_test.go`, `NewParse([]string{"127.0.0.1"})`:
only `127.0.0.1` is a trusted proxy. -/
def exampleParser : Parser :=
  match NewParse (some ["127.0.0.1"]) [] with
  | .ok p => p
  | .error _ => ⟨none, []⟩

/-! ## Properties of `ClientIP` -/

/-- The first loop of `ClientIP` finds nothing when every header of the list has an
empty value. -/
theorem firstHeaderValue_none (getValue : String → String) (L : List String)
    (h : ∀ x ∈ L, getValue x = "") : firstHeaderValue getValue L = none := by
  induction L with
  | nil => rfl
  | cons x xs ih =>
    have hx : getValue x = "" := h x (by simp)
    simp only [firstHeaderValue, hx]
    simpa using ih (fun y hy => h y (by simp [hy]))

/-- With no preferred header matching, an untrusted peer decides the result. -/
theorem ClientIP_of_untrusted (p : Parser) (header : Header) (remoteAddr : String)
    (customHeader : List String) (remoteIp : IP)
    (hpref : ∀ h ∈ p.xHeader ++ customHeader, header.Get h = "")
    (hpeer : ParseIP (remoteHost remoteAddr) = some remoteIp)
    (hun : p.isTrustedProxy remoteIp = false) :
    p.ClientIP (some ⟨some header, remoteAddr⟩) customHeader = IP.String remoteIp := by
  have hnone := firstHeaderValue_none header.Get _ hpref
  simp [Parser.ClientIP, hnone, hpeer, hun]

/-- C1, as stated, fails on a request without a header set: the example parser has
no preferred header, the peer `1.2.3.4` parses and is not trusted, yet `ClientIP`
returns the empty string instead of the peer address, while the request that
differs from it only in having an (empty) header set gets the peer address. -/
theorem C1_counterexample_nil_header :
    exampleParser.xHeader = [] ∧
    ParseIP (remoteHost "1.2.3.4:80") = some [0, 0, 0, 0, 0, 0, 0, 0, 0, 0, 255, 255, 1, 2, 3, 4] ∧
    exampleParser.isTrustedProxy [0, 0, 0, 0, 0, 0, 0, 0, 0, 0, 255, 255, 1, 2, 3, 4] = false ∧
    IP.String [0, 0, 0, 0, 0, 0, 0, 0, 0, 0, 255, 255, 1, 2, 3, 4] = "1.2.3.4" ∧
    exampleParser.ClientIP (some ⟨none, "1.2.3.4:80"⟩) [] = "" ∧
    exampleParser.ClientIP (some ⟨some [], "1.2.3.4:80"⟩) [] = "1.2.3.4" := by
  decide

/-- C1 (amended): for a parser with no preferred headers and none supplied at the
call, and a request with a header set whose peer address parses as an IP outside
the trusted set, `ClientIP` returns the peer address (the text `net.IP.String`
gives the parsed address) whatever the headers are: two requests that differ only
in their headers give the same result. -/
theorem C1_untrusted_peer_ignores_headers (p : Parser) (h1 h2 : Header)
    (remoteAddr : String) (remoteIp : IP)
    (hx : p.xHeader = [])
    (hpeer : ParseIP (remoteHost remoteAddr) = some remoteIp)
    (hun : p.isTrustedProxy remoteIp = false) :
    p.ClientIP (some ⟨some h1, remoteAddr⟩) [] = IP.String remoteIp ∧
    p.ClientIP (some ⟨some h2, remoteAddr⟩) [] =
      p.ClientIP (some ⟨some h1, remoteAddr⟩) [] := by
  have e1 := ClientIP_of_untrusted p h1 remoteAddr [] remoteIp
    (by simp [hx]) hpeer hun
  have e2 := ClientIP_of_untrusted p h2 remoteAddr [] remoteIp
    (by simp [hx]) hpeer hun
  exact ⟨e1, by rw [e1, e2]⟩

/-- C1 (amended), at the example parser: the peer `127.0.0.2` is not trusted, and
forged forwarding headers do not change the result. -/
theorem C1_untrusted_peer_ignores_headers_witness :
    exampleParser.ClientIP (some ⟨some [("X-Forwarded-For", ["6.6.6.6"])], "127.0.0.2:99"⟩) []
      = "127.0.0.2" ∧
    exampleParser.ClientIP (some ⟨some [("Forwarded", ["for=7.7.7.7"])], "127.0.0.2:99"⟩) []
      = exampleParser.ClientIP
          (some ⟨some [("X-Forwarded-For", ["6.6.6.6"])], "127.0.0.2:99"⟩) [] :=
  C1_untrusted_peer_ignores_headers exampleParser [("X-Forwarded-For", ["6.6.6.6"])]
    [("Forwarded", ["for=7.7.7.7"])] "127.0.0.2:99"
    [0, 0, 0, 0, 0, 0, 0, 0, 0, 0, 255, 255, 127, 0, 0, 2] (by decide) (by decide) (by decide)

/-- The empty text is not an IP literal. -/
theorem ParseIP_empty : ParseIP "" = none := by decide

/-- Trimming the empty text gives the empty text. -/
theorem TrimSpace_empty : TrimSpace "" = "" := by decide

/-- The segments of a value are the trimmed pieces of its split, position by
position. -/
theorem segments_getD (value : String) (k : Nat) :
    (segments value).getD k "" = TrimSpace ((Split value ',').getD k "") := by
  unfold segments
  generalize Split value ',' = l
  induction l generalizing k with
  | nil => simp [TrimSpace_empty]
  | cons x xs ih =>
    cases k with
    | zero => simp
    | succ k => simpa using ih k

/-- The right-to-left walk of `validateXHeader`: when every item right of `j` (below
`n`) is a trusted IP and item `j` is an IP that is untrusted or leftmost, the walk
from `n` returns item `j`, trimmed. -/
theorem validateXHeaderLoop_stops (p : Parser) (items : List String) (j : Nat) (a : IP)
    (hsj : ParseIP (TrimSpace (items.getD j "")) = some a)
    (hout : p.isTrustedProxy a = false ∨ j = 0) :
    ∀ n, j < n →
      (∀ k, j < k → k < n →
        ∃ b, ParseIP (TrimSpace (items.getD k "")) = some b ∧ p.isTrustedProxy b = true) →
      validateXHeaderLoop p items n = (TrimSpace (items.getD j ""), true) := by
  intro n
  induction n with
  | zero => intro h; omega
  | succ m ih =>
    intro hj hright
    by_cases hjm : j = m
    · subst hjm
      rcases hout with hu | h0
      · simp only [validateXHeaderLoop, hsj, hu]
        simp
      · subst h0
        simp only [validateXHeaderLoop, hsj]
        simp
    · have hlt : j < m := by omega
      obtain ⟨b, hb, hbt⟩ := hright m hlt (by omega)
      have hm0 : m ≠ 0 := by omega
      have hrec := ih hlt (fun k hk1 hk2 => hright k hk1 (by omega))
      simp only [validateXHeaderLoop, hb, hbt, hrec]
      simp [hm0]

/-- C2: for a trusted peer and no preferred header matching, when the segments
`s_0..s_n` of the `X-Forwarded-For` value have an index `j` such that every segment
right of `j` parses as a trusted IP and `s_j` parses as an IP that is untrusted or
has `j = 0`, `ClientIP` returns `s_j`, whatever the segments left of `j` are. -/
theorem C2_xff_rightmost_untrusted (p : Parser) (req : Request) (customHeader : List String)
    (remoteIp : IP) (j : Nat) (a : IP)
    (hpref : ∀ h ∈ p.xHeader ++ customHeader, req.Get h = "")
    (hpeer : ParseIP (remoteHost req.RemoteAddr) = some remoteIp)
    (htrust : p.isTrustedProxy remoteIp = true)
    (hj : j < (segments (req.Get XForwardedFor)).length)
    (hright : ∀ k, j < k → k < (segments (req.Get XForwardedFor)).length →
      ∃ b, ParseIP ((segments (req.Get XForwardedFor)).getD k "") = some b ∧
        p.isTrustedProxy b = true)
    (hsj : ParseIP ((segments (req.Get XForwardedFor)).getD j "") = some a)
    (hout : p.isTrustedProxy a = false ∨ j = 0) :
    p.ClientIP (some req) customHeader = (segments (req.Get XForwardedFor)).getD j "" := by
  obtain ⟨hdr, addr⟩ := req
  cases hdr with
  | none =>
    exfalso
    have hget : Request.Get ⟨none, addr⟩ XForwardedFor = "" := rfl
    have hseg : segments "" = [""] := by decide
    rw [hget, hseg] at hj hsj
    have hj0 : j = 0 := by simpa using hj
    subst hj0
    simp [ParseIP_empty] at hsj
  | some header =>
    have hget : ∀ k, Request.Get ⟨some header, addr⟩ k = header.Get k := fun _ => rfl
    have hnone : firstHeaderValue header.Get (p.xHeader ++ customHeader) = none :=
      firstHeaderValue_none header.Get _ (fun h hh => by rw [← hget]; exact hpref h hh)
    rw [hget] at hj hright hsj ⊢
    simp only [segments_getD] at hright hsj ⊢
    have hlen : (segments (header.Get XForwardedFor)).length =
        (Split (header.Get XForwardedFor) ',').length := by simp [segments]
    rw [hlen] at hj hright
    have hne : header.Get XForwardedFor ≠ "" := by
      intro h0
      rw [h0] at hj hsj
      have hs : Split "" ',' = [""] := by decide
      rw [hs] at hj hsj
      have hj0 : j = 0 := by simpa using hj
      subst hj0
      simp [TrimSpace_empty, ParseIP_empty] at hsj
    have hwalk := validateXHeaderLoop_stops p (Split (header.Get XForwardedFor) ',') j a
      hsj hout _ hj hright
    simp [Parser.ClientIP, hnone, hpeer, htrust, remoteIPHeaders, firstValidXHeader,
      Parser.validateXHeader, hne, hwalk]

/-- C2 at the example of the repository: the trusted peer `127.0.0.1` forwards
`123.123.0,1, 123.123.0.2`, whose right-most segment is an untrusted IP. -/
theorem C2_xff_rightmost_untrusted_witness :
    exampleParser.ClientIP
      (some ⟨some [("X-Forwarded-For", ["123.123.0,1, 123.123.0.2"])], "127.0.0.1:8080"⟩) []
      = "123.123.0.2" :=
  C2_xff_rightmost_untrusted exampleParser
    ⟨some [("X-Forwarded-For", ["123.123.0,1, 123.123.0.2"])], "127.0.0.1:8080"⟩ []
    [0, 0, 0, 0, 0, 0, 0, 0, 0, 0, 255, 255, 127, 0, 0, 1] 2
    [0, 0, 0, 0, 0, 0, 0, 0, 0, 0, 255, 255, 123, 123, 0, 2]
    (by decide) (by decide) (by decide) (by decide)
    (fun k h1 h2 => absurd h2 (by
      have : (segments (Request.Get
        ⟨some [("X-Forwarded-For", ["123.123.0,1, 123.123.0.2"])], "127.0.0.1:8080"⟩
        XForwardedFor)).length = 3 := by decide
      omega))
    (by decide) (Or.inl (by decide))

/-- The first loop of `ClientIP` returns the value of the first header of the list
whose value is not empty. -/
theorem firstHeaderValue_first (getValue : String → String) (L : List String) :
    ∀ i, i < L.length → getValue (L.getD i "") ≠ "" →
      (∀ k, k < i → getValue (L.getD k "") = "") →
      firstHeaderValue getValue L = some (getValue (L.getD i "")) := by
  induction L with
  | nil => intro i hi; simp at hi
  | cons x xs ih =>
    intro i hi hne hfirst
    cases i with
    | zero =>
      have hx : getValue x ≠ "" := by simpa using hne
      simp [firstHeaderValue, hx]
    | succ i =>
      have hx : getValue x = "" := by simpa using hfirst 0 (by omega)
      have hi1 : i < xs.length := by simpa using hi
      have hne1 : getValue (xs.getD i "") ≠ "" := by simpa using hne
      have hrec := ih i hi1 hne1 (fun k hk => by simpa using hfirst (k + 1) (by omega))
      simp only [firstHeaderValue, hx]
      simpa using hrec

/-- C3: for a request with a header set, if some header of the list `L` (the
configured preference list followed by the call-supplied headers) has a non-empty
value, `ClientIP` returns the value of the first such header verbatim, whatever
the peer address, the trusted set and the other headers are. -/
theorem C3_preferred_header_wins (p : Parser) (header : Header) (remoteAddr : String)
    (customHeader : List String) (i : Nat)
    (hi : i < (p.xHeader ++ customHeader).length)
    (hne : header.Get ((p.xHeader ++ customHeader).getD i "") ≠ "")
    (hfirst : ∀ k, k < i → header.Get ((p.xHeader ++ customHeader).getD k "") = "") :
    p.ClientIP (some ⟨some header, remoteAddr⟩) customHeader =
      header.Get ((p.xHeader ++ customHeader).getD i "") := by
  have h := firstHeaderValue_first header.Get (p.xHeader ++ customHeader) i hi hne hfirst
  simp only [Parser.ClientIP, h]

/-- C3 at an example: the configured header is empty, the call-supplied
`X-Appengine-Remote-Addr` carries a text that is no IP, and the peer address does
not parse; the header value is returned verbatim. -/
theorem C3_preferred_header_wins_witness :
    (⟨some [], ["X-My-IP"]⟩ : Parser).ClientIP
      (some ⟨some [("X-Appengine-Remote-Addr", ["9.9.9.9 (not an ip)"]),
        ("X-Forwarded-For", ["1.1.1.1"])], "nonsense"⟩) [XAppEngineRemoteAddr]
      = "9.9.9.9 (not an ip)" :=
  C3_preferred_header_wins ⟨some [], ["X-My-IP"]⟩
    [("X-Appengine-Remote-Addr", ["9.9.9.9 (not an ip)"]), ("X-Forwarded-For", ["1.1.1.1"])]
    "nonsense" [XAppEngineRemoteAddr] 1 (by decide) (by decide)
    (fun k hk => by
      have hk0 : k = 0 := by omega
      subst hk0
      decide)

/-! ## Properties of the trusted-proxy configuration -/

/-- C4 (evaluation at the failing input): the bare entry `::ffff:1.2.3.4` is accepted,
but the resulting set does not contain the address `1.2.3.4` in either of its
forms, and it does contain the unrelated address `::1`: the entry became the IPv6
network `::/32` instead of a single-address network. -/
theorem C4_mapped_bare_entry_evaluation :
    ((⟨none, []⟩ : Parser).SetTrustedProxies (some ["::ffff:1.2.3.4"])).2 = none ∧
    ((⟨none, []⟩ : Parser).SetTrustedProxies (some ["::ffff:1.2.3.4"])).1.trustedCIDRs =
      some [⟨[0, 0, 0, 0, 0, 0, 0, 0, 0, 0, 0, 0, 0, 0, 0, 0],
        [255, 255, 255, 255, 0, 0, 0, 0, 0, 0, 0, 0, 0, 0, 0, 0]⟩] ∧
    ParseIP "::ffff:1.2.3.4" = some [0, 0, 0, 0, 0, 0, 0, 0, 0, 0, 255, 255, 1, 2, 3, 4] ∧
    ((⟨none, []⟩ : Parser).SetTrustedProxies (some ["::ffff:1.2.3.4"])).1.isTrustedProxy
      [0, 0, 0, 0, 0, 0, 0, 0, 0, 0, 255, 255, 1, 2, 3, 4] = false ∧
    ((⟨none, []⟩ : Parser).SetTrustedProxies (some ["::ffff:1.2.3.4"])).1.isTrustedProxy
      [1, 2, 3, 4] = false ∧
    ParseIP "::1" = some [0, 0, 0, 0, 0, 0, 0, 0, 0, 0, 0, 0, 0, 0, 0, 1] ∧
    ((⟨none, []⟩ : Parser).SetTrustedProxies (some ["::ffff:1.2.3.4"])).1.isTrustedProxy
      [0, 0, 0, 0, 0, 0, 0, 0, 0, 0, 0, 0, 0, 0, 0, 1] = true := by
  decide

/-- After a successful `SetTrustedProxies(L)` the trusted set is the list of networks
`parseCIDRs` derived from `L` and nothing else: an address is trusted exactly when
one of these networks contains it, whatever the parser held before. -/
theorem isTrustedProxy_after_set (p : Parser) (L : Option (List String))
    (cidrs : List IPNet) (ip : IP) (h : parseCIDRs L = .ok cidrs) :
    (p.SetTrustedProxies L).2 = none ∧
    ((p.SetTrustedProxies L).1.isTrustedProxy ip = true ↔
      ∃ n ∈ cidrs, n.Contains ip = true) := by
  simp [Parser.SetTrustedProxies, h, Parser.isTrustedProxy]

/-- C5 (evaluation at the failing input): with `L = [::ffff:10.0.0.1, 192.168.0.0/16]`
the call succeeds; `192.168.3.4` is trusted and `192.169.0.0` is not, as the second
entry says, but `10.0.0.1`, the address the first entry names, is not trusted, and
`::5`, which lies in no network named by `L`, is trusted. -/
theorem C5_mapped_bare_entry_evaluation :
    (exampleParser.SetTrustedProxies (some ["::ffff:10.0.0.1", "192.168.0.0/16"])).2 = none ∧
    ParseIP "192.168.3.4" = some [0, 0, 0, 0, 0, 0, 0, 0, 0, 0, 255, 255, 192, 168, 3, 4] ∧
    (exampleParser.SetTrustedProxies
      (some ["::ffff:10.0.0.1", "192.168.0.0/16"])).1.isTrustedProxy
      [0, 0, 0, 0, 0, 0, 0, 0, 0, 0, 255, 255, 192, 168, 3, 4] = true ∧
    ParseIP "192.169.0.0" = some [0, 0, 0, 0, 0, 0, 0, 0, 0, 0, 255, 255, 192, 169, 0, 0] ∧
    (exampleParser.SetTrustedProxies
      (some ["::ffff:10.0.0.1", "192.168.0.0/16"])).1.isTrustedProxy
      [0, 0, 0, 0, 0, 0, 0, 0, 0, 0, 255, 255, 192, 169, 0, 0] = false ∧
    ParseIP "10.0.0.1" = some [0, 0, 0, 0, 0, 0, 0, 0, 0, 0, 255, 255, 10, 0, 0, 1] ∧
    (exampleParser.SetTrustedProxies
      (some ["::ffff:10.0.0.1", "192.168.0.0/16"])).1.isTrustedProxy
      [0, 0, 0, 0, 0, 0, 0, 0, 0, 0, 255, 255, 10, 0, 0, 1] = false ∧
    ParseIP "::5" = some [0, 0, 0, 0, 0, 0, 0, 0, 0, 0, 0, 0, 0, 0, 0, 5] ∧
    (exampleParser.SetTrustedProxies
      (some ["::ffff:10.0.0.1", "192.168.0.0/16"])).1.isTrustedProxy
      [0, 0, 0, 0, 0, 0, 0, 0, 0, 0, 0, 0, 0, 0, 0, 5] = true := by
  decide

/-- C6: when `SetTrustedProxies` returns an error, the parser is exactly what it
was before the call, so `isTrustedProxy` gives the same answer for every
address. -/
theorem C6_failed_set_keeps_previous (p : Parser) (L : Option (List String))
    (herr : (p.SetTrustedProxies L).2 ≠ none) :
    (p.SetTrustedProxies L).1 = p ∧
    ∀ ip, (p.SetTrustedProxies L).1.isTrustedProxy ip = p.isTrustedProxy ip := by
  have hp : (p.SetTrustedProxies L).1 = p := by
    unfold Parser.SetTrustedProxies at herr ⊢
    cases h : parseCIDRs L with
    | error e => rfl
    | ok cidrs => simp [h] at herr
  exact ⟨hp, fun ip => by rw [hp]⟩

/-- C6 at an example: the invalid entry sits after a valid one; the call fails and
the example parser still trusts `127.0.0.1` and nothing of `10.0.0.0/8`. -/
theorem C6_failed_set_keeps_previous_witness :
    (exampleParser.SetTrustedProxies (some ["10.0.0.0/8", "10.0.0.256"])).1 = exampleParser ∧
    ∀ ip, (exampleParser.SetTrustedProxies
      (some ["10.0.0.0/8", "10.0.0.256"])).1.isTrustedProxy ip =
        exampleParser.isTrustedProxy ip :=
  C6_failed_set_keeps_previous exampleParser (some ["10.0.0.0/8", "10.0.0.256"]) (by decide)

/-! ## Properties of `ParseForwardedHeader` -/

/-- C10 (evaluation at the failing input): on `bogus=1` the pair pattern finds no
match, so the parse succeeds with one element whose fields are all empty. -/
theorem C10_unknown_key_is_ignored :
    ParseForwardedHeader "bogus=1" = .ok [⟨"", "", "", ""⟩] ∧
    ParseForwardedHeader "for=1.2.3.4;bogus=1" = .ok [⟨"1.2.3.4", "", "", ""⟩] := by
  constructor <;> rfl

/-! ## Facts about the address parser -/


/-- A successful `parseIPv4Fields` loop yields four octets. -/
theorem parseIPv4Loop_length : ∀ (cs : List Char) (fields : List Nat) (val digLen : Nat)
    (first prevDot : Bool) (r : List Nat),
    fields.length ≤ 3 → parseIPv4Loop cs fields val digLen first prevDot = some r →
    r.length = 4 := by
  intro cs
  induction cs with
  | nil =>
    intro fields val digLen first prevDot r hf h
    simp only [parseIPv4Loop] at h
    split at h
    · cases h
    · cases h
      simp
      omega
  | cons c cs ih =>
    intro fields val digLen first prevDot r hf h
    simp only [parseIPv4Loop] at h
    split at h
    · split at h
      · cases h
      · split at h
        · cases h
        · exact ih _ _ _ _ _ _ hf h
    · split at h
      · split at h
        · cases h
        · split at h
          · cases h
          · rename_i h3
            refine ih _ _ _ _ _ _ ?_ h
            simp
            omega
      · cases h

/-- The text left by `hexGroup` is a suffix of its input, after hexadecimal digits
only. -/
theorem hexGroup_suffix : ∀ (cs : List Char) (off acc off1 acc1 : Nat) (rest : List Char),
    hexGroup cs off acc = some (off1, acc1, rest) → ∃ pre, cs = pre ++ rest ∧ ∀ c ∈ pre, (hexVal c).isSome := by
  intro cs
  induction cs with
  | nil =>
    intro off acc off1 acc1 rest h
    simp only [hexGroup] at h
    cases h
    exact ⟨[], rfl, by simp⟩
  | cons c cs ih =>
    intro off acc off1 acc1 rest h
    simp only [hexGroup] at h
    split at h
    · cases h
      exact ⟨[], rfl, by simp⟩
    · rename_i d hd
      split at h
      · cases h
      · split at h
        · cases h
        · obtain ⟨pre, hpre, hall⟩ := ih _ _ _ _ _ h
          refine ⟨c :: pre, by simp [hpre], ?_⟩
          intro x hx
          rcases List.mem_cons.1 hx with rfl | hx
          · simp [hd]
          · exact hall x hx

/-- The `parseIPv6` loop never writes more than 16 bytes, and the ellipsis position
lies within the bytes written. -/
theorem parseIPv6Loop_length : ∀ (n : Nat) (s : List Char) (ip : List Nat) (ell : Option Nat)
    (rest : List Char) (ip1 : List Nat) (ell1 : Option Nat),
    ip.length + 2 * n = 16 → (∀ e, ell = some e → e ≤ ip.length) →
    parseIPv6Loop n s ip ell = some (rest, ip1, ell1) →
    ip1.length ≤ 16 ∧ (∀ e, ell1 = some e → e ≤ ip1.length) := by
  intro n
  induction n with
  | zero =>
    intro s ip ell rest ip1 ell1 hlen hell h
    simp only [parseIPv6Loop] at h
    cases h
    exact ⟨by omega, hell⟩
  | succ n ih =>
    intro s ip ell rest ip1 ell1 hlen hell h
    simp only [parseIPv6Loop] at h
    split at h
    · cases h
    · rename_i off acc rest0 hg
      split at h
      · cases h
      · split at h
        · split at h
          · cases h
          · split at h
            · cases h
            · split at h
              · cases h
              · rename_i four h4
                cases h
                have hl4 := parseIPv4Loop_length _ _ _ _ _ _ _ (by simp) h4
                rename_i hle
                simp only [List.length_append, hl4]
                refine ⟨by omega, fun e he => ?_⟩
                have := hell e he
                omega
        · cases h
          simp only [List.length_append, List.length_cons, List.length_nil]
          refine ⟨by omega, fun e he => ?_⟩
          have := hell e he
          omega
        · split at h
          · cases h
          · split at h
            · cases h
            · split at h
              · cases h
              · split at h
                · cases h
                  simp only [List.length_append, List.length_cons, List.length_nil]
                  refine ⟨by omega, fun e he => ?_⟩
                  cases he
                  simp
                · refine ih _ _ _ _ _ _ ?_ ?_ h
                  · simp; omega
                  · intro e he; cases he; simp
            · refine ih _ _ _ _ _ _ ?_ ?_ h
              · simp; omega
              · intro e he
                have := hell e he
                simp; omega

/-- A successful `parseIPv6` yields 16 bytes. -/
theorem parseIPv6_length (input : List Char) (b : List Nat) (z : String)
    (h : parseIPv6 input = some (Addr.v6 b z)) : b.length = 16 := by
  unfold parseIPv6 at h
  simp only at h
  split at h
  · cases h
  · split at h
    · cases h
      simp
    · split at h
      · cases h
      · rename_i rest ip ell hloop
        have hstart : ∀ e, (match (cutAt '%' input).1 with
            | ':' :: ':' :: rest => (rest, some 0)
            | s => (s, none) : List Char × Option Nat).2 = some e → e ≤ ([] : List Nat).length := by
          intro e he
          split at he
          · cases he; simp
          · cases he
        have hinv := parseIPv6Loop_length 8 _ [] _ rest ip ell (by simp) hstart hloop
        split at h
        · cases h
        · split at h
          · split at h
            · cases h
            · rename_i e
              cases h
              have he := hinv.2 e rfl
              simp only [List.length_append, List.length_take, List.length_replicate,
                List.length_drop]
              omega
          · split at h
            · cases h
            · cases h
              omega

/-- The result of `parseIPv6` is never an IPv4 address. -/
theorem parseIPv6_not_v4 (input : List Char) (b : List Nat)
    (h : parseIPv6 input = some (Addr.v4 b)) : False := by
  unfold parseIPv6 at h
  simp only at h
  repeat (first | cases h | split at h)

/-- Every address `ParseAddr` returns has a 16-byte form of 16 bytes. -/
theorem parseAddrScan_length (s : List Char) : ∀ (cs : List Char) (a : Addr),
    parseAddrScan s cs = some a → a.As16.length = 16 := by
  intro cs
  induction cs with
  | nil => intro a h; cases h
  | cons c cs ih =>
    intro a h
    simp only [parseAddrScan] at h
    split at h
    · cases h4 : parseIPv4Fields s with
      | none => simp [h4] at h
      | some r =>
        simp [h4] at h
        subst h
        have := parseIPv4Loop_length _ _ _ _ _ _ _ (by simp) h4
        simp [Addr.As16, v4InV6Head, this]
    · split at h
      · cases a with
        | v4 b => exact (parseIPv6_not_v4 _ _ h).elim
        | v6 b z => exact parseIPv6_length _ _ _ h
      · split at h
        · cases h
        · exact ih a h

/-- Every address `net.ParseIP` returns has 16 bytes. -/
theorem ParseIP_length (s : String) (ip : IP) (h : ParseIP s = some ip) : ip.length = 16 := by
  unfold ParseIP at h
  split at h
  · cases h
  · rename_i a ha
    split at h
    · cases h
    · cases h
      exact parseAddrScan_length _ _ _ ha

/-! ## The default trusted set -/

/-- The result of `To4` has four bytes. -/
theorem To4_length (ip x : IP) (h : To4 ip = some x) : x.length = 4 := by
  unfold To4 at h
  split at h
  · cases h; assumption
  · split at h
    · rename_i h16
      cases h
      simp [h16.1]
    · cases h

/-- Under an all-zero mask every address agrees with every network number. -/
theorem maskedEq_zero_mask (l : Nat) : ∀ (k : Nat) (nn ip : List Nat),
    maskedEq nn (List.replicate k 0) ip l = true := by
  induction l with
  | zero => intro k nn ip; rfl
  | succ l ih =>
    intro k nn ip
    cases k with
    | zero => simp [maskedEq]; exact ih 0 _ _
    | succ k =>
      simp [maskedEq, List.replicate_succ]
      exact ih k _ _

/-- The network `0.0.0.0/0` contains every IPv4 address, in 4-byte or in
IPv4-mapped form. -/
theorem wild4_contains (ip x : IP) (h : To4 ip = some x) :
    IPNet.Contains ⟨[0, 0, 0, 0], [0, 0, 0, 0]⟩ ip = true := by
  have hl := To4_length ip x h
  have hnm : networkNumberAndMask ⟨[0, 0, 0, 0], [0, 0, 0, 0]⟩ =
      ([0, 0, 0, 0], [0, 0, 0, 0]) := by
    decide
  unfold IPNet.Contains
  rw [hnm, h]
  simp [hl]
  exact maskedEq_zero_mask 4 4 _ _

/-- The network `::/0` contains every 16-byte address that is not IPv4-mapped. -/
theorem wild6_contains (ip : IP) (h : To4 ip = none) (hl : ip.length = 16) :
    IPNet.Contains ⟨List.replicate 16 0, List.replicate 16 0⟩ ip = true := by
  have hnm : networkNumberAndMask ⟨List.replicate 16 0, List.replicate 16 0⟩ =
      (List.replicate 16 0, List.replicate 16 0) := by
    decide
  unfold IPNet.Contains
  rw [hnm, h]
  simp [hl]
  exact maskedEq_zero_mask 16 16 _ _

/-- Some network of the default list contains any given 4-byte or 16-byte address. -/
theorem default_trusts (ip : IP) (hl : ip.length = 4 ∨ ip.length = 16) :
    (List.any defaultTrustedCIDRs fun cidr => cidr.Contains ip) = true := by
  rw [List.any_eq_true]
  cases h4 : To4 ip with
  | some x =>
    exact ⟨⟨[0, 0, 0, 0], [0, 0, 0, 0]⟩, by decide, wild4_contains ip x h4⟩
  | none =>
    have h16 : ip.length = 16 := by
      rcases hl with h | h
      · simp [To4, h] at h4
      · exact h
    exact ⟨⟨List.replicate 16 0, List.replicate 16 0⟩, by decide, wild6_contains ip h4 h16⟩

/-- C8: a parser built with no explicit trusted-proxy configuration (`NewParse(nil)`
with any custom headers, and the global default parser) trusts every IPv4 and
every IPv6 address, because the default set contains `0.0.0.0/0` and `::/0`; in
particular it trusts every peer address that parses. -/
theorem C8_default_trusts_everyone (customHeader : List String) (ip : IP)
    (hl : ip.length = 4 ∨ ip.length = 16) :
    (⟨[0, 0, 0, 0], [0, 0, 0, 0]⟩ : IPNet) ∈ defaultTrustedCIDRs ∧
    (⟨List.replicate 16 0, List.replicate 16 0⟩ : IPNet) ∈ defaultTrustedCIDRs ∧
    (∃ p, NewParse none customHeader = .ok p ∧ p.isTrustedProxy ip = true) ∧
    defaultParser.isTrustedProxy ip = true ∧
    (∀ (remoteAddr : String) (remoteIp : IP),
      ParseIP (remoteHost remoteAddr) = some remoteIp →
      defaultParser.isTrustedProxy remoteIp = true) := by
  refine ⟨by decide, by decide, ⟨⟨some defaultTrustedCIDRs, customHeader⟩, rfl, ?_⟩, ?_, ?_⟩
  · exact default_trusts ip hl
  · exact default_trusts ip hl
  · intro remoteAddr remoteIp h
    exact default_trusts remoteIp (Or.inr (ParseIP_length _ _ h))

/-- C8 at an example: the default parser trusts the IPv6 address `2001:db8::1`. -/
theorem C8_default_trusts_everyone_witness :
    defaultParser.isTrustedProxy [32, 1, 13, 184, 0, 0, 0, 0, 0, 0, 0, 0, 0, 0, 0, 1] = true :=
  (C8_default_trusts_everyone [] [32, 1, 13, 184, 0, 0, 0, 0, 0, 0, 0, 0, 0, 0, 0, 1]
    (Or.inr (by decide))).2.2.2.1

/-- C9, as stated, fails on a request without a header set: after
`SetTrustedProxies` with an empty list the peer `1.2.3.4` parses and there is no
preferred header to match, yet `ClientIP` returns the empty string. -/
theorem C9_counterexample_nil_header :
    (exampleParser.SetTrustedProxies (some [])).2 = none ∧
    (exampleParser.SetTrustedProxies (some [])).1.xHeader ++ [] = [] ∧
    ParseIP (remoteHost "1.2.3.4:80") =
      some [0, 0, 0, 0, 0, 0, 0, 0, 0, 0, 255, 255, 1, 2, 3, 4] ∧
    IP.String [0, 0, 0, 0, 0, 0, 0, 0, 0, 0, 255, 255, 1, 2, 3, 4] = "1.2.3.4" ∧
    (exampleParser.SetTrustedProxies (some [])).1.ClientIP
      (some ⟨none, "1.2.3.4:80"⟩) [] = "" := by
  decide

/-- C9 (amended): after `SetTrustedProxies` with an empty list (nil or zero-length)
the call has succeeded and `isTrustedProxy` is false for every address, so
`ClientIP` returns the peer address for every request with a header set whose
peer address parses and that matches no preferred header. -/
theorem C9_empty_list_trusts_nothing (p : Parser) (L : Option (List String))
    (hL : L = none ∨ L = some []) :
    (p.SetTrustedProxies L).2 = none ∧
    (∀ ip, (p.SetTrustedProxies L).1.isTrustedProxy ip = false) ∧
    (∀ (header : Header) (remoteAddr : String) (customHeader : List String) (remoteIp : IP),
      (∀ h ∈ (p.SetTrustedProxies L).1.xHeader ++ customHeader, header.Get h = "") →
      ParseIP (remoteHost remoteAddr) = some remoteIp →
      (p.SetTrustedProxies L).1.ClientIP (some ⟨some header, remoteAddr⟩) customHeader =
        IP.String remoteIp) := by
  have hset : p.SetTrustedProxies L = ({ p with trustedCIDRs := some [] }, none) := by
    rcases hL with h | h <;> subst h <;> rfl
  have hno : ∀ ip, (p.SetTrustedProxies L).1.isTrustedProxy ip = false := by
    intro ip
    rw [hset]
    rfl
  refine ⟨by rw [hset], hno, ?_⟩
  intro header remoteAddr customHeader remoteIp hpref hpeer
  exact ClientIP_of_untrusted _ header remoteAddr customHeader remoteIp hpref hpeer (hno _)

/-- C9 (amended) at an example: the default parser, which trusts everyone, trusts
nobody after `SetTrustedProxies(nil)`. -/
theorem C9_empty_list_trusts_nothing_witness :
    (defaultParser.SetTrustedProxies none).2 = none ∧
    (∀ ip, (defaultParser.SetTrustedProxies none).1.isTrustedProxy ip = false) ∧
    (∀ (header : Header) (remoteAddr : String) (customHeader : List String) (remoteIp : IP),
      (∀ h ∈ (defaultParser.SetTrustedProxies none).1.xHeader ++ customHeader,
        header.Get h = "") →
      ParseIP (remoteHost remoteAddr) = some remoteIp →
      (defaultParser.SetTrustedProxies none).1.ClientIP
        (some ⟨some header, remoteAddr⟩) customHeader = IP.String remoteIp) :=
  C9_empty_list_trusts_nothing defaultParser none (Or.inl rfl)

/-! ## Which entries `parseCIDRs` accepts -/

/-- A character of the text lies before the first separator or after it. -/
theorem cutAt_mem (sep x : Char) (hx : x ≠ sep) : ∀ (cs : List Char), x ∈ cs →
    x ∈ (cutAt sep cs).1 ∨ ∃ z, (cutAt sep cs).2 = some z ∧ x ∈ z := by
  intro cs
  induction cs with
  | nil => intro h; simp at h
  | cons c cs ih =>
    intro h
    simp only [cutAt]
    split
    · rename_i hc
      subst hc
      rcases List.mem_cons.1 h with h1 | h1
      · exact absurd h1 hx
      · exact Or.inr ⟨cs, rfl, h1⟩
    · rcases List.mem_cons.1 h with h1 | h1
      · exact Or.inl (by simp [h1])
      · rcases ih h1 with h2 | h2
        · exact Or.inl (by simp [h2])
        · exact Or.inr h2

/-- Without the separator the text is not cut. -/
theorem cutAt_of_not_mem (sep : Char) : ∀ (cs : List Char), sep ∉ cs →
    cutAt sep cs = (cs, none) := by
  intro cs
  induction cs with
  | nil => intro _; rfl
  | cons c cs ih =>
    intro h
    have hc : c ≠ sep := fun e => h (by simp [e])
    have hcs : sep ∉ cs := fun e => h (by simp [e])
    simp [cutAt, hc, ih hcs]

/-- A text that has the separator is cut at it. -/
theorem cutAt_of_mem (sep : Char) : ∀ (cs : List Char), sep ∈ cs →
    ∃ z, (cutAt sep cs).2 = some z := by
  intro cs
  induction cs with
  | nil => intro h; simp at h
  | cons c cs ih =>
    intro h
    simp only [cutAt]
    split
    · exact ⟨cs, rfl⟩
    · rename_i hc
      rcases List.mem_cons.1 h with h1 | h1
      · exact absurd h1.symm hc
      · exact ih h1

/-- The text before the first separator followed by the separator and more. -/
theorem cutAt_append (sep : Char) (b : List Char) : ∀ (a : List Char), sep ∉ a →
    cutAt sep (a ++ sep :: b) = (a, some b) := by
  intro a
  induction a with
  | nil => intro _; simp [cutAt]
  | cons c cs ih =>
    intro h
    have hc : c ≠ sep := fun e => h (by simp [e])
    have hcs : sep ∉ cs := fun e => h (by simp [e])
    simp [cutAt, hc, ih hcs]

/-- The IPv4 loop rejects a text with a slash. -/
theorem parseIPv4Loop_slash : ∀ (cs : List Char) (fields : List Nat) (val digLen : Nat)
    (first prevDot : Bool), '/' ∈ cs →
    parseIPv4Loop cs fields val digLen first prevDot = none := by
  intro cs
  induction cs with
  | nil => intro _ _ _ _ _ h; simp at h
  | cons c cs ih =>
    intro fields val digLen first prevDot h
    rcases List.mem_cons.1 h with h1 | h1
    · subst h1
      simp [parseIPv4Loop, isDigit]
    · simp only [parseIPv4Loop]
      split
      · split
        · rfl
        · split
          · rfl
          · exact ih _ _ _ _ _ h1
      · split
        · split
          · rfl
          · split
            · rfl
            · exact ih _ _ _ _ _ h1
        · rfl

/-- The IPv6 loop fails on a text with a slash, or leaves the slash unread. -/
theorem parseIPv6Loop_slash : ∀ (n : Nat) (s : List Char) (ip : List Nat) (ell : Option Nat)
    (rest : List Char) (ip1 : List Nat) (ell1 : Option Nat), '/' ∈ s →
    parseIPv6Loop n s ip ell = some (rest, ip1, ell1) → '/' ∈ rest := by
  intro n
  induction n with
  | zero =>
    intro s ip ell rest ip1 ell1 hs h
    simp only [parseIPv6Loop] at h
    cases h
    exact hs
  | succ n ih =>
    intro s ip ell rest ip1 ell1 hs h
    simp only [parseIPv6Loop] at h
    split at h
    · cases h
    · rename_i off acc rest0 hg
      obtain ⟨pre, hpre, hall⟩ := hexGroup_suffix _ _ _ _ _ _ hg
      have hr0 : '/' ∈ rest0 := by
        rw [hpre] at hs
        rcases List.mem_append.1 hs with h1 | h1
        · have := hall _ h1
          exact absurd this (by decide)
        · exact h1
      split at h
      · cases h
      · split at h
        · split at h
          · cases h
          · split at h
            · cases h
            · have h4 : parseIPv4Fields s = none := parseIPv4Loop_slash _ _ _ _ _ _ hs
              rw [h4] at h
              cases h
        · simp at hr0
        · rename_i c rest1 hne1
          split at h
          · cases h
          · rename_i hc
            have hc1 : c = ':' := by simpa using hc
            have hr1 : '/' ∈ rest1 := by
              rcases List.mem_cons.1 hr0 with h1 | h1
              · rw [hc1] at h1
                exact absurd h1 (by decide)
              · exact h1
            split at h
            · cases h
            · rename_i rest2
              have hr2 : '/' ∈ rest2 := by
                rcases List.mem_cons.1 hr1 with h1 | h1
                · exact absurd h1 (by decide)
                · exact h1
              split at h
              · cases h
              · split at h
                · simp at hr2
                · exact ih _ _ _ _ _ _ hr2 h
            · exact ih _ _ _ _ _ _ hr1 h

/-- An address that `parseIPv6` reads from a text with a slash has a zone. -/
theorem parseIPv6_slash (input : List Char) (a : Addr) (hs : '/' ∈ input)
    (h : parseIPv6 input = some a) : a.Zone ≠ "" := by
  unfold parseIPv6 at h
  simp only at h
  rcases cutAt_mem '%' '/' (by decide) input hs with hin | ⟨z, hz, hzin⟩
  · split at h
    · cases h
    · have hstart : '/' ∈ (match (cutAt '%' input).1 with
          | ':' :: ':' :: rest => (rest, some 0)
          | s => (s, none) : List Char × Option Nat).1 := by
        split
        · rename_i rest heq
          rw [heq] at hin
          simpa using hin
        · exact hin
      split at h
      · rename_i h0
        rw [h0.2] at hstart
        simp at hstart
      · split at h
        · cases h
        · rename_i rest ip ell hloop
          have hrest := parseIPv6Loop_slash _ _ _ _ _ _ _ hstart hloop
          have hne : rest ≠ [] := by
            intro e
            rw [e] at hrest
            simp at hrest
          simp [hne] at h
  · have hzne : z ≠ [] := by
      intro e
      rw [e] at hzin
      simp at hzin
    have hzone : ∀ b, (Addr.v6 b (String.mk ((cutAt '%' input).2.getD []))).Zone ≠ "" := by
      intro b
      rw [hz]
      simp only [Addr.Zone, Option.getD_some]
      intro e
      apply hzne
      have := congrArg String.data e
      simpa using this
    split at h
    · cases h
    · split at h
      · cases h
        exact hzone _
      · split at h
        · cases h
        · split at h
          · cases h
          · split at h
            · split at h
              · cases h
              · cases h
                exact hzone _
            · split at h
              · cases h
              · cases h
                exact hzone _

/-- An address that `ParseAddr` reads from a text with a slash has a zone. -/
theorem parseAddrScan_slash (s : List Char) (hs : '/' ∈ s) : ∀ (cs : List Char) (a : Addr),
    parseAddrScan s cs = some a → a.Zone ≠ "" := by
  intro cs
  induction cs with
  | nil => intro a h; cases h
  | cons c cs ih =>
    intro a h
    simp only [parseAddrScan] at h
    split at h
    · have h4 : parseIPv4Fields s = none := parseIPv4Loop_slash _ _ _ _ _ _ hs
      rw [h4] at h
      cases h
    · split at h
      · exact parseIPv6_slash s a hs h
      · split at h
        · cases h
        · exact ih a h

/-- `net.ParseIP` rejects every text with a slash. -/
theorem ParseIP_slash (s : String) (hs : '/' ∈ s.data) : ParseIP s = none := by
  unfold ParseIP
  split
  · rfl
  · rename_i a ha
    have := parseAddrScan_slash s.data hs _ a ha
    simp [this]
/-- A bare entry followed by a slash and a prefix length that fits is a CIDR string. -/
theorem ParseCIDR_suffix (e : String) (a : Addr) (digits : List Char) (n : Nat)
    (hs : '/' ∉ e.data) (ha : ParseAddr e = some a) (hz : a.Zone = "")
    (hd : dtoi digits = some (n, digits.length)) (hn : n ≤ a.BitLen) :
    ParseCIDR (e ++ String.mk ('/' :: digits)) =
      .ok ⟨IP.Mask a.As16 (CIDRMask n a.BitLen), CIDRMask n a.BitLen⟩ := by
  have hdata : (e ++ String.mk ('/' :: digits)).data = e.data ++ '/' :: digits := by
    simp [String.data_append]
  have hcut := cutAt_append '/' digits e.data hs
  have hmk : String.mk e.data = e := rfl
  unfold ParseCIDR
  rw [hdata, hcut]
  simp only [hmk, ha, hz, hd]
  simp
  omega

/-- A text without a slash is not a CIDR string. -/
theorem validCIDR_no_slash (e : String) (hs : '/' ∉ e.data) : validCIDR e = false := by
  unfold validCIDR ParseCIDR
  rw [cutAt_of_not_mem '/' e.data hs]

/-- The 16-byte form of an IPv4 address is IPv4-mapped. -/
theorem To4_v4 (b : List Nat) (hb : b.length = 4) : To4 (Addr.As16 (Addr.v4 b)) = some b := by
  simp [To4, Addr.As16, v4InV6Head, hb]

/-- An entry is accepted by the loop body of `parseCIDRs` exactly when it is a valid
IP address or a valid CIDR string. -/
theorem entryOK_iff (e : String) :
    entryOK e = true ↔ (validIP e = true ∨ validCIDR e = true) := by
  by_cases hs : '/' ∈ e.data
  · have hc : Contains e '/' = true := by simpa [Contains] using hs
    have hip : validIP e = false := by simp [validIP, ParseIP_slash e hs]
    simp [entryOK, cidrText, hc, hip]
  · have hc : Contains e '/' = false := by simpa [Contains] using hs
    have hcidr := validCIDR_no_slash e hs
    cases hp : ParseIP e with
    | none => simp [entryOK, cidrText, hc, parseIP, hp, validIP, hcidr]
    | some x =>
      have hx16 := ParseIP_length e x hp
      have hvalid : validIP e = true := by simp [validIP, hp]
      simp only [hvalid, true_or, iff_true]
      have hpa : ∃ a, ParseAddr e = some a ∧ a.Zone = "" ∧ a.As16 = x := by
        unfold ParseIP at hp
        split at hp
        · cases hp
        · rename_i a ha
          split at hp
          · cases hp
          · rename_i hz
            cases hp
            exact ⟨a, ha, by simpa using hz, rfl⟩
      obtain ⟨a, ha, hz, hax⟩ := hpa
      cases h4 : To4 x with
      | some y =>
        have hy := To4_length x y h4
        have hbits : 32 ≤ a.BitLen := by cases a <;> simp [Addr.BitLen]
        have hok := ParseCIDR_suffix e a ['3', '2'] 32 hs ha hz (by decide) hbits
        have htext : cidrText e = .ok (e ++ "/32") := by
          simp [cidrText, hc, parseIP, hp, h4, hy]
        have hstr : e ++ "/32" = e ++ String.mk ['/', '3', '2'] := rfl
        simp [entryOK, htext, validCIDR, hstr, hok]
      | none =>
        have hv6 : a.BitLen = 128 := by
          cases a with
          | v4 b =>
            exfalso
            have hb : b.length = 4 := by
              have : (Addr.As16 (Addr.v4 b)).length = 16 := by rw [hax]; exact hx16
              simp [Addr.As16, v4InV6Head] at this
              omega
            rw [← hax, To4_v4 b hb] at h4
            cases h4
          | v6 b z => rfl
        have hok := ParseCIDR_suffix e a ['1', '2', '8'] 128 hs ha hz (by decide)
          (by omega)
        have htext : cidrText e = .ok (e ++ "/128") := by
          simp [cidrText, hc, parseIP, hp, h4, hx16]
        have hstr : e ++ "/128" = e ++ String.mk ['/', '1', '2', '8'] := rfl
        simp [entryOK, htext, validCIDR, hstr, hok]

/-- The loop of `parseCIDRs` fails exactly when some entry is not accepted. -/
theorem parseCIDRsLoop_error_iff : ∀ (L : List String) (cidr : List IPNet),
    (∃ err, parseCIDRsLoop L cidr = .error err) ↔ ∃ e ∈ L, entryOK e = false := by
  intro L
  induction L with
  | nil => intro cidr; simp [parseCIDRsLoop]
  | cons x xs ih =>
    intro cidr
    simp only [parseCIDRsLoop, List.mem_cons, exists_eq_or_imp]
    cases ht : cidrText x with
    | error e0 => simp [entryOK, ht]
    | ok text =>
      cases hc : ParseCIDR text with
      | error e1 => simp [entryOK, ht, validCIDR, hc]
      | ok cidrNet =>
        simp only [entryOK, ht, validCIDR, hc]
        simpa using ih (cidr ++ [cidrNet])

/-- C7: `SetTrustedProxies(L)` returns an error if and only if some entry of `L` is
neither a valid IP address nor a valid CIDR string; it succeeds whenever every
entry is a valid bare IP or a valid CIDR. -/
theorem C7_error_iff_invalid_entry (p : Parser) (L : Option (List String)) :
    ((p.SetTrustedProxies L).2.isSome = true ↔
      ∃ e ∈ L.getD [], validIP e = false ∧ validCIDR e = false) ∧
    ((∀ e ∈ L.getD [], validIP e = true ∨ validCIDR e = true) →
      (p.SetTrustedProxies L).2 = none) := by
  have hiff : (p.SetTrustedProxies L).2.isSome = true ↔
      ∃ e ∈ L.getD [], validIP e = false ∧ validCIDR e = false := by
    have hbad : ∀ e, entryOK e = false ↔ (validIP e = false ∧ validCIDR e = false) := by
      intro e
      have := entryOK_iff e
      cases h1 : entryOK e <;> cases h2 : validIP e <;> cases h3 : validCIDR e <;>
        simp [h1, h2, h3] at this ⊢
    cases L with
    | none => simp [Parser.SetTrustedProxies, parseCIDRs]
    | some l =>
      have hloop := parseCIDRsLoop_error_iff l []
      simp only [hbad] at hloop
      simp only [Option.getD_some]
      rw [← hloop]
      simp only [Parser.SetTrustedProxies, parseCIDRs]
      cases hr : parseCIDRsLoop l [] with
      | error err => simp
      | ok cidrs => simp
  refine ⟨hiff, fun hall => ?_⟩
  cases hres : (p.SetTrustedProxies L).2 with
  | none => rfl
  | some err =>
    exfalso
    obtain ⟨e, he, h1, h2⟩ := hiff.1 (by simp [hres])
    rcases hall e he with h | h
    · rw [h] at h1; cases h1
    · rw [h] at h2; cases h2

/-! ## Further properties of the walks and of `ClientIP` -/

/-- C11, as stated, fails: on the empty string `ParseForwardedHeader` returns a
list, not an error. -/
theorem C11_counterexample_empty_input :
    (match ParseForwardedHeader "" with
      | .ok _ => true
      | .error _ => false) = true := by
  rfl

/-- C11 (amended): `ParseForwardedHeader` applied to the empty string returns a nil
error and a list of one element whose four fields are empty; the empty header is
turned down one level up, by `validateHeader`, which reports no address for it
without calling the parser. -/
theorem C11_empty_input_one_empty_element (p : Parser) :
    ParseForwardedHeader "" = .ok [⟨"", "", "", ""⟩] ∧
    p.validateHeader "" = ("", false) := by
  constructor <;> rfl

/-- The walk of `validateXHeader` stops without a result at an item that is no IP
when every item right of it (below `n`) is a trusted IP. -/
theorem validateXHeaderLoop_breaks (p : Parser) (items : List String) (j : Nat)
    (hbad : ParseIP (TrimSpace (items.getD j "")) = none) :
    ∀ n, j < n →
      (∀ k, j < k → k < n →
        ∃ b, ParseIP (TrimSpace (items.getD k "")) = some b ∧ p.isTrustedProxy b = true) →
      validateXHeaderLoop p items n = ("", false) := by
  intro n
  induction n with
  | zero => intro h; omega
  | succ m ih =>
    intro hj hright
    by_cases hjm : j = m
    · subst hjm
      simp only [validateXHeaderLoop, hbad]
    · have hlt : j < m := by omega
      obtain ⟨b, hb, hbt⟩ := hright m hlt (by omega)
      have hm0 : m ≠ 0 := by omega
      have hrec := ih hlt (fun k hk1 hk2 => hright k hk1 (by omega))
      simp only [validateXHeaderLoop, hb, hbt, hrec]
      simp [hm0]

/-- C17: for every trusted-proxy set and every `X-Forwarded-For` or `X-Real-IP` value
with segments `s_0..s_n`, if some segment `s_j` does not parse as an IP and every
segment right of `j` parses as a trusted IP, `validateXHeader` reports no result,
whatever the segments left of `j` are. -/
theorem C17_malformed_entry_stops_walk (p : Parser) (value : String) (j : Nat)
    (hj : j < (segments value).length)
    (hbad : ParseIP ((segments value).getD j "") = none)
    (hright : ∀ k, j < k → k < (segments value).length →
      ∃ b, ParseIP ((segments value).getD k "") = some b ∧ p.isTrustedProxy b = true) :
    p.validateXHeader value = ("", false) := by
  simp only [segments_getD] at hbad hright
  have hlen : (segments value).length = (Split value ',').length := by simp [segments]
  rw [hlen] at hj hright
  unfold Parser.validateXHeader
  split
  · rfl
  · exact validateXHeaderLoop_breaks p (Split value ',') j hbad _ hj hright

/-- C17 at an example: behind the malformed `bogus` stands the valid untrusted
`6.6.6.6`, right of it the trusted `127.0.0.1`; the walk yields nothing. -/
theorem C17_malformed_entry_stops_walk_witness :
    exampleParser.validateXHeader "6.6.6.6, bogus, 127.0.0.1" = ("", false) :=
  C17_malformed_entry_stops_walk exampleParser "6.6.6.6, bogus, 127.0.0.1" 1
    (by decide) (by decide)
    (fun k h1 h2 => by
      have hl : (segments "6.6.6.6, bogus, 127.0.0.1").length = 3 := by decide
      have hk : k = 2 := by omega
      subst hk
      exact ⟨[0, 0, 0, 0, 0, 0, 0, 0, 0, 0, 255, 255, 127, 0, 0, 1], by decide, by decide⟩)

/-- C16: for a trusted peer with no preferred header matching, the forwarding
headers are consulted in the order `X-Forwarded-For`, `X-Real-IP`, `Forwarded`, and
the first whose walk yields an address decides the result. -/
theorem C16_fixed_header_order (p : Parser) (req : Request) (customHeader : List String)
    (remoteIp : IP)
    (hpref : ∀ h ∈ p.xHeader ++ customHeader, req.Get h = "")
    (hpeer : ParseIP (remoteHost req.RemoteAddr) = some remoteIp)
    (htrust : p.isTrustedProxy remoteIp = true) :
    ((p.validateXHeader (req.Get XForwardedFor)).2 = true →
      p.ClientIP (some req) customHeader = (p.validateXHeader (req.Get XForwardedFor)).1) ∧
    ((p.validateXHeader (req.Get XForwardedFor)).2 = false →
      (p.validateXHeader (req.Get XRealIP)).2 = true →
      p.ClientIP (some req) customHeader = (p.validateXHeader (req.Get XRealIP)).1) ∧
    ((p.validateXHeader (req.Get XForwardedFor)).2 = false →
      (p.validateXHeader (req.Get XRealIP)).2 = false →
      (p.validateHeader (req.Get Forwarded)).2 = true →
      p.ClientIP (some req) customHeader = (p.validateHeader (req.Get Forwarded)).1) := by
  obtain ⟨hdr, addr⟩ := req
  cases hdr with
  | none =>
    have hget : ∀ k, Request.Get ⟨none, addr⟩ k = "" := fun _ => rfl
    simp only [hget]
    refine ⟨fun h => ?_, fun _ h => ?_, fun _ _ h => ?_⟩
    · exact absurd h (by simp [Parser.validateXHeader])
    · exact absurd h (by simp [Parser.validateXHeader])
    · exact absurd h (by simp [Parser.validateHeader])
  | some header =>
    have hget : ∀ k, Request.Get ⟨some header, addr⟩ k = header.Get k := fun _ => rfl
    have hnone : firstHeaderValue header.Get (p.xHeader ++ customHeader) = none :=
      firstHeaderValue_none header.Get _ (fun h hh => by rw [← hget]; exact hpref h hh)
    simp only [hget]
    refine ⟨fun h1 => ?_, fun h1 h2 => ?_, fun h1 h2 h3 => ?_⟩
    · simp [Parser.ClientIP, hnone, hpeer, htrust, remoteIPHeaders, firstValidXHeader, h1]
    · simp [Parser.ClientIP, hnone, hpeer, htrust, remoteIPHeaders, firstValidXHeader, h1, h2]
    · simp [Parser.ClientIP, hnone, hpeer, htrust, remoteIPHeaders, firstValidXHeader, h1, h2,
        h3]

/-- C16 at an example: the default parser trusts the peer; `X-Forwarded-For` is
malformed, `X-Real-IP` yields `8.8.8.8`, and `Forwarded` is not consulted. -/
theorem C16_fixed_header_order_witness :
    defaultParser.ClientIP (some ⟨some [("X-Forwarded-For", ["bogus"]),
      ("X-Real-Ip", ["8.8.8.8"]), ("Forwarded", ["for=9.9.9.9"])], "10.0.0.1:80"⟩) []
      = "8.8.8.8" :=
  (C16_fixed_header_order defaultParser ⟨some [("X-Forwarded-For", ["bogus"]),
      ("X-Real-Ip", ["8.8.8.8"]), ("Forwarded", ["for=9.9.9.9"])], "10.0.0.1:80"⟩ []
    [0, 0, 0, 0, 0, 0, 0, 0, 0, 0, 255, 255, 10, 0, 0, 1]
    (by decide) (by decide) (by decide)).2.1 (by decide) (by decide)

/-- The groups `netip.Addr.string6` writes from group 0 on are not empty. -/
theorem appendGroups_ne_nil (ip : List Nat) (zs ze n : Nat) :
    appendGroups ip zs ze (n + 1) 0 ≠ [] := by
  rw [appendGroups]
  simp only [ge_iff_le, Nat.reduceLeDiff, ↓reduceIte]
  split
  · split <;> simp
  · simp [appendHex]

/-- The text `net.IP.String` gives a 16-byte address is not empty. -/
theorem IP_String_ne_empty (ip : IP) (h : ip.length = 16) : IP.String ip ≠ "" := by
  have hdata : (IP.String ip).data ≠ [] := by
    unfold IP.String
    simp only [h]
    simp only [Nat.reduceEqDiff, ↓reduceIte, ne_eq, not_true_eq_false, and_false]
    split
    · simp [string4]
    · exact appendGroups_ne_nil ip _ _ 7
  intro e
  rw [e] at hdata
  exact hdata rfl

/-- An address the walk of `validateXHeader` reports as valid has passed
`net.ParseIP`. -/
theorem validateXHeaderLoop_valid (p : Parser) (items : List String) :
    ∀ n, (validateXHeaderLoop p items n).2 = true →
      (ParseIP (validateXHeaderLoop p items n).1).isSome = true := by
  intro n
  induction n with
  | zero => intro h; simp [validateXHeaderLoop] at h
  | succ m ih =>
    intro h
    simp only [validateXHeaderLoop] at h ⊢
    cases hp : ParseIP (TrimSpace (items.getD m "")) with
    | none =>
      rw [hp] at h
      exact Bool.noConfusion h
    | some ip =>
      simp only [hp] at h ⊢
      split
      · show (ParseIP (TrimSpace (items.getD m ""))).isSome = true
        rw [hp]
        rfl
      · rename_i hc
        simp only [hc, ↓reduceIte] at h
        exact ih h

/-- An address `validateXHeader` reports as valid has passed `net.ParseIP`. -/
theorem validateXHeader_valid (p : Parser) (header : String)
    (h : (p.validateXHeader header).2 = true) :
    (ParseIP (p.validateXHeader header).1).isSome = true := by
  unfold Parser.validateXHeader at h ⊢
  split
  · rename_i h0
    simp [h0] at h
  · rename_i h0
    simp only [h0, ↓reduceIte] at h
    exact validateXHeaderLoop_valid p _ _ h

/-- An address the walk of `validateHeader` reports as valid has passed
`net.ParseIP`. -/
theorem validateHeaderLoop_valid (p : Parser) (items : List ForwardedHeader) :
    ∀ n, (validateHeaderLoop p items n).2 = true →
      (ParseIP (validateHeaderLoop p items n).1).isSome = true := by
  intro n
  induction n with
  | zero => intro h; simp [validateHeaderLoop] at h
  | succ m ih =>
    intro h
    simp only [validateHeaderLoop] at h ⊢
    cases hp : ParseIP (items.getD m ⟨"", "", "", ""⟩).For with
    | none =>
      rw [hp] at h
      exact Bool.noConfusion h
    | some ip =>
      simp only [hp] at h ⊢
      split
      · show (ParseIP (items.getD m ⟨"", "", "", ""⟩).For).isSome = true
        rw [hp]
        rfl
      · rename_i hc
        simp only [hc, ↓reduceIte] at h
        exact ih h

/-- An address `validateHeader` reports as valid has passed `net.ParseIP`. -/
theorem validateHeader_valid (p : Parser) (header : String)
    (h : (p.validateHeader header).2 = true) :
    (ParseIP (p.validateHeader header).1).isSome = true := by
  unfold Parser.validateHeader at h ⊢
  split
  · rename_i h0
    simp [h0] at h
  · rename_i h0
    simp only [h0, ↓reduceIte] at h ⊢
    cases hp : ParseForwardedHeader header with
    | error e => simp [hp] at h
    | ok items =>
      simp only [hp] at h ⊢
      exact validateHeaderLoop_valid p _ _ h

/-- An address the second loop of `ClientIP` returns has passed `net.ParseIP`. -/
theorem firstValidXHeader_valid (p : Parser) (getValue : String → String) :
    ∀ (L : List String) (ip : String), firstValidXHeader p getValue L = some ip →
      (ParseIP ip).isSome = true := by
  intro L
  induction L with
  | nil => intro ip h; simp [firstValidXHeader] at h
  | cons x xs ih =>
    intro ip h
    simp only [firstValidXHeader] at h
    split at h
    · rename_i hv
      cases h
      exact validateXHeader_valid p _ hv
    · exact ih ip h

/-- With a header set, no preferred header matching and a peer address that parses,
`ClientIP` returns the text of the peer address or an address that has passed
`net.ParseIP`. -/
theorem ClientIP_peer_or_parsed (p : Parser) (header : Header) (remoteAddr : String)
    (customHeader : List String) (remoteIp : IP)
    (hpref : ∀ h ∈ p.xHeader ++ customHeader, header.Get h = "")
    (hpeer : ParseIP (remoteHost remoteAddr) = some remoteIp) :
    p.ClientIP (some ⟨some header, remoteAddr⟩) customHeader = IP.String remoteIp ∨
    (ParseIP (p.ClientIP (some ⟨some header, remoteAddr⟩) customHeader)).isSome = true := by
  have hnone := firstHeaderValue_none header.Get _ hpref
  simp only [Parser.ClientIP, hnone, hpeer]
  cases ht : p.isTrustedProxy remoteIp with
  | false => simp
  | true =>
    simp only [Bool.not_true, Bool.false_eq_true, ↓reduceIte]
    cases hx : firstValidXHeader p header.Get remoteIPHeaders with
    | some ip => exact Or.inr (firstValidXHeader_valid p _ _ _ hx)
    | none =>
      simp only
      split
      · rename_i hv
        exact Or.inr (validateHeader_valid p _ hv)
      · exact Or.inl rfl

/-- C14: for every parser and every request in which no preferred header has a
non-empty value, `ClientIP` returns the empty string if and only if the request
has no header set (nil request or nil `Header`) or the host part of the peer
address does not parse as an IP literal. -/
theorem C14_empty_result_iff (p : Parser) (req : Option Request) (customHeader : List String)
    (hpref : ∀ h ∈ p.xHeader ++ customHeader, headerValue req h = "") :
    p.ClientIP req customHeader = "" ↔
      (req = none ∨ ∃ r, req = some r ∧
        (r.Header = none ∨ ParseIP (remoteHost r.RemoteAddr) = none)) := by
  cases req with
  | none => simp [Parser.ClientIP]
  | some r =>
    obtain ⟨hdr, addr⟩ := r
    cases hdr with
    | none => simp [Parser.ClientIP]
    | some header =>
      have hpref1 : ∀ h ∈ p.xHeader ++ customHeader, header.Get h = "" := hpref
      cases hp : ParseIP (remoteHost addr) with
      | none =>
        have hnone := firstHeaderValue_none header.Get _ hpref1
        simp [Parser.ClientIP, hnone, hp]
      | some remoteIp =>
        have hne : p.ClientIP (some ⟨some header, addr⟩) customHeader ≠ "" := by
          rcases ClientIP_peer_or_parsed p header addr customHeader remoteIp hpref1 hp
            with h | h
          · rw [h]
            exact IP_String_ne_empty remoteIp (ParseIP_length _ _ hp)
          · intro e
            rw [e, ParseIP_empty] at h
            cases h
        simp [hne, hp]

/-- C14 at an example: the peer address has no port, so its host part is empty
and does not parse; the result is empty although forwarding headers are
present. -/
theorem C14_empty_result_iff_witness :
    exampleParser.ClientIP
      (some ⟨some [("X-Forwarded-For", ["6.6.6.6"])], "127.0.0.1"⟩) [] = "" :=
  (C14_empty_result_iff exampleParser
    (some ⟨some [("X-Forwarded-For", ["6.6.6.6"])], "127.0.0.1"⟩) [] (by decide)).2
    (Or.inr ⟨_, rfl, Or.inr (by decide)⟩)

/-- The `Forwarded` walk yields no address when the value is absent, when the parser
rejects it, or when the `for` value of its last element does not parse. -/
theorem validateHeader_no_address (p : Parser) (fwd : String)
    (h : fwd = "" ∨ (∃ e, ParseForwardedHeader fwd = .error e) ∨
      (∃ items, ParseForwardedHeader fwd = .ok items ∧
        ParseIP (items.getD (items.length - 1) ⟨"", "", "", ""⟩).For = none)) :
    p.validateHeader fwd = ("", false) := by
  unfold Parser.validateHeader
  split
  · rfl
  · rename_i hne
    rcases h with h | ⟨e, he⟩ | ⟨items, hi, hlast⟩
    · exact absurd h hne
    · simp [he]
    · simp only [hi]
      cases hl : items.length with
      | zero => rfl
      | succ m =>
        rw [hl] at hlast
        simp only [Nat.add_sub_cancel] at hlast
        simp only [validateHeaderLoop, hlast]

/-- C15, as stated, fails on a request without a header set: the default parser
trusts the peer `10.0.0.1`, there is no preferred header, no forwarding header
yields an address, yet `ClientIP` returns the empty string instead of the peer
address. -/
theorem C15_counterexample_nil_header :
    ParseIP (remoteHost "10.0.0.1:80") =
      some [0, 0, 0, 0, 0, 0, 0, 0, 0, 0, 255, 255, 10, 0, 0, 1] ∧
    defaultParser.isTrustedProxy [0, 0, 0, 0, 0, 0, 0, 0, 0, 0, 255, 255, 10, 0, 0, 1] = true ∧
    defaultParser.xHeader ++ [] = [] ∧
    defaultParser.validateXHeader (Request.Get ⟨none, "10.0.0.1:80"⟩ XForwardedFor)
      = ("", false) ∧
    defaultParser.validateXHeader (Request.Get ⟨none, "10.0.0.1:80"⟩ XRealIP) = ("", false) ∧
    defaultParser.validateHeader (Request.Get ⟨none, "10.0.0.1:80"⟩ Forwarded) = ("", false) ∧
    IP.String [0, 0, 0, 0, 0, 0, 0, 0, 0, 0, 255, 255, 10, 0, 0, 1] = "10.0.0.1" ∧
    defaultParser.ClientIP (some ⟨none, "10.0.0.1:80"⟩) [] = "" := by
  decide

/-- C15 (amended): for a request with a header set and a trusted peer, with no
preferred header matching and no address from `X-Forwarded-For` or `X-Real-IP`,
and a `Forwarded` value that yields no address (absent, rejected by
`ParseForwardedHeader`, with an unparseable `for` value in its last element, or
in any other way), `ClientIP` returns the peer address, which is not empty. -/
theorem C15_fallback_to_peer (p : Parser) (header : Header) (remoteAddr : String)
    (customHeader : List String) (remoteIp : IP)
    (hpref : ∀ h ∈ p.xHeader ++ customHeader, header.Get h = "")
    (hpeer : ParseIP (remoteHost remoteAddr) = some remoteIp)
    (htrust : p.isTrustedProxy remoteIp = true)
    (hxff : (p.validateXHeader (header.Get XForwardedFor)).2 = false)
    (hxreal : (p.validateXHeader (header.Get XRealIP)).2 = false)
    (hfwd : header.Get Forwarded = "" ∨
      (∃ e, ParseForwardedHeader (header.Get Forwarded) = .error e) ∨
      (∃ items, ParseForwardedHeader (header.Get Forwarded) = .ok items ∧
        ParseIP (items.getD (items.length - 1) ⟨"", "", "", ""⟩).For = none) ∨
      (p.validateHeader (header.Get Forwarded)).2 = false) :
    p.ClientIP (some ⟨some header, remoteAddr⟩) customHeader = IP.String remoteIp ∧
    p.ClientIP (some ⟨some header, remoteAddr⟩) customHeader ≠ "" := by
  have hno : (p.validateHeader (header.Get Forwarded)).2 = false := by
    rcases hfwd with h | h | h | h
    · rw [validateHeader_no_address p _ (Or.inl h)]
    · rw [validateHeader_no_address p _ (Or.inr (Or.inl h))]
    · rw [validateHeader_no_address p _ (Or.inr (Or.inr h))]
    · exact h
  have hnone := firstHeaderValue_none header.Get _ hpref
  have hres : p.ClientIP (some ⟨some header, remoteAddr⟩) customHeader = IP.String remoteIp := by
    simp [Parser.ClientIP, hnone, hpeer, htrust, remoteIPHeaders, firstValidXHeader, hxff,
      hxreal, hno]
  exact ⟨hres, by rw [hres]; exact IP_String_ne_empty remoteIp (ParseIP_length _ _ hpeer)⟩

/-- C15 (amended) at an example: the default parser trusts the peer `10.0.0.1`; the
`Forwarded` value `bogus=1` parses to one element without a `for` value, so the
peer address is returned. -/
theorem C15_fallback_to_peer_witness :
    defaultParser.ClientIP (some ⟨some [("Forwarded", ["bogus=1"])], "10.0.0.1:80"⟩) []
      = "10.0.0.1" :=
  (C15_fallback_to_peer defaultParser [("Forwarded", ["bogus=1"])] "10.0.0.1:80" []
    [0, 0, 0, 0, 0, 0, 0, 0, 0, 0, 255, 255, 10, 0, 0, 1]
    (by decide) (by decide) (by decide) (by decide) (by decide)
    (Or.inr (Or.inr (Or.inl ⟨[⟨"", "", "", ""⟩], by rfl, by decide⟩)))).1

/-! ## Structure of `ParseForwardedHeader` -/

/-- `strings.Split` always returns at least one piece. -/
theorem splitOn_ne_nil (sep : Char) (cs : List Char) : splitOn sep cs ≠ [] := by
  cases cs with
  | nil => simp [splitOn]
  | cons c cs =>
    simp only [splitOn]
    split
    · simp
    · split <;> simp

/-- Splitting `a`, a separator, `b` gives the pieces of `a` followed by the pieces
of `b`. -/
theorem splitOn_append (sep : Char) (b : List Char) : ∀ a : List Char,
    splitOn sep (a ++ sep :: b) = splitOn sep a ++ splitOn sep b := by
  intro a
  induction a with
  | nil => simp [splitOn]
  | cons c cs ih =>
    simp only [List.cons_append, splitOn]
    split
    · simp [ih]
    · have ih1 : splitOn sep (cs.append (sep :: b)) = splitOn sep cs ++ splitOn sep b := ih
      rw [ih1]
      cases h : splitOn sep cs with
      | nil => exact absurd h (splitOn_ne_nil sep cs)
      | cons seg rest => simp

/-- A text without the separator is one piece. -/
theorem splitOn_of_not_mem (sep : Char) : ∀ cs : List Char, sep ∉ cs →
    splitOn sep cs = [cs] := by
  intro cs
  induction cs with
  | nil => intro _; rfl
  | cons c cs ih =>
    intro h
    have hc : c ≠ sep := fun e => h (by simp [e])
    have hcs : sep ∉ cs := fun e => h (by simp [e])
    simp [splitOn, hc, ih hcs]

/-- The number of pieces is the number of separators plus one. -/
theorem splitOn_length (sep : Char) : ∀ cs : List Char,
    (splitOn sep cs).length = cs.count sep + 1 := by
  intro cs
  induction cs with
  | nil => simp [splitOn]
  | cons c cs ih =>
    simp only [splitOn]
    split
    · rename_i hc
      subst hc
      simp [ih]
    · rename_i hc
      have hcount : (c :: cs).count sep = cs.count sep := by
        rw [List.count_cons]
        simp [hc]
      rw [hcount, ← ih]
      cases h : splitOn sep cs with
      | nil => exact absurd h (splitOn_ne_nil sep cs)
      | cons seg rest => simp

/-- No piece of a split contains the separator. -/
theorem splitOn_no_sep (sep : Char) : ∀ (cs : List Char) (seg : List Char),
    seg ∈ splitOn sep cs → sep ∉ seg := by
  intro cs
  induction cs with
  | nil =>
    intro seg h
    simp [splitOn] at h
    subst h
    simp
  | cons c cs ih =>
    intro seg h
    simp only [splitOn] at h
    split at h
    · rcases List.mem_cons.1 h with h1 | h1
      · subst h1; simp
      · exact ih seg h1
    · rename_i hc
      cases hs : splitOn sep cs with
      | nil => exact absurd hs (splitOn_ne_nil sep cs)
      | cons s0 rest =>
        rw [hs] at h ih
        simp only at h
        rcases List.mem_cons.1 h with h1 | h1
        · subst h1
          have := ih s0 (by simp)
          intro hm
          rcases List.mem_cons.1 hm with h2 | h2
          · exact hc h2.symm
          · exact this h2
        · exact ih seg (by simp [h1])

/-- The outer loop of `ParseForwardedHeader` appends the element of each segment, in
order, and stops at the first segment whose element is an error. -/
theorem parseElements_cons (element : String) (elements : List String)
    (result : List ForwardedHeader) :
    parseElements (element :: elements) result =
      match parseElement element with
      | .error e => .error e
      | .ok forwarded => parseElements elements (result ++ [forwarded]) := by
  rfl

/-- The accumulated elements are a prefix of the result of the outer loop. -/
theorem parseElements_acc : ∀ (elements : List String) (result : List ForwardedHeader),
    parseElements elements result =
      match parseElements elements [] with
      | .error e => .error e
      | .ok items => .ok (result ++ items) := by
  intro elements
  induction elements with
  | nil => intro result; simp [parseElements]
  | cons x xs ih =>
    intro result
    rw [parseElements_cons, parseElements_cons]
    cases hx : parseElement x with
    | error e => rfl
    | ok fwd =>
      simp only
      rw [ih (result ++ [fwd]), ih ([] ++ [fwd])]
      cases parseElements xs [] with
      | error e => rfl
      | ok items => simp

/-- The outer loop over two lists of segments in a row. -/
theorem parseElements_append : ∀ (l1 l2 : List String),
    parseElements (l1 ++ l2) [] =
      match parseElements l1 [] with
      | .error e => .error e
      | .ok x =>
        match parseElements l2 [] with
        | .error e => .error e
        | .ok y => .ok (x ++ y) := by
  intro l1
  induction l1 with
  | nil =>
    intro l2
    simp only [List.nil_append, parseElements]
    cases parseElements l2 [] <;> simp
  | cons a as ih =>
    intro l2
    rw [List.cons_append, parseElements_cons, parseElements_cons]
    cases ha : parseElement a with
    | error e => rfl
    | ok fwd =>
      simp only
      rw [parseElements_acc (as ++ l2), parseElements_acc as, ih l2]
      cases parseElements as [] with
      | error e => rfl
      | ok x =>
        simp only
        cases parseElements l2 [] with
        | error e => rfl
        | ok y => simp

/-- A successful outer loop returns one element per segment, the element of that
segment. -/
theorem parseElements_ok : ∀ (elements : List String) (items : List ForwardedHeader),
    parseElements elements [] = .ok items →
      items.length = elements.length ∧
      ∀ i, i < elements.length →
        parseElement (elements.getD i "") = .ok (items.getD i ⟨"", "", "", ""⟩) := by
  intro elements
  induction elements with
  | nil =>
    intro items h
    simp [parseElements] at h
    subst h
    simp
  | cons x xs ih =>
    intro items h
    rw [parseElements_cons] at h
    cases hx : parseElement x with
    | error e => rw [hx] at h; cases h
    | ok fwd =>
      rw [hx] at h
      simp only at h
      rw [parseElements_acc] at h
      cases hxs : parseElements xs [] with
      | error e => rw [hxs] at h; cases h
      | ok rest =>
        rw [hxs] at h
        simp only [List.nil_append, List.singleton_append] at h
        cases h
        obtain ⟨hl, hi⟩ := ih rest hxs
        refine ⟨by simp [hl], ?_⟩
        intro i hlt
        cases i with
        | zero => simpa using hx
        | succ i =>
          have := hi i (by simpa using hlt)
          simpa using this

/-- A header value without a comma is parsed as the one element of its text. -/
theorem ParseForwardedHeader_single (seg : String) (h : ',' ∉ seg.data) :
    ParseForwardedHeader seg =
      match parseElement seg with
      | .error e => .error e
      | .ok forwarded => .ok [forwarded] := by
  unfold ParseForwardedHeader Split
  rw [splitOn_of_not_mem ',' seg.data h]
  have hmk : String.mk seg.data = seg := rfl
  simp only [List.map_cons, List.map_nil, hmk, parseElements_cons]
  cases parseElement seg <;> rfl

/-- No segment of a header value contains a comma. -/
theorem Split_no_comma (h : String) (i : Nat) (hi : i < (Split h ',').length) :
    ',' ∉ ((Split h ',').getD i "").data := by
  have hmem : (Split h ',').getD i "" ∈ Split h ',' := by
    rw [List.getD_eq_getElem _ _ hi]
    exact List.getElem_mem hi
  unfold Split at hmem
  obtain ⟨cs, hcs, heq⟩ := List.mem_map.1 hmem
  have hd : ((Split h ',').getD i "").data = cs := by
    unfold Split
    rw [← heq]
  rw [hd]
  exact splitOn_no_sep ',' _ cs hcs

/-- C12: when `ParseForwardedHeader` succeeds on `h`, the result has one element per
comma-separated segment of `h` (number of commas plus one), in the same order,
and the `i`-th element is what the `i`-th segment alone parses to; for all `a`
and `b`, parsing `a`, a comma, `b` is parsing `a` followed by parsing `b`. -/
theorem C12_one_element_per_segment (h : String) (items : List ForwardedHeader)
    (hok : ParseForwardedHeader h = .ok items) (a b : String) :
    items.length = h.data.count ',' + 1 ∧
    items.length = (Split h ',').length ∧
    (∀ i, i < items.length →
      ParseForwardedHeader ((Split h ',').getD i "") =
        .ok [items.getD i ⟨"", "", "", ""⟩]) ∧
    ParseForwardedHeader (a ++ "," ++ b) =
      (match ParseForwardedHeader a with
        | .error e => .error e
        | .ok x =>
          match ParseForwardedHeader b with
          | .error e => .error e
          | .ok y => .ok (x ++ y)) := by
  obtain ⟨hl, hi⟩ := parseElements_ok (Split h ',') items hok
  have hlen : (Split h ',').length = h.data.count ',' + 1 := by
    simp [Split, splitOn_length]
  refine ⟨by rw [hl, hlen], hl, ?_, ?_⟩
  · intro i hlt
    rw [ParseForwardedHeader_single _ (Split_no_comma h i (by omega)), hi i (by omega)]
  · have hdata : (a ++ "," ++ b).data = a.data ++ ',' :: b.data := by
      simp [String.data_append]
    unfold ParseForwardedHeader Split
    rw [hdata, splitOn_append, List.map_append, parseElements_append]

/-- C12 at the example of the specification: two segments, two elements, the first
with only `For` set, the second with all four fields. -/
theorem C12_one_element_per_segment_witness :
    ParseForwardedHeader
      "for=192.0.2.43, for=198.51.100.17;by=203.0.113.60;proto=http;host=example.com" =
      .ok [⟨"192.0.2.43", "", "", ""⟩,
        ⟨"198.51.100.17", "203.0.113.60", "example.com", "http"⟩] ∧
    ([⟨"192.0.2.43", "", "", ""⟩,
        ⟨"198.51.100.17", "203.0.113.60", "example.com", "http"⟩] :
        List ForwardedHeader).length =
      ("for=192.0.2.43, for=198.51.100.17;by=203.0.113.60;proto=http;host=example.com"
        : String).data.count ',' + 1 ∧
    ParseForwardedHeader ("for=192.0.2.43" ++ "," ++
        " for=198.51.100.17;by=203.0.113.60;proto=http;host=example.com") =
      (match ParseForwardedHeader "for=192.0.2.43" with
        | .error e => .error e
        | .ok x =>
          match ParseForwardedHeader
            " for=198.51.100.17;by=203.0.113.60;proto=http;host=example.com" with
          | .error e => .error e
          | .ok y => .ok (x ++ y)) :=
  ⟨rfl,
    (C12_one_element_per_segment
      "for=192.0.2.43, for=198.51.100.17;by=203.0.113.60;proto=http;host=example.com"
      [⟨"192.0.2.43", "", "", ""⟩, ⟨"198.51.100.17", "203.0.113.60", "example.com", "http"⟩]
      rfl "" "").1,
    (C12_one_element_per_segment
      "for=192.0.2.43, for=198.51.100.17;by=203.0.113.60;proto=http;host=example.com"
      [⟨"192.0.2.43", "", "", ""⟩, ⟨"198.51.100.17", "203.0.113.60", "example.com", "http"⟩]
      rfl "for=192.0.2.43"
      " for=198.51.100.17;by=203.0.113.60;proto=http;host=example.com").2.2.2⟩

/-! ## The pair pattern on well-formed pairs -/

/-- The key group matches each of the four keys written in lower case. -/
theorem matchKey_keys (key : String) (hkey : key ∈ ["for", "by", "host", "proto"])
    (rest : List Char) : matchKey (key.data ++ rest) = some (key.data, rest) := by
  simp only [List.mem_cons, List.mem_singleton, List.not_mem_nil, or_false] at hkey
  rcases hkey with h | h | h | h <;> subst h <;> rfl

/-- Once the characters of a match cover the rest of the text, no further pair is
found. -/
theorem findAllPairs_skip (cs : List Char) : ∀ skip, cs.length ≤ skip →
    findAllPairs skip cs = [] := by
  induction cs with
  | nil => intro skip _; cases skip <;> rfl
  | cons c cs ih =>
    intro skip h
    cases skip with
    | zero => simp at h
    | succ k =>
      simp only [findAllPairs]
      exact ih k (by simpa using h)

/-- A key, an equals sign and a value the value group matches entirely give exactly
one pair. -/
theorem findAllPairs_key_value (key : String) (hkey : key ∈ ["for", "by", "host", "proto"])
    (v : List Char) (hv : matchValue v = some (v, [])) :
    findAllPairs 0 (key.data ++ '=' :: v) = [(key, String.mk v)] := by
  have hpair : matchPair (key.data ++ '=' :: v) =
      some (key, String.mk v, key.data.length + 1 + v.length) := by
    unfold matchPair
    rw [matchKey_keys key hkey]
    simp only [hv]
  have hne : ∃ c cs, key.data = c :: cs := by
    simp only [List.mem_cons, List.mem_singleton, List.not_mem_nil, or_false] at hkey
    rcases hkey with h | h | h | h <;> subst h <;> exact ⟨_, _, rfl⟩
  obtain ⟨c, cs, hc⟩ := hne
  rw [hc] at hpair ⊢
  simp only [List.cons_append] at hpair ⊢
  simp only [findAllPairs, hpair]
  rw [findAllPairs_skip]
  simp only [List.length_cons, List.length_append, Nat.add_sub_cancel]
  omega

/-- The inner loop of `ParseForwardedHeader` on one pair with a lower-case key. -/
theorem applyPairs_single (key value : String)
    (hkey : key ∈ ["for", "by", "host", "proto"]) :
    applyPairs [(key, value)] ⟨"", "", "", ""⟩ =
      .ok (elementWith key (Trim (Trim value "\"") "[]")) := by
  simp only [List.mem_cons, List.mem_singleton, List.not_mem_nil, or_false] at hkey
  rcases hkey with h | h | h | h <;> subst h <;> rfl

/-- Trimming leaves a text alone when none of its characters is in the cut set. -/
theorem trimFunc_id (f : Char → Bool) (cs : List Char) (h : ∀ c ∈ cs, f c = false) :
    trimFunc f cs = cs := by
  have hdrop : ∀ l : List Char, (∀ c ∈ l, f c = false) → l.dropWhile f = l := by
    intro l hl
    cases l with
    | nil => rfl
    | cons x xs => simp [List.dropWhile, hl x (by simp)]
  unfold trimFunc
  rw [hdrop cs h, hdrop cs.reverse (fun c hc => h c (by simpa using hc))]
  simp

/-- Trimming strips one leading and one trailing character of the cut set around a
text that has no character of the cut set. -/
theorem trimFunc_wrapped (f : Char → Bool) (x y : Char) (cs : List Char)
    (hx : f x = true) (hy : f y = true) (h : ∀ c ∈ cs, f c = false) :
    trimFunc f (x :: cs ++ [y]) = cs := by
  cases cs with
  | nil => simp [trimFunc, List.dropWhile, hx, hy]
  | cons c cs =>
    have hc : f c = false := h c (by simp)
    have h1 : (x :: (c :: cs) ++ [y]).dropWhile f = c :: cs ++ [y] := by
      simp [List.dropWhile, hx, hc]
    have h2 : (c :: cs ++ [y]).reverse = y :: (c :: cs).reverse := by simp
    have h3 : (y :: (c :: cs).reverse).dropWhile f = (c :: cs).reverse := by
      cases hr : (c :: cs).reverse with
      | nil => simp at hr
      | cons r rs =>
        have hrf : f r = false := h r (by
          have : r ∈ (c :: cs).reverse := by rw [hr]; simp
          exact List.mem_reverse.1 this)
        simp [List.dropWhile, hy, hrf]
    unfold trimFunc
    rw [h1, h2, h3]
    simp

/-- The longest run satisfying `f` at the start of a text: the part before the first
character that fails `f`. -/
theorem takeWhile_append_stop (f : Char → Bool) (x : Char) (r : List Char)
    (hx : f x = false) : ∀ l : List Char, (∀ c ∈ l, f c = true) →
    (l ++ x :: r).takeWhile f = l ∧ (l ++ x :: r).dropWhile f = x :: r := by
  intro l
  induction l with
  | nil => intro _; simp [List.takeWhile, List.dropWhile, hx]
  | cons c cs ih =>
    intro h
    have hc : f c = true := h c (by simp)
    obtain ⟨h1, h2⟩ := ih (fun d hd => h d (by simp [hd]))
    simp [List.takeWhile, List.dropWhile, hc, h1, h2]

/-- A text all of whose characters satisfy `f` is its own longest run. -/
theorem takeWhile_all (f : Char → Bool) : ∀ l : List Char, (∀ c ∈ l, f c = true) →
    l.takeWhile f = l ∧ l.dropWhile f = [] := by
  intro l
  induction l with
  | nil => intro _; simp
  | cons c cs ih =>
    intro h
    have hc : f c = true := h c (by simp)
    obtain ⟨h1, h2⟩ := ih (fun d hd => h d (by simp [hd]))
    simp [List.takeWhile, List.dropWhile, hc, h1, h2]

/-- The characters of a token. -/
theorem isToken_chars (t : String) (h : isToken t = true) (c : Char) (hc : c ∈ t.data) :
    c ≠ ',' ∧ c ≠ ';' ∧ c ≠ '"' ∧ c ≠ '[' ∧ c ≠ ']' ∧ isSpace c = false := by
  unfold isToken at h
  rw [List.all_eq_true] at h
  have := h c hc
  simp only [Bool.not_eq_true', Bool.or_eq_false_iff, decide_eq_false_iff_not] at this
  obtain ⟨⟨⟨⟨⟨a1, a2⟩, a3⟩, a4⟩, a5⟩, a6⟩ := this
  exact ⟨a1, a2, a3, a4, a5, a6⟩

/-- A separator of the pair pattern is a comma, a semicolon or a whitespace. -/
theorem isPairSep_cases (c : Char) (h : isPairSep c = true) :
    c = ',' ∨ c = ';' ∨ isSpace c = true := by
  unfold isPairSep at h
  simp only [Bool.or_eq_true, decide_eq_true_eq] at h
  rcases h with (((((h | h) | h) | h) | h) | h) | h <;> subst h <;> simp <;> decide

/-- No character of a token is a separator of the pair pattern. -/
theorem isToken_not_sep (t : String) (h : isToken t = true) (c : Char) (hc : c ∈ t.data) :
    (!isPairSep c) = true := by
  obtain ⟨h1, h2, _, _, _, h6⟩ := isToken_chars t h c hc
  cases hs : isPairSep c with
  | false => rfl
  | true =>
    rcases isPairSep_cases c hs with e | e | e
    · exact absurd e h1
    · exact absurd e h2
    · rw [h6] at e; cases e

/-- A delimited value does not match a text that starts with another character. -/
theorem matchDelimited_head_ne (opn cls c : Char) (cs : List Char) (h : c ≠ opn) :
    matchDelimited opn cls (c :: cs) = none := by
  simp [matchDelimited, h]

/-- A delimited value matches its opening character, a non-empty body without the
closing character, and the closing character. -/
theorem matchDelimited_wrapped (opn cls : Char) (body : List Char) (hne : body ≠ [])
    (hbody : ∀ c ∈ body, c ≠ cls) :
    matchDelimited opn cls (opn :: (body ++ [cls])) = some (opn :: body ++ [cls], []) := by
  obtain ⟨h1, h2⟩ := takeWhile_append_stop (fun c => decide (c ≠ cls)) cls [] (by simp)
    body (fun c hc => by simpa using hbody c hc)
  unfold matchDelimited
  simp only [ne_eq, not_true_eq_false, ↓reduceIte]
  rw [h1, h2]
  simp only [hne, ↓reduceIte]

/-- The value group matches a non-empty token entirely, bare, quoted, bracketed, or
quoted and bracketed. -/
theorem matchValue_token (t : String) (hne : t.data ≠ []) (h : isToken t = true) :
    matchValue t.data = some (t.data, []) ∧
    matchValue ('"' :: (t.data ++ ['"'])) = some ('"' :: t.data ++ ['"'], []) ∧
    matchValue ('[' :: (t.data ++ [']'])) = some ('[' :: t.data ++ [']'], []) ∧
    matchValue ('"' :: (('[' :: t.data ++ [']']) ++ ['"'])) =
      some ('"' :: ('[' :: t.data ++ [']']) ++ ['"'], []) := by
  have hq : ∀ c ∈ t.data, c ≠ '"' := fun c hc => (isToken_chars t h c hc).2.2.1
  have hb : ∀ c ∈ t.data, c ≠ ']' := fun c hc => (isToken_chars t h c hc).2.2.2.2.1
  have hq2 : ∀ c ∈ '[' :: t.data ++ [']'], c ≠ '"' := by
    intro c hc
    simp only [List.cons_append, List.mem_cons, List.mem_append, List.mem_singleton,
      List.not_mem_nil, or_false] at hc
    rcases hc with e | e | e
    · subst e; decide
    · exact hq c e
    · subst e; decide
  refine ⟨?_, ?_, ?_, ?_⟩
  · obtain ⟨c, cs, hc⟩ : ∃ c cs, t.data = c :: cs := by
      cases hd : t.data with
      | nil => exact absurd hd hne
      | cons c cs => exact ⟨c, cs, rfl⟩
    have hcq : c ≠ '"' := (isToken_chars t h c (by rw [hc]; simp)).2.2.1
    have hcb : c ≠ '[' := (isToken_chars t h c (by rw [hc]; simp)).2.2.2.1
    obtain ⟨h1, h2⟩ := takeWhile_all (fun c => !isPairSep c) t.data (isToken_not_sep t h)
    unfold matchValue
    rw [h1, h2, hc, matchDelimited_head_ne _ _ _ _ hcq, matchDelimited_head_ne _ _ _ _ hcb]
    simp
  · unfold matchValue
    rw [matchDelimited_wrapped '"' '"' t.data hne hq]
  · unfold matchValue
    rw [matchDelimited_head_ne '"' '"' '[' _ (by decide),
      matchDelimited_wrapped '[' ']' t.data hne hb]
  · unfold matchValue
    rw [matchDelimited_wrapped '"' '"' ('[' :: t.data ++ [']']) (by simp) hq2]

/-- One pair with a lower-case key and a value the value group matches entirely
parses to the element with that field set to the trimmed value. -/
theorem parseElement_key_value (key : String) (hkey : key ∈ ["for", "by", "host", "proto"])
    (v : List Char) (hv : matchValue v = some (v, [])) (h : String)
    (hdata : h.data = key.data ++ '=' :: v) :
    parseElement h = .ok (elementWith key (Trim (Trim (String.mk v) "\"") "[]")) := by
  unfold parseElement
  rw [hdata, findAllPairs_key_value key hkey v hv]
  exact applyPairs_single key _ hkey

/-- The four keys contain no comma. -/
theorem key_no_comma (key : String) (hkey : key ∈ ["for", "by", "host", "proto"]) :
    ',' ∉ key.data := by
  simp only [List.mem_cons, List.mem_singleton, List.not_mem_nil, or_false] at hkey
  rcases hkey with h | h | h | h <;> subst h <;> decide

/-- A single-segment header `key=v` whose value is matched entirely and trims to `t`
parses to the one element with that field set to `t`. -/
theorem ParseForwardedHeader_key_value (key t : String)
    (hkey : key ∈ ["for", "by", "host", "proto"])
    (v : List Char) (hv : matchValue v = some (v, [])) (hcomma : ',' ∉ v)
    (htrim : trimFunc (fun c => "[]".data.contains c)
      (trimFunc (fun c => "\"".data.contains c) v) = t.data)
    (h : String) (hdata : h.data = key.data ++ '=' :: v) :
    ParseForwardedHeader h = .ok [elementWith key t] := by
  have hc : ',' ∉ h.data := by
    rw [hdata]
    intro hm
    rcases List.mem_append.1 hm with h1 | h1
    · exact key_no_comma key hkey h1
    · rcases List.mem_cons.1 h1 with h2 | h2
      · exact absurd h2 (by decide)
      · exact hcomma h2
  rw [ParseForwardedHeader_single h hc, parseElement_key_value key hkey v hv h hdata]
  have ht : Trim (Trim (String.mk v) "\"") "[]" = t := by
    show String.mk (trimFunc (fun c => "[]".data.contains c)
      (trimFunc (fun c => "\"".data.contains c) v)) = t
    rw [htrim]
  rw [ht]

/-- C13: for every key among `for`, `by`, `host`, `proto` and every non-empty token
`t` (no double quote, square bracket, comma, semicolon or whitespace), the headers
`key=t`, `key="t"`, `key=[t]` and `key="[t]"` all parse to one element whose
field for the key is exactly `t` and whose other fields are empty. -/
theorem C13_quotes_and_brackets_stripped (key t : String)
    (hkey : key ∈ ["for", "by", "host", "proto"]) (hne : t ≠ "")
    (htok : isToken t = true) :
    ParseForwardedHeader (key ++ "=" ++ t) = .ok [elementWith key t] ∧
    ParseForwardedHeader (key ++ "=\"" ++ t ++ "\"") = .ok [elementWith key t] ∧
    ParseForwardedHeader (key ++ "=[" ++ t ++ "]") = .ok [elementWith key t] ∧
    ParseForwardedHeader (key ++ "=\"[" ++ t ++ "]\"") = .ok [elementWith key t] := by
  have hne1 : t.data ≠ [] := by
    intro e
    apply hne
    cases t
    simp_all
  obtain ⟨hv1, hv2, hv3, hv4⟩ := matchValue_token t hne1 htok
  have hch := isToken_chars t htok
  have hfq : ∀ c, ("\"".data.contains c) = true ↔ c = '"' := by
    intro c
    show (['"'].contains c) = true ↔ c = '"'
    simp
  have hfb : ∀ c, ("[]".data.contains c) = true ↔ (c = '[' ∨ c = ']') := by
    intro c
    show (['[', ']'].contains c) = true ↔ (c = '[' ∨ c = ']')
    simp
  have hq : ∀ c ∈ t.data, ("\"".data.contains c) = false := by
    intro c hc
    have := (hch c hc).2.2.1
    cases hx : "\"".data.contains c with
    | false => rfl
    | true => exact absurd ((hfq c).1 hx) this
  have hb : ∀ c ∈ t.data, ("[]".data.contains c) = false := by
    intro c hc
    have h1 := (hch c hc).2.2.2.1
    have h2 := (hch c hc).2.2.2.2.1
    cases hx : "[]".data.contains c with
    | false => rfl
    | true =>
      rcases (hfb c).1 hx with e | e
      · exact absurd e h1
      · exact absurd e h2
  have hcomma : ',' ∉ t.data := fun hm => (hch ',' hm).1 rfl
  have hq2 : ∀ c ∈ '[' :: t.data ++ [']'], ("\"".data.contains c) = false := by
    intro c hc
    simp only [List.cons_append, List.mem_cons, List.mem_append, List.mem_singleton,
      List.not_mem_nil, or_false] at hc
    rcases hc with e | e | e
    · subst e; decide
    · exact hq c e
    · subst e; decide
  refine ⟨?_, ?_, ?_, ?_⟩
  · refine ParseForwardedHeader_key_value key t hkey t.data hv1 hcomma ?_ _ ?_
    · rw [trimFunc_id _ _ hq, trimFunc_id _ _ hb]
    · simp [String.data_append]
  · refine ParseForwardedHeader_key_value key t hkey _ hv2 ?_ ?_ _ ?_
    · simp [hcomma]
    · rw [show '"' :: (t.data ++ ['"']) = '"' :: t.data ++ ['"'] from rfl,
        trimFunc_wrapped _ '"' '"' t.data (by decide) (by decide) hq, trimFunc_id _ _ hb]
    · simp [String.data_append]
  · refine ParseForwardedHeader_key_value key t hkey _ hv3 ?_ ?_ _ ?_
    · simp [hcomma]
    · rw [show '[' :: (t.data ++ [']']) = '[' :: t.data ++ [']'] from rfl,
        trimFunc_id _ _ hq2, trimFunc_wrapped _ '[' ']' t.data (by decide) (by decide) hb]
    · simp [String.data_append]
  · refine ParseForwardedHeader_key_value key t hkey _ hv4 ?_ ?_ _ ?_
    · simp [hcomma]
    · rw [show '"' :: (('[' :: t.data ++ [']']) ++ ['"']) =
          '"' :: ('[' :: t.data ++ [']']) ++ ['"'] from rfl,
        trimFunc_wrapped _ '"' '"' _ (by decide) (by decide) hq2,
        trimFunc_wrapped _ '[' ']' t.data (by decide) (by decide) hb]
    · simp [String.data_append]

/-- C13 at the examples of the specification: `for="[2001:db8:cafe::17]"` gives
`For = 2001:db8:cafe::17`, and `for=unknown` gives `For = unknown`. -/
theorem C13_quotes_and_brackets_stripped_witness :
    ParseForwardedHeader "for=\"[2001:db8:cafe::17]\"" =
      .ok [⟨"2001:db8:cafe::17", "", "", ""⟩] ∧
    ParseForwardedHeader "for=unknown" = .ok [⟨"unknown", "", "", ""⟩] :=
  ⟨(C13_quotes_and_brackets_stripped "for" "2001:db8:cafe::17" (by decide) (by decide)
      (by decide)).2.2.2,
    (C13_quotes_and_brackets_stripped "for" "unknown" (by decide) (by decide)
      (by decide)).1⟩

/-! ## When `ParseForwardedHeader` fails -/

/-- A character other than U+017F that matches a letter of the four keys is that
letter in lower or upper case. -/
theorem foldMatch_lower (p c : Char) (hp : p ∈ ['f', 'o', 'r', 'b', 'y', 'h', 's', 't', 'p'])
    (h : foldMatch p c = true) (hc : c ≠ Char.ofNat 0x17F) : lowerChar c = p := by
  simp only [List.mem_cons, List.mem_singleton, List.not_mem_nil, or_false] at hp
  unfold foldMatch at h
  simp only [Bool.or_eq_true, Bool.and_eq_true, decide_eq_true_eq] at h
  rcases hp with e | e | e | e | e | e | e | e | e <;> subst e <;>
    rcases h with (h | h) | h
  all_goals first
    | (subst h; decide)
    | (exact absurd h.2 hc)

/-- The text a literal matches is a prefix of the input and, when it has no U+017F,
lower-cases to the literal. -/
theorem matchLit_lower : ∀ (pat cs m rest : List Char),
    (∀ p ∈ pat, p ∈ ['f', 'o', 'r', 'b', 'y', 'h', 's', 't', 'p']) →
    matchLit pat cs = some (m, rest) →
    cs = m ++ rest ∧ ((∀ c ∈ m, c ≠ Char.ofNat 0x17F) → m.map lowerChar = pat) := by
  intro pat
  induction pat with
  | nil =>
    intro cs m rest _ h
    simp only [matchLit] at h
    cases h
    simp
  | cons p ps ih =>
    intro cs m rest hpat h
    cases cs with
    | nil => simp [matchLit] at h
    | cons c cs =>
      simp only [matchLit] at h
      split at h
      · rename_i hf
        split at h
        · cases h
        · rename_i m1 rest1 hrec
          cases h
          obtain ⟨h1, h2⟩ := ih cs m1 rest (fun q hq => hpat q (by simp [hq])) hrec
          refine ⟨by simp [h1], fun hall => ?_⟩
          have hc : c ≠ Char.ofNat 0x17F := hall c (by simp)
          have hl := foldMatch_lower p c (hpat p (by simp)) hf hc
          simp [hl, h2 (fun d hd => hall d (by simp [hd]))]
      · cases h

/-- The text the key group matches is a prefix of the input and, when it has no
U+017F, lower-cases to one of the four keys. -/
theorem matchKey_lower (cs key rest : List Char) (h : matchKey cs = some (key, rest)) :
    cs = key ++ rest ∧
    ((∀ c ∈ key, c ≠ Char.ofNat 0x17F) →
      ToLower (String.mk key) ∈ ["for", "by", "host", "proto"]) := by
  unfold matchKey at h
  have hfor : ∀ p ∈ "for".data, p ∈ ['f', 'o', 'r', 'b', 'y', 'h', 's', 't', 'p'] := by decide
  have hby : ∀ p ∈ "by".data, p ∈ ['f', 'o', 'r', 'b', 'y', 'h', 's', 't', 'p'] := by decide
  have hhost : ∀ p ∈ "host".data, p ∈ ['f', 'o', 'r', 'b', 'y', 'h', 's', 't', 'p'] := by
    decide
  have hproto : ∀ p ∈ "proto".data, p ∈ ['f', 'o', 'r', 'b', 'y', 'h', 's', 't', 'p'] := by
    decide
  have hstr : ∀ (k : String), key.map lowerChar = k.data → ToLower (String.mk key) = k := by
    intro k hk
    show String.mk (key.map lowerChar) = k
    rw [hk]
  split at h
  · rename_i r hr
    cases h
    obtain ⟨h1, h2⟩ := matchLit_lower _ _ _ _ hfor hr
    exact ⟨h1, fun hall => by rw [hstr "for" (h2 hall)]; decide⟩
  · split at h
    · rename_i r hr
      cases h
      obtain ⟨h1, h2⟩ := matchLit_lower _ _ _ _ hby hr
      exact ⟨h1, fun hall => by rw [hstr "by" (h2 hall)]; decide⟩
    · split at h
      · rename_i r hr
        cases h
        obtain ⟨h1, h2⟩ := matchLit_lower _ _ _ _ hhost hr
        exact ⟨h1, fun hall => by rw [hstr "host" (h2 hall)]; decide⟩
      · obtain ⟨h1, h2⟩ := matchLit_lower _ _ _ _ hproto h
        exact ⟨h1, fun hall => by rw [hstr "proto" (h2 hall)]; decide⟩

/-- In a text without U+017F every pair the pattern captures has a key that
lower-cases to one of the four keys. -/
theorem findAllPairs_keys : ∀ (cs : List Char) (skip : Nat),
    Char.ofNat 0x17F ∉ cs →
    ∀ pair ∈ findAllPairs skip cs, ToLower pair.1 ∈ ["for", "by", "host", "proto"] := by
  intro cs
  induction cs with
  | nil => intro skip _ pair h; simp [findAllPairs] at h
  | cons c cs ih =>
    intro skip hs pair h
    have hcs : Char.ofNat 0x17F ∉ cs := fun e => hs (by simp [e])
    cases skip with
    | succ k =>
      simp only [findAllPairs] at h
      exact ih k hcs pair h
    | zero =>
      simp only [findAllPairs] at h
      split at h
      · rename_i key value n hm
        rcases List.mem_cons.1 h with h1 | h1
        · subst h1
          unfold matchPair at hm
          split at hm
          · cases hm
          · rename_i k rest hk
            obtain ⟨hpre, hlow⟩ := matchKey_lower _ _ _ hk
            split at hm
            · split at hm
              · cases hm
              · cases hm
                apply hlow
                intro d hd e
                apply hs
                rw [hpre, ← e]
                exact List.mem_append_left _ hd
            · cases hm
        · exact ih _ hcs pair h1
      · exact ih 0 hcs pair h

/-- The inner loop of `ParseForwardedHeader` succeeds when every key lower-cases to
one of the four keys. -/
theorem applyPairs_ok : ∀ (pairs : List (String × String)) (forwarded : ForwardedHeader),
    (∀ pair ∈ pairs, ToLower pair.1 ∈ ["for", "by", "host", "proto"]) →
    ∃ r, applyPairs pairs forwarded = .ok r := by
  intro pairs
  induction pairs with
  | nil => intro forwarded _; exact ⟨forwarded, rfl⟩
  | cons pair pairs ih =>
    intro forwarded h
    have hk := h pair (by simp)
    have hrest : ∀ q ∈ pairs, ToLower q.1 ∈ ["for", "by", "host", "proto"] :=
      fun q hq => h q (by simp [hq])
    simp only [applyPairs]
    split
    · exact ih _ hrest
    · split
      · exact ih _ hrest
      · split
        · exact ih _ hrest
        · split
          · exact ih _ hrest
          · rename_i h1 h2 h3 h4
            simp only [List.mem_cons, List.mem_singleton, List.not_mem_nil, or_false] at hk
            rcases hk with e | e | e | e
            · exact absurd e h1
            · exact absurd e h2
            · exact absurd e h3
            · exact absurd e h4

/-- The characters of a piece of a split are characters of the text. -/
theorem splitOn_subset (sep : Char) : ∀ (cs seg : List Char), seg ∈ splitOn sep cs →
    ∀ c ∈ seg, c ∈ cs := by
  intro cs
  induction cs with
  | nil =>
    intro seg h c hc
    simp [splitOn] at h
    subst h
    simp at hc
  | cons x xs ih =>
    intro seg h c hc
    simp only [splitOn] at h
    split at h
    · rcases List.mem_cons.1 h with h1 | h1
      · subst h1; simp at hc
      · exact List.mem_cons_of_mem _ (ih seg h1 c hc)
    · cases hs : splitOn sep xs with
      | nil => exact absurd hs (splitOn_ne_nil sep xs)
      | cons s0 rest =>
        rw [hs] at h ih
        simp only at h
        rcases List.mem_cons.1 h with h1 | h1
        · subst h1
          rcases List.mem_cons.1 hc with h2 | h2
          · simp [h2]
          · exact List.mem_cons_of_mem _ (ih s0 (by simp) c h2)
        · exact List.mem_cons_of_mem _ (ih seg (by simp [h1]) c hc)

/-- The outer loop of `ParseForwardedHeader` succeeds on segments without U+017F. -/
theorem parseElements_total : ∀ (elements : List String) (result : List ForwardedHeader),
    (∀ e ∈ elements, Char.ofNat 0x17F ∉ e.data) →
    ∃ items, parseElements elements result = .ok items := by
  intro elements
  induction elements with
  | nil => intro result _; exact ⟨result, rfl⟩
  | cons x xs ih =>
    intro result h
    rw [parseElements_cons]
    obtain ⟨r, hr⟩ := applyPairs_ok (findAllPairs 0 x.data) ⟨"", "", "", ""⟩
      (findAllPairs_keys x.data 0 (h x (by simp)))
    have hx : parseElement x = .ok r := hr
    rw [hx]
    exact ih _ (fun e he => h e (by simp [he]))

/-- C19, as stated, fails: the pair pattern is case-insensitive, which in Go's
`regexp` includes U+017F (long s) for the letter `s`; the key of `hoſt=1` is
captured, does not lower-case to `host`, and the parse fails in the
`unknown forwarded header key` branch. -/
theorem C19_counterexample_long_s :
    ParseForwardedHeader "hoſt=1" =
      .error "unknown forwarded header key: hoſt" := by
  rfl

/-- C19 (amended): `ParseForwardedHeader` returns a nil error and at least one
element (one per comma-separated segment) for every input string that does not
contain the character U+017F, in particular for every ASCII input. -/
theorem C19_total_without_long_s (h : String) (hs : Char.ofNat 0x17F ∉ h.data) :
    ∃ items, ParseForwardedHeader h = .ok items ∧
      items.length = h.data.count ',' + 1 ∧ items ≠ [] := by
  have hseg : ∀ e ∈ Split h ',', Char.ofNat 0x17F ∉ e.data := by
    intro e he hm
    unfold Split at he
    obtain ⟨cs, hcs, heq⟩ := List.mem_map.1 he
    subst heq
    exact hs (splitOn_subset ',' _ cs hcs _ hm)
  obtain ⟨items, hitems⟩ := parseElements_total (Split h ',') [] hseg
  have hok : ParseForwardedHeader h = .ok items := hitems
  have hlen : items.length = h.data.count ',' + 1 := by
    rw [(parseElements_ok (Split h ',') items hitems).1]
    simp [Split, splitOn_length]
  refine ⟨items, hok, hlen, ?_⟩
  intro e
  rw [e] at hlen
  simp at hlen

/-- C19 (amended) at an example: `bogus=1;Host=a` has no U+017F and parses. -/
theorem C19_total_without_long_s_witness :
    ∃ items, ParseForwardedHeader "bogus=1;Host=a" = .ok items ∧
      items.length = ("bogus=1;Host=a" : String).data.count ',' + 1 ∧ items ≠ [] :=
  C19_total_without_long_s "bogus=1;Host=a" (by decide)

/-! ## The two walks agree -/

/-- The pieces of `x_1, x_2, ..., x_n`: the first token, then each further token
behind a space. -/
theorem splitOn_xffOf : ∀ (rest : List String) (x : String),
    (∀ y ∈ x :: rest, ',' ∉ y.data) →
    splitOn ',' (xffOf (x :: rest)).data = x.data :: rest.map (fun y => ' ' :: y.data) := by
  intro rest
  induction rest with
  | nil =>
    intro x h
    exact splitOn_of_not_mem ',' x.data (h x (by simp))
  | cons y ys ih =>
    intro x h
    have hd : (xffOf (x :: y :: ys)).data = x.data ++ ',' :: (' ' :: (xffOf (y :: ys)).data) := by
      simp [xffOf, String.data_append]
    rw [hd, splitOn_append, splitOn_of_not_mem ',' x.data (h x (by simp))]
    have hy := ih y (fun z hz => h z (by simp [List.mem_cons] at hz ⊢; tauto))
    simp only [splitOn, hy]
    simp

/-- The pieces of `for=x_1, for=x_2, ..., for=x_n`. -/
theorem splitOn_forwardedOf : ∀ (rest : List String) (x : String),
    (∀ y ∈ x :: rest, ',' ∉ y.data) →
    splitOn ',' (forwardedOf (x :: rest)).data =
      ("for=".data ++ x.data) :: rest.map (fun y => ' ' :: ("for=".data ++ y.data)) := by
  intro rest
  induction rest with
  | nil =>
    intro x h
    have hd : (forwardedOf [x]).data = "for=".data ++ x.data := by
      simp [forwardedOf, String.data_append]
    rw [hd]
    refine splitOn_of_not_mem ',' _ ?_
    intro hm
    rcases List.mem_append.1 hm with h1 | h1
    · exact absurd h1 (by decide)
    · exact h x (by simp) h1
  | cons y ys ih =>
    intro x h
    have hd : (forwardedOf (x :: y :: ys)).data =
        ("for=".data ++ x.data) ++ ',' :: (' ' :: (forwardedOf (y :: ys)).data) := by
      simp [forwardedOf, String.data_append]
    have hx : ',' ∉ "for=".data ++ x.data := by
      intro hm
      rcases List.mem_append.1 hm with h1 | h1
      · exact absurd h1 (by decide)
      · exact h x (by simp) h1
    rw [hd, splitOn_append, splitOn_of_not_mem ',' _ hx]
    have hy := ih y (fun z hz => h z (by simp [List.mem_cons] at hz ⊢; tauto))
    simp only [splitOn, hy]
    simp

/-- A leading space does not change the element a segment parses to. -/
theorem parseElement_space (cs : List Char) :
    parseElement (String.mk (' ' :: cs)) = parseElement (String.mk cs) := by
  have hm : matchPair (' ' :: cs) = none := by
    simp [matchPair, matchKey, matchLit, foldMatch]
  unfold parseElement
  simp only [findAllPairs, hm]

/-- The segment `for=x` of a token `x` parses to the element whose `For` is `x`. -/
theorem parseElement_for (x : String) (htok : isToken x = true) :
    parseElement (String.mk ("for=".data ++ x.data)) = .ok ⟨x, "", "", ""⟩ := by
  by_cases hx : x.data = []
  · have hx0 : x = "" := by
      cases x
      simp_all
    subst hx0
    rfl
  · have hv := (matchValue_token x hx htok).1
    have hch := isToken_chars x htok
    have hq : ∀ c ∈ x.data, ("\"".data.contains c) = false := by
      intro c hc
      have h3 := (hch c hc).2.2.1
      show (['"'].contains c) = false
      simpa using h3
    have hb : ∀ c ∈ x.data, ("[]".data.contains c) = false := by
      intro c hc
      have h4 := (hch c hc).2.2.2.1
      have h5 := (hch c hc).2.2.2.2.1
      show (['[', ']'].contains c) = false
      simp [h4, h5]
    rw [parseElement_key_value "for" (by decide) x.data hv
      (String.mk ("for=".data ++ x.data)) rfl]
    have ht : Trim (Trim (String.mk x.data) "\"") "[]" = x := by
      show String.mk (trimFunc (fun c => "[]".data.contains c)
        (trimFunc (fun c => "\"".data.contains c) x.data)) = x
      rw [trimFunc_id _ _ hq, trimFunc_id _ _ hb]
    rw [ht]
    rfl

/-- The outer loop of `ParseForwardedHeader` on segments that each parse to the
element of a token. -/
theorem parseElements_for : ∀ (segs : List String) (xs : List String)
    (result : List ForwardedHeader),
    List.Forall₂ (fun seg x => parseElement seg = .ok ⟨x, "", "", ""⟩) segs xs →
    parseElements segs result = .ok (result ++ xs.map (fun x => ⟨x, "", "", ""⟩)) := by
  intro segs xs result h
  induction h generalizing result with
  | nil => simp [parseElements]
  | cons hhead _ ih =>
    rw [parseElements_cons, hhead]
    simp only
    rw [ih]
    simp

/-- `ParseForwardedHeader` on `for=x_1, ..., for=x_n` gives the elements whose `For`
values are the tokens. -/
theorem ParseForwardedHeader_forwardedOf (x : String) (rest : List String)
    (htok : ∀ y ∈ x :: rest, isToken y = true) :
    ParseForwardedHeader (forwardedOf (x :: rest)) =
      .ok ((x :: rest).map (fun y => ⟨y, "", "", ""⟩)) := by
  have hcomma : ∀ y ∈ x :: rest, ',' ∉ y.data :=
    fun y hy hm => (isToken_chars y (htok y hy) ',' hm).1 rfl
  unfold ParseForwardedHeader Split
  rw [splitOn_forwardedOf rest x hcomma]
  have hall : List.Forall₂ (fun seg y => parseElement seg = .ok ⟨y, "", "", ""⟩)
      ((("for=".data ++ x.data) :: rest.map (fun y => ' ' :: ("for=".data ++ y.data))).map
        String.mk) (x :: rest) := by
    simp only [List.map_cons, List.map_map]
    refine List.Forall₂.cons (parseElement_for x (htok x (by simp))) ?_
    have hrest : ∀ y ∈ rest, isToken y = true := fun y hy => htok y (by simp [hy])
    clear htok hcomma
    induction rest with
    | nil => exact List.Forall₂.nil
    | cons y ys ih =>
      simp only [List.map_cons]
      refine List.Forall₂.cons ?_ (ih (fun z hz => hrest z (by simp [hz])))
      show parseElement (String.mk (' ' :: ("for=".data ++ y.data))) = _
      rw [parseElement_space]
      exact parseElement_for y (hrest y (by simp))
  have := parseElements_for _ _ [] hall
  simpa using this

/-- Trimming strips a leading character of the cut set before a text that has no
character of the cut set. -/
theorem trimFunc_lead (f : Char → Bool) (a : Char) (cs : List Char) (ha : f a = true)
    (h : ∀ c ∈ cs, f c = false) : trimFunc f (a :: cs) = cs := by
  have h1 : trimFunc f (a :: cs) = trimFunc f cs := by
    simp [trimFunc, List.dropWhile, ha]
  rw [h1, trimFunc_id f cs h]

/-- The trimmed segments of `x_1, ..., x_n` are the tokens. -/
theorem segments_xffOf (x : String) (rest : List String)
    (htok : ∀ y ∈ x :: rest, isToken y = true) :
    (Split (xffOf (x :: rest)) ',').map TrimSpace = x :: rest := by
  have hcomma : ∀ y ∈ x :: rest, ',' ∉ y.data :=
    fun y hy hm => (isToken_chars y (htok y hy) ',' hm).1 rfl
  have hsp : ∀ y ∈ x :: rest, ∀ c ∈ y.data, isSpace c = false :=
    fun y hy c hc => (isToken_chars y (htok y hy) c hc).2.2.2.2.2
  unfold Split
  rw [splitOn_xffOf rest x hcomma]
  simp only [List.map_cons, List.map_map]
  have hx : TrimSpace (String.mk x.data) = x := by
    show String.mk (trimFunc isSpace x.data) = x
    rw [trimFunc_id _ _ (hsp x (by simp))]
  rw [hx]
  congr 1
  have hrest : ∀ y ∈ rest, ∀ c ∈ y.data, isSpace c = false :=
    fun y hy => hsp y (by simp [hy])
  clear htok hcomma hsp hx
  induction rest with
  | nil => rfl
  | cons y ys ih =>
    simp only [List.map_cons, Function.comp]
    have hy : TrimSpace (String.mk (' ' :: y.data)) = y := by
      show String.mk (trimFunc isSpace (' ' :: y.data)) = y
      rw [trimFunc_lead _ _ _ (by decide) (hrest y (by simp))]
    rw [hy]
    congr 1
    exact ih (fun z hz => hrest z (by simp [hz]))

/-- The two loops agree when they read the same texts at every position. -/
theorem walks_agree (p : Parser) (items : List ForwardedHeader) (segs : List String)
    (h : ∀ i, (items.getD i ⟨"", "", "", ""⟩).For = TrimSpace (segs.getD i "")) :
    ∀ n, validateHeaderLoop p items n = validateXHeaderLoop p segs n := by
  intro n
  induction n with
  | zero => rfl
  | succ m ih =>
    simp only [validateHeaderLoop, validateXHeaderLoop]
    rw [h m, ih]

/-- Reading a mapped list at a position, with defaults that correspond. -/
theorem getD_map_default {α β : Type} (f : α → β) (d : α) (e : β) (hd : f d = e) :
    ∀ (l : List α) (i : Nat), (l.map f).getD i e = f (l.getD i d) := by
  intro l
  induction l with
  | nil => intro i; simp [hd]
  | cons x xs ih =>
    intro i
    cases i with
    | zero => simp
    | succ i => simpa using ih i

/-- C18: for every trusted-proxy set and every non-empty list of tokens `x_1..x_n`
(no comma, semicolon, whitespace, double quote or square bracket), `validateHeader`
applied to `for=x_1, for=x_2, ..., for=x_n` returns the same (address, valid)
pair as `validateXHeader` applied to `x_1, x_2, ..., x_n`. -/
theorem C18_forwarded_walk_is_xheader_walk (p : Parser) (xs : List String)
    (hne : xs ≠ []) (htok : ∀ x ∈ xs, isToken x = true) :
    p.validateHeader (forwardedOf xs) = p.validateXHeader (xffOf xs) := by
  obtain ⟨x, rest, hxs⟩ : ∃ x rest, xs = x :: rest := by
    cases xs with
    | nil => exact absurd rfl hne
    | cons x rest => exact ⟨x, rest, rfl⟩
  subst hxs
  have hparse := ParseForwardedHeader_forwardedOf x rest htok
  have hsegs := segments_xffOf x rest htok
  have hfne : forwardedOf (x :: rest) ≠ "" := by
    intro e
    have hd : (forwardedOf (x :: rest)).data ≠ [] := by
      cases rest <;> simp [forwardedOf, String.data_append]
    rw [e] at hd
    exact hd rfl
  have hagree : ∀ i, (((x :: rest).map (fun y => (⟨y, "", "", ""⟩ : ForwardedHeader))).getD i
      ⟨"", "", "", ""⟩).For = TrimSpace ((Split (xffOf (x :: rest)) ',').getD i "") := by
    intro i
    rw [getD_map_default (fun y => (⟨y, "", "", ""⟩ : ForwardedHeader)) "" _ rfl]
    rw [← getD_map_default TrimSpace "" "" TrimSpace_empty, hsegs]
  have hlen : (Split (xffOf (x :: rest)) ',').length = (x :: rest).length := by
    have := congrArg List.length hsegs
    simpa using this
  unfold Parser.validateHeader Parser.validateXHeader
  simp only [hfne, ↓reduceIte, hparse]
  split
  · rename_i h0
    have hrest : rest = [] := by
      cases rest with
      | nil => rfl
      | cons y ys =>
        exfalso
        have hd : (xffOf (x :: y :: ys)).data ≠ [] := by
          simp [xffOf, String.data_append]
        rw [h0] at hd
        exact hd rfl
    subst hrest
    have hx0 : x = "" := h0
    subst hx0
    rfl
  · rw [walks_agree p _ _ hagree, hlen]
    simp

/-- C18 at an example: `for=6.6.6.6, for=127.0.0.1` and `6.6.6.6, 127.0.0.1` give
the same result, the untrusted `6.6.6.6`. -/
theorem C18_forwarded_walk_is_xheader_walk_witness :
    exampleParser.validateHeader "for=6.6.6.6, for=127.0.0.1" = ("6.6.6.6", true) ∧
    exampleParser.validateHeader (forwardedOf ["6.6.6.6", "127.0.0.1"]) =
      exampleParser.validateXHeader (xffOf ["6.6.6.6", "127.0.0.1"]) :=
  ⟨by decide,
    C18_forwarded_walk_is_xheader_walk exampleParser ["6.6.6.6", "127.0.0.1"] (by decide)
      (by decide)⟩

/-! ## The text of an address parses back -/

/-- The octets a successful `parseIPv4Fields` loop yields are bytes. -/
theorem parseIPv4Loop_bytes : ∀ (cs : List Char) (fields : List Nat) (val digLen : Nat)
    (first prevDot : Bool) (r : List Nat),
    (∀ b ∈ fields, b < 256) → val < 256 →
    parseIPv4Loop cs fields val digLen first prevDot = some r → ∀ b ∈ r, b < 256 := by
  intro cs
  induction cs with
  | nil =>
    intro fields val digLen first prevDot r hf hv h
    simp only [parseIPv4Loop] at h
    split at h
    · cases h
    · cases h
      intro b hb
      rcases List.mem_append.1 hb with h1 | h1
      · exact hf b h1
      · simp at h1
        omega
  | cons c cs ih =>
    intro fields val digLen first prevDot r hf hv h
    simp only [parseIPv4Loop] at h
    split at h
    · split at h
      · cases h
      · split at h
        · cases h
        · exact ih _ _ _ _ _ _ hf (by omega) h
    · split at h
      · split at h
        · cases h
        · split at h
          · cases h
          · refine ih _ _ _ _ _ _ ?_ (by omega) h
            intro b hb
            rcases List.mem_append.1 hb with h1 | h1
            · exact hf b h1
            · simp at h1
              omega
      · cases h

/-- The value `hexGroup` returns fits 16 bits. -/
theorem hexGroup_value : ∀ (cs : List Char) (off acc off1 acc1 : Nat) (rest : List Char),
    acc ≤ 0xFFFF → hexGroup cs off acc = some (off1, acc1, rest) → acc1 ≤ 0xFFFF := by
  intro cs
  induction cs with
  | nil =>
    intro off acc off1 acc1 rest ha h
    simp only [hexGroup] at h
    cases h
    exact ha
  | cons c cs ih =>
    intro off acc off1 acc1 rest ha h
    simp only [hexGroup] at h
    split at h
    · cases h
      exact ha
    · split at h
      · cases h
      · split at h
        · cases h
        · exact ih _ _ _ _ _ (by omega) h

/-- The bytes written by the `parseIPv6` loop are bytes. -/
theorem parseIPv6Loop_bytes : ∀ (n : Nat) (s : List Char) (ip : List Nat) (ell : Option Nat)
    (rest : List Char) (ip1 : List Nat) (ell1 : Option Nat),
    (∀ b ∈ ip, b < 256) →
    parseIPv6Loop n s ip ell = some (rest, ip1, ell1) → ∀ b ∈ ip1, b < 256 := by
  intro n
  induction n with
  | zero =>
    intro s ip ell rest ip1 ell1 hb h
    simp only [parseIPv6Loop] at h
    cases h
    exact hb
  | succ n ih =>
    intro s ip ell rest ip1 ell1 hb h
    simp only [parseIPv6Loop] at h
    split at h
    · cases h
    · rename_i off acc rest0 hg
      have hacc := hexGroup_value _ _ _ _ _ _ (by omega) hg
      have hb1 : ∀ b ∈ ip ++ [acc / 256, acc % 256], b < 256 := by
        intro b hm
        rcases List.mem_append.1 hm with h1 | h1
        · exact hb b h1
        · simp at h1
          omega
      split at h
      · cases h
      · split at h
        · split at h
          · cases h
          · split at h
            · cases h
            · split at h
              · cases h
              · rename_i four h4
                cases h
                have hfour := parseIPv4Loop_bytes _ _ _ _ _ _ _ (by simp) (by omega) h4
                intro b hm
                rcases List.mem_append.1 hm with h1 | h1
                · exact hb b h1
                · exact hfour b h1
        · cases h
          exact hb1
        · split at h
          · cases h
          · split at h
            · cases h
            · split at h
              · cases h
              · split at h
                · cases h
                  exact hb1
                · exact ih _ _ _ _ _ _ hb1 h
            · exact ih _ _ _ _ _ _ hb1 h

/-- The 16 bytes of a successful `parseIPv6` are bytes. -/
theorem parseIPv6_bytes (input : List Char) (b : List Nat) (z : String)
    (h : parseIPv6 input = some (Addr.v6 b z)) : ∀ x ∈ b, x < 256 := by
  unfold parseIPv6 at h
  simp only at h
  split at h
  · cases h
  · split at h
    · cases h
      intro x hx
      simp at hx
      omega
    · split at h
      · cases h
      · rename_i rest ip ell hloop
        have hb := parseIPv6Loop_bytes 8 _ [] _ rest ip ell (by simp) hloop
        split at h
        · cases h
        · split at h
          · split at h
            · cases h
            · cases h
              intro x hx
              simp only [List.mem_append, List.mem_replicate] at hx
              rcases hx with (h1 | h1) | h1
              · exact hb x (List.mem_of_mem_take h1)
              · omega
              · exact hb x (List.mem_of_mem_drop h1)
          · split at h
            · cases h
            · cases h
              exact hb

/-- The 16-byte form of every address `ParseAddr` returns consists of bytes. -/
theorem parseAddrScan_bytes (s : List Char) : ∀ (cs : List Char) (a : Addr),
    parseAddrScan s cs = some a → ∀ x ∈ a.As16, x < 256 := by
  intro cs
  induction cs with
  | nil => intro a h; cases h
  | cons c cs ih =>
    intro a h
    simp only [parseAddrScan] at h
    split at h
    · cases h4 : parseIPv4Fields s with
      | none => simp [h4] at h
      | some r =>
        simp [h4] at h
        subst h
        have hr := parseIPv4Loop_bytes _ _ _ _ _ _ _ (by simp) (by omega) h4
        intro x hx
        simp only [Addr.As16, v4InV6Head, List.mem_append] at hx
        rcases hx with h1 | h1
        · simp at h1
          omega
        · exact hr x h1
    · split at h
      · cases a with
        | v4 b => exact (parseIPv6_not_v4 _ _ h).elim
        | v6 b z => exact parseIPv6_bytes _ _ _ h
      · split at h
        · cases h
        · exact ih a h

/-- Every address `net.ParseIP` returns consists of bytes. -/
theorem ParseIP_bytes (s : String) (ip : IP) (h : ParseIP s = some ip) :
    ∀ x ∈ ip, x < 256 := by
  unfold ParseIP at h
  split at h
  · cases h
  · rename_i a ha
    split at h
    · cases h
    · cases h
      exact parseAddrScan_bytes _ _ _ ha

/-- The decimal digit characters. -/
theorem digit_char_facts : ∀ d, d < 10 →
    isDigit (Char.ofNat (48 + d)) = true ∧ digitVal (Char.ofNat (48 + d)) = d ∧
    Char.ofNat (48 + d) ≠ '.' ∧ Char.ofNat (48 + d) ≠ ':' ∧ Char.ofNat (48 + d) ≠ '%' := by
  decide

/-- One digit read by the `parseIPv4Fields` loop. -/
theorem parseIPv4Loop_digit (d : Nat) (hd : d < 10) (rest : List Char) (fields : List Nat)
    (val digLen : Nat) (first prevDot : Bool) (hz : ¬ (digLen = 1 ∧ val = 0))
    (hv : val * 10 + d ≤ 255) :
    parseIPv4Loop (Char.ofNat (48 + d) :: rest) fields val digLen first prevDot =
      parseIPv4Loop rest fields (val * 10 + d) (digLen + 1) false false := by
  obtain ⟨h1, h2, _⟩ := digit_char_facts d hd
  simp only [parseIPv4Loop, h1, ↓reduceIte, h2, hz]
  have : ¬ (val * 10 + d > 255) := by omega
  simp only [this, ↓reduceIte]

/-- One octet in decimal read by the `parseIPv4Fields` loop. -/
theorem parseIPv4Loop_octet (v : Nat) (hv : v < 256) (rest : List Char) (fields : List Nat)
    (first prevDot : Bool) :
    parseIPv4Loop (decByte v ++ rest) fields 0 0 first prevDot =
      parseIPv4Loop rest fields v (decByte v).length false false := by
  unfold decByte
  split
  · rw [List.singleton_append, parseIPv4Loop_digit v (by omega) _ _ _ _ _ _ (by omega)
      (by omega)]
    simp
  · split
    · simp only [List.cons_append, List.nil_append]
      rw [parseIPv4Loop_digit (v / 10) (by omega) _ _ _ _ _ _ (by omega) (by omega),
        parseIPv4Loop_digit (v % 10) (by omega) _ _ _ _ _ _ (by omega) (by omega)]
      have : (0 * 10 + v / 10) * 10 + v % 10 = v := by omega
      rw [this]
      rfl
    · simp only [List.cons_append, List.nil_append]
      rw [parseIPv4Loop_digit (v / 100) (by omega) _ _ _ _ _ _ (by omega) (by omega),
        parseIPv4Loop_digit (v / 10 % 10) (by omega) _ _ _ _ _ _ (by omega) (by omega),
        parseIPv4Loop_digit (v % 10) (by omega) _ _ _ _ _ _ (by omega) (by omega)]
      have : ((0 * 10 + v / 100) * 10 + v / 10 % 10) * 10 + v % 10 = v := by omega
      rw [this]
      rfl

/-- The decimal text of an octet starts with a digit. -/
theorem decByte_head (v : Nat) (hv : v < 256) :
    ∃ d t, d < 10 ∧ decByte v = Char.ofNat (48 + d) :: t := by
  unfold decByte
  split
  · exact ⟨v, [], by omega, rfl⟩
  · split
    · exact ⟨v / 10, _, by omega, rfl⟩
    · exact ⟨v / 100, _, by omega, rfl⟩

/-- A dot between two octets read by the `parseIPv4Fields` loop. -/
theorem parseIPv4Loop_dot (v : Nat) (hv : v < 256) (rest : List Char) (fields : List Nat)
    (val digLen : Nat) (hf : fields.length ≠ 3) :
    parseIPv4Loop ('.' :: (decByte v ++ rest)) fields val digLen false false =
      parseIPv4Loop (decByte v ++ rest) (fields ++ [val]) 0 0 false true := by
  obtain ⟨d, t, hd, ht⟩ := decByte_head v hv
  rw [ht]
  simp [parseIPv4Loop, isDigit, hf]

/-- `parseIPv4Fields` reads back the dotted text of four octets. -/
theorem parseIPv4Fields_string4 (a b c d : Nat) (ha : a < 256) (hb : b < 256) (hc : c < 256)
    (hd : d < 256) : parseIPv4Fields (string4 [a, b, c, d]) = some [a, b, c, d] := by
  have hs : string4 [a, b, c, d] =
      decByte a ++ ('.' :: (decByte b ++ ('.' :: (decByte c ++ ('.' :: (decByte d ++ [])))))) := by
    simp [string4]
  rw [hs]
  unfold parseIPv4Fields
  rw [parseIPv4Loop_octet a ha, parseIPv4Loop_dot b hb _ _ _ _ (by simp),
    parseIPv4Loop_octet b hb, parseIPv4Loop_dot c hc _ _ _ _ (by simp),
    parseIPv4Loop_octet c hc, parseIPv4Loop_dot d hd _ _ _ _ (by simp),
    parseIPv4Loop_octet d hd]
  simp [parseIPv4Loop]

/-- The dispatch of `ParseAddr` passes over the digits of an octet. -/
theorem parseAddrScan_octet (s : List Char) (v : Nat) (hv : v < 256) (rest : List Char) :
    parseAddrScan s (decByte v ++ '.' :: rest) = (parseIPv4Fields s).map Addr.v4 := by
  have hstep : ∀ (k : Nat) (hk : k < 10) (cs : List Char),
      parseAddrScan s (Char.ofNat (48 + k) :: cs) = parseAddrScan s cs := by
    intro k hk cs
    obtain ⟨_, _, h3, h4, h5⟩ := digit_char_facts k hk
    simp [parseAddrScan, h3, h4, h5]
  have hdot : parseAddrScan s ('.' :: rest) = (parseIPv4Fields s).map Addr.v4 := by
    simp [parseAddrScan]
  unfold decByte
  split
  · rw [List.singleton_append, hstep v (by omega), hdot]
  · split
    · simp only [List.cons_append, List.nil_append]
      rw [hstep (v / 10) (by omega), hstep (v % 10) (by omega), hdot]
    · simp only [List.cons_append, List.nil_append]
      rw [hstep (v / 100) (by omega), hstep (v / 10 % 10) (by omega),
        hstep (v % 10) (by omega), hdot]

/-- `net.ParseIP` reads back the dotted text of four octets as the IPv4-mapped
address. -/
theorem ParseIP_string4 (a b c d : Nat) (ha : a < 256) (hb : b < 256) (hc : c < 256)
    (hd : d < 256) :
    ParseIP (String.mk (string4 [a, b, c, d])) = some (v4InV6Head ++ [a, b, c, d]) := by
  have hs : string4 [a, b, c, d] =
      decByte a ++ '.' :: (decByte b ++ ('.' :: (decByte c ++ ('.' :: (decByte d ++ []))))) := by
    simp [string4]
  have hscan : ParseAddr (String.mk (string4 [a, b, c, d])) = some (Addr.v4 [a, b, c, d]) := by
    unfold ParseAddr
    show parseAddrScan (string4 [a, b, c, d]) (string4 [a, b, c, d]) = _
    conv_lhs => arg 2; rw [hs]
    rw [parseAddrScan_octet _ a ha, parseIPv4Fields_string4 a b c d ha hb hc hd]
    rfl
  unfold ParseIP
  rw [hscan]
  rfl

/-- The hexadecimal digit characters. -/
theorem hex_char_facts : ∀ d, d < 16 →
    hexVal (hexDigit d) = some d ∧ hexDigit d ≠ ':' ∧ hexDigit d ≠ '.' ∧
    hexDigit d ≠ '%' := by
  decide

/-- `appendHex` writes the characters of the digits of the group. -/
theorem appendHex_eq (x : Nat) : appendHex x = (hexDigits x).map hexDigit := by
  unfold appendHex hexDigits
  split <;> split <;> split <;> simp

/-- A 16-bit group has one to four hexadecimal digits. -/
theorem hexDigits_facts (x : Nat) (hx : x < 65536) :
    (∀ d ∈ hexDigits x, d < 16) ∧ 1 ≤ (hexDigits x).length ∧ (hexDigits x).length ≤ 4 := by
  unfold hexDigits
  refine ⟨?_, ?_, ?_⟩
  · intro d hd
    simp only [List.mem_append, List.mem_singleton] at hd
    rcases hd with ((h | h) | h) | h
    · split at h
      · simp at h; omega
      · simp at h
    · split at h
      · simp at h; omega
      · simp at h
    · split at h
      · simp at h; omega
      · simp at h
    · omega
  · simp only [List.length_append, List.length_singleton]
    omega
  · split <;> split <;> split <;> simp

/-- The text of a group starts with a hexadecimal digit. -/
theorem appendHex_head (x : Nat) (hx : x < 65536) :
    ∃ h t, appendHex x = h :: t ∧ h ≠ ':' ∧ h ≠ '.' ∧ h ≠ '%' := by
  obtain ⟨hall, hlen, _⟩ := hexDigits_facts x hx
  rw [appendHex_eq]
  cases hd : hexDigits x with
  | nil => rw [hd] at hlen; simp at hlen
  | cons d ds =>
    have hd16 : d < 16 := hall d (by rw [hd]; simp)
    obtain ⟨_, h2, h3, h4⟩ := hex_char_facts d hd16
    exact ⟨hexDigit d, ds.map hexDigit, rfl, h2, h3, h4⟩

/-- The inner loop of `parseIPv6` reads a run of at most four hexadecimal digits
that ends at the end of the text or at a colon. -/
theorem hexGroup_digits : ∀ (ds : List Nat) (off acc : Nat) (rest : List Char),
    (∀ d ∈ ds, d < 16) → off + ds.length ≤ 4 → acc < 16 ^ off →
    (rest = [] ∨ ∃ r, rest = ':' :: r) →
    hexGroup (ds.map hexDigit ++ rest) off acc =
      some (off + ds.length, ds.foldl (fun a d => a * 16 + d) acc, rest) := by
  intro ds
  induction ds with
  | nil =>
    intro off acc rest _ _ _ hrest
    rcases hrest with h | ⟨r, h⟩
    · subst h; rfl
    · subst h
      have hc : hexVal ':' = none := by decide
      simp [hexGroup, hc]
  | cons d ds ih =>
    intro off acc rest hall hlen hacc hrest
    have hd : d < 16 := hall d (by simp)
    obtain ⟨hv, _⟩ := hex_char_facts d hd
    have hoff : off ≤ 3 := by
      simp only [List.length_cons] at hlen
      omega
    have hacc1 : acc * 16 + d < 16 ^ (off + 1) := by
      rw [pow_succ]
      omega
    have hpow : 16 ^ (off + 1) ≤ 65536 := by
      have : off + 1 ≤ 4 := by omega
      calc 16 ^ (off + 1) ≤ 16 ^ 4 := Nat.pow_le_pow_right (by omega) this
        _ = 65536 := by norm_num
    simp only [List.map_cons, List.cons_append, hexGroup, hv]
    have h1 : ¬ off > 3 := by omega
    have h2 : ¬ acc * 16 + d > 0xFFFF := by omega
    simp only [h1, h2, ↓reduceIte]
    have hrec := ih (off + 1) (acc * 16 + d) rest (fun e he => hall e (by simp [he]))
      (by simp only [List.length_cons] at hlen; omega) hacc1 hrest
    have hrec1 : hexGroup ((List.map hexDigit ds).append rest) (off + 1) (acc * 16 + d) =
        some (off + 1 + ds.length, List.foldl (fun a d => a * 16 + d) (acc * 16 + d) ds,
          rest) := hrec
    rw [hrec1]
    simp only [List.length_cons, List.foldl_cons]
    congr 2
    omega

/-- The hexadecimal run at the start of a group text followed by the end of the text
or by a colon. -/
theorem hexGroup_appendHex (x : Nat) (hx : x < 65536) (rest : List Char)
    (hrest : rest = [] ∨ ∃ r, rest = ':' :: r) :
    ∃ off acc, off ≠ 0 ∧ hexGroup (appendHex x ++ rest) 0 0 = some (off, acc, rest) := by
  obtain ⟨hall, hlen1, hlen4⟩ := hexDigits_facts x hx
  have hg := hexGroup_digits (hexDigits x) 0 0 rest hall (by omega) (by norm_num) hrest
  rw [← appendHex_eq] at hg
  exact ⟨_, _, by omega, hg⟩

/-- The `parseIPv6` loop on a last group: the two bytes are appended and the loop
ends. -/
theorem parseIPv6Loop_last (x : Nat) (hx : x < 65536) (n : Nat) (ip : List Nat)
    (ell : Option Nat) :
    ∃ hi lo, parseIPv6Loop (n + 1) (appendHex x) ip ell = some ([], ip ++ [hi, lo], ell) := by
  obtain ⟨off, acc, hoff, hg⟩ := hexGroup_appendHex x hx [] (Or.inl rfl)
  rw [List.append_nil] at hg
  exact ⟨acc / 256, acc % 256, by simp [parseIPv6Loop, hg, hoff]⟩

/-- The `parseIPv6` loop on a group followed by a colon and a further group. -/
theorem parseIPv6Loop_colon (x : Nat) (hx : x < 65536) (n : Nat) (ip : List Nat)
    (ell : Option Nat) (h : Char) (t : List Char) (hh : h ≠ ':') :
    ∃ hi lo, parseIPv6Loop (n + 1) (appendHex x ++ ':' :: h :: t) ip ell =
      parseIPv6Loop n (h :: t) (ip ++ [hi, lo]) ell := by
  obtain ⟨off, acc, hoff, hg⟩ := hexGroup_appendHex x hx (':' :: h :: t) (Or.inr ⟨_, rfl⟩)
  refine ⟨acc / 256, acc % 256, ?_⟩
  simp only [parseIPv6Loop, hg, hoff, ↓reduceIte]
  simp [hh]

/-- The `parseIPv6` loop on a group followed by `::` at the end of the text. -/
theorem parseIPv6Loop_ellipsis_end (x : Nat) (hx : x < 65536) (n : Nat) (ip : List Nat) :
    ∃ hi lo, parseIPv6Loop (n + 1) (appendHex x ++ [':', ':']) ip none =
      some ([], ip ++ [hi, lo], some (ip.length + 2)) := by
  obtain ⟨off, acc, hoff, hg⟩ := hexGroup_appendHex x hx [':', ':'] (Or.inr ⟨_, rfl⟩)
  refine ⟨acc / 256, acc % 256, ?_⟩
  simp only [parseIPv6Loop, hg, hoff, ↓reduceIte]
  simp

/-- The `parseIPv6` loop on a group followed by `::` and a further group. -/
theorem parseIPv6Loop_ellipsis (x : Nat) (hx : x < 65536) (n : Nat) (ip : List Nat)
    (h : Char) (t : List Char) :
    ∃ hi lo, parseIPv6Loop (n + 1) (appendHex x ++ ':' :: ':' :: h :: t) ip none =
      parseIPv6Loop n (h :: t) (ip ++ [hi, lo]) (some (ip.length + 2)) := by
  obtain ⟨off, acc, hoff, hg⟩ := hexGroup_appendHex x hx (':' :: ':' :: h :: t)
    (Or.inr ⟨_, rfl⟩)
  refine ⟨acc / 256, acc % 256, ?_⟩
  simp only [parseIPv6Loop, hg, hoff, ↓reduceIte]
  simp

/-- Reading a byte list at any position gives a byte. -/
theorem getD_byte (ip : List Nat) (hb : ∀ b ∈ ip, b < 256) (k : Nat) : ip.getD k 0 < 256 := by
  by_cases hk : k < ip.length
  · rw [List.getD_eq_getElem _ _ hk]
    exact hb _ (List.getElem_mem hk)
  · rw [List.getD_eq_default _ _ (by omega)]
    omega

/-- The groups of a byte list fit 16 bits. -/
theorem v6u16_lt (ip : List Nat) (hb : ∀ b ∈ ip, b < 256) (i : Nat) : v6u16 ip i < 65536 := by
  unfold v6u16
  have h1 := getD_byte ip hb (2 * i)
  have h2 := getD_byte ip hb (2 * i + 1)
  omega

/-- Nothing is written from group 8 on. -/
theorem appendGroups_ge (ip : List Nat) (zs ze f i : Nat) (h : i ≥ 8) :
    appendGroups ip zs ze f i = [] := by
  cases f <;> simp [appendGroups, h]

/-- A group after the first that does not start the elided run is written behind a
colon. -/
theorem appendGroups_other (ip : List Nat) (zs ze f i : Nat) (hi : i < 8) (hne : i ≠ zs)
    (h0 : 0 < i) :
    appendGroups ip zs ze (f + 1) i =
      ':' :: (appendHex (v6u16 ip i) ++ appendGroups ip zs ze f (i + 1)) := by
  have h8 : ¬ i ≥ 8 := by omega
  simp [appendGroups, h8, hne, h0]

/-- The first group, when it does not start the elided run, is written without a
colon. -/
theorem appendGroups_zero (ip : List Nat) (zs ze f : Nat) (hne : 0 ≠ zs) :
    appendGroups ip zs ze (f + 1) 0 =
      appendHex (v6u16 ip 0) ++ appendGroups ip zs ze f 1 := by
  simp [appendGroups, hne]

/-- The elided run is written as `::`, followed by the groups after it. -/
theorem appendGroups_start (ip : List Nat) (zs ze f : Nat) (hzs : zs < 8) :
    appendGroups ip zs ze (f + 1) zs =
      ':' :: ':' :: (if ze ≥ 8 then []
        else appendHex (v6u16 ip ze) ++ appendGroups ip zs ze f (ze + 1)) := by
  have h8 : ¬ zs ≥ 8 := by omega
  simp only [appendGroups, h8, ↓reduceIte]
  split <;> simp

/-- The `parseIPv6` loop reads the groups written after the elided run to the end of
the text. -/
theorem parseIPv6Loop_after (ip : List Nat) (hb : ∀ b ∈ ip, b < 256) (zs ze : Nat)
    (hz : zs < ze) : ∀ (m i f n : Nat) (acc : List Nat) (e : Nat),
    8 - i = m → ze ≤ i → i < 8 → 7 - i ≤ f → 8 - i ≤ n →
    ∃ ip1, parseIPv6Loop n (appendHex (v6u16 ip i) ++ appendGroups ip zs ze f (i + 1)) acc
        (some e) = some ([], ip1, some e) ∧ ip1.length = acc.length + 2 * (8 - i) := by
  intro m
  induction m with
  | zero => intro i f n acc e hm _ hi; omega
  | succ m ih =>
    intro i f n acc e hm hze hi hf hn
    obtain ⟨n1, hn1⟩ : ∃ n1, n = n1 + 1 := ⟨n - 1, by omega⟩
    subst hn1
    by_cases h7 : i = 7
    · subst h7
      rw [appendGroups_ge ip zs ze f 8 (by omega), List.append_nil]
      obtain ⟨hi1, lo1, hl⟩ := parseIPv6Loop_last (v6u16 ip 7) (v6u16_lt ip hb 7) n1 acc (some e)
      exact ⟨_, hl, by simp⟩
    · obtain ⟨f1, hf1⟩ : ∃ f1, f = f1 + 1 := ⟨f - 1, by omega⟩
      subst hf1
      rw [appendGroups_other ip zs ze f1 (i + 1) (by omega) (by omega) (by omega)]
      obtain ⟨h, t, ht, hc, _, _⟩ := appendHex_head (v6u16 ip (i + 1)) (v6u16_lt ip hb (i + 1))
      obtain ⟨hi1, lo1, hl⟩ := parseIPv6Loop_colon (v6u16 ip i) (v6u16_lt ip hb i) n1 acc
        (some e) h (t ++ appendGroups ip zs ze f1 (i + 1 + 1)) hc
      obtain ⟨ip1, hrec, hlen⟩ := ih (i + 1) f1 n1 (acc ++ [hi1, lo1]) e (by omega) (by omega)
        (by omega) (by omega) (by omega)
      rw [ht, List.cons_append] at hrec ⊢
      rw [hl, hrec]
      refine ⟨ip1, rfl, ?_⟩
      rw [hlen]
      simp only [List.length_append, List.length_cons, List.length_nil]
      omega

/-- The `parseIPv6` loop reads the groups written before an elided run, the run and
the groups after it, and ends in a state the final checks of `parseIPv6`
accept. -/
theorem parseIPv6Loop_before (ip : List Nat) (hb : ∀ b ∈ ip, b < 256) (zs ze : Nat)
    (hspan : (zs = 255 ∧ ze = 255) ∨ (zs + 2 ≤ ze ∧ ze ≤ 8)) :
    ∀ (m i f n : Nat) (acc : List Nat),
    8 - i = m → i < 8 → i < zs → 7 - i ≤ f → 8 - i ≤ n → acc.length = 2 * i →
    ∃ ip1 ell1, parseIPv6Loop n (appendHex (v6u16 ip i) ++ appendGroups ip zs ze f (i + 1))
        acc none = some ([], ip1, ell1) ∧
      ((ip1.length < 16 ∧ ell1.isSome = true) ∨ (ip1.length = 16 ∧ ell1 = none)) := by
  intro m
  induction m with
  | zero => intro i f n acc hm hi; omega
  | succ m ih =>
    intro i f n acc hm hi hzs hf hn hacc
    obtain ⟨n1, hn1⟩ : ∃ n1, n = n1 + 1 := ⟨n - 1, by omega⟩
    subst hn1
    by_cases h7 : i = 7
    · subst h7
      rw [appendGroups_ge ip zs ze f 8 (by omega), List.append_nil]
      obtain ⟨hi1, lo1, hl⟩ := parseIPv6Loop_last (v6u16 ip 7) (v6u16_lt ip hb 7) n1 acc none
      exact ⟨_, _, hl, Or.inr ⟨by simp [hacc], rfl⟩⟩
    · obtain ⟨f1, hf1⟩ : ∃ f1, f = f1 + 1 := ⟨f - 1, by omega⟩
      subst hf1
      by_cases hstart : i + 1 = zs
      · have hz8 : zs < 8 := by omega
        have hsp : zs + 2 ≤ ze ∧ ze ≤ 8 := by
          rcases hspan with h | h
          · omega
          · exact h
        rw [hstart, appendGroups_start ip zs ze f1 hz8]
        by_cases hze : ze ≥ 8
        · simp only [hze, ↓reduceIte]
          obtain ⟨hi1, lo1, hl⟩ := parseIPv6Loop_ellipsis_end (v6u16 ip i) (v6u16_lt ip hb i)
            n1 acc
          exact ⟨_, _, hl, Or.inl ⟨by simp [hacc]; omega, rfl⟩⟩
        · simp only [hze, ↓reduceIte]
          obtain ⟨h, t, ht, _, _, _⟩ := appendHex_head (v6u16 ip ze) (v6u16_lt ip hb ze)
          obtain ⟨hi1, lo1, hl⟩ := parseIPv6Loop_ellipsis (v6u16 ip i) (v6u16_lt ip hb i) n1
            acc h (t ++ appendGroups ip zs ze f1 (ze + 1))
          obtain ⟨ip1, hrec, hlen⟩ := parseIPv6Loop_after ip hb zs ze (by omega) (8 - ze) ze f1
            n1 (acc ++ [hi1, lo1]) (acc.length + 2) rfl (by omega) (by omega) (by omega)
            (by omega)
          rw [ht, List.cons_append] at hrec ⊢
          rw [hl, hrec]
          refine ⟨ip1, _, rfl, Or.inl ⟨?_, rfl⟩⟩
          rw [hlen]
          simp only [List.length_append, List.length_cons, List.length_nil]
          omega
      · rw [appendGroups_other ip zs ze f1 (i + 1) (by omega) hstart (by omega)]
        obtain ⟨h, t, ht, hc, _, _⟩ := appendHex_head (v6u16 ip (i + 1))
          (v6u16_lt ip hb (i + 1))
        obtain ⟨hi1, lo1, hl⟩ := parseIPv6Loop_colon (v6u16 ip i) (v6u16_lt ip hb i) n1 acc
          none h (t ++ appendGroups ip zs ze f1 (i + 1 + 1)) hc
        obtain ⟨ip1, ell1, hrec, hfin⟩ := ih (i + 1) f1 n1 (acc ++ [hi1, lo1]) (by omega)
          (by omega) (by omega) (by omega) (by omega) (by simp [hacc]; omega)
        rw [ht, List.cons_append] at hrec ⊢
        rw [hl, hrec]
        exact ⟨ip1, ell1, rfl, hfin⟩

/-- A run of zero groups ends at group 8 at the latest. -/
theorem zeroRun_le (ip : List Nat) : ∀ (n i : Nat), i + zeroRun ip n i ≤ max i 8 := by
  intro n
  induction n with
  | zero => intro i; simp [zeroRun]
  | succ n ih =>
    intro i
    simp only [zeroRun]
    split
    · rename_i h
      have := ih (i + 1)
      have h8 : i < 8 := h.1
      rw [max_eq_right (by omega)] at this ⊢
      omega
    · simp

/-- The span the first loop of `appendTo6` finds is the sentinel or a run of at
least two groups within the eight. -/
theorem zeroSpan_span (ip : List Nat) : ∀ (n i : Nat) (best : Nat × Nat),
    ((best.1 = 255 ∧ best.2 = 255) ∨ (best.1 + 2 ≤ best.2 ∧ best.2 ≤ 8)) →
    (((zeroSpan ip n i best).1 = 255 ∧ (zeroSpan ip n i best).2 = 255) ∨
      ((zeroSpan ip n i best).1 + 2 ≤ (zeroSpan ip n i best).2 ∧
        (zeroSpan ip n i best).2 ≤ 8)) := by
  intro n
  induction n with
  | zero => intro i best h; exact h
  | succ n ih =>
    intro i best h
    simp only [zeroSpan]
    split
    · rename_i hl
      apply ih
      right
      have hle := zeroRun_le ip 8 i
      have hpos : 2 ≤ zeroRun ip 8 i := hl.1
      have hi8 : i < 8 := by
        by_contra hc
        have : zeroRun ip 8 i = 0 := by
          rw [show (8 : Nat) = 7 + 1 from rfl, zeroRun]
          simp
          omega
        omega
      rw [max_eq_right (by omega)] at hle
      simp only
      omega
    · exact ih _ _ h

/-- The characters `appendTo6` writes are colons and hexadecimal digits: no dot and
no percent sign. -/
theorem appendGroups_chars (ip : List Nat) (hb : ∀ b ∈ ip, b < 256) (zs ze : Nat) :
    ∀ (f i : Nat), ∀ c ∈ appendGroups ip zs ze f i, c ≠ '.' ∧ c ≠ '%' := by
  have hhex : ∀ x, x < 65536 → ∀ c ∈ appendHex x, c ≠ '.' ∧ c ≠ '%' := by
    intro x hx c hc
    rw [appendHex_eq] at hc
    obtain ⟨d, hd, rfl⟩ := List.mem_map.1 hc
    obtain ⟨_, _, h3, h4⟩ := hex_char_facts d ((hexDigits_facts x hx).1 d hd)
    exact ⟨h3, h4⟩
  intro f
  induction f with
  | zero => intro i c hc; simp [appendGroups] at hc
  | succ f ih =>
    intro i c hc
    simp only [appendGroups] at hc
    split at hc
    · simp at hc
    · split at hc
      · split at hc
        · simp only [List.mem_cons, List.mem_singleton, List.not_mem_nil, or_false] at hc
          rcases hc with h | h <;> subst h <;> decide
        · simp only [List.mem_append, List.mem_cons, List.mem_singleton, List.not_mem_nil,
            or_false] at hc
          rcases hc with ((h | h) | h) | h
          · subst h; decide
          · subst h; decide
          · exact hhex _ (v6u16_lt ip hb ze) c h
          · exact ih _ c h
      · simp only [List.mem_append] at hc
        rcases hc with (h | h) | h
        · split at h
          · simp only [List.mem_singleton] at h
            subst h
            decide
          · simp at h
        · exact hhex _ (v6u16_lt ip hb i) c h
        · exact ih _ c h

/-- The dispatch of `ParseAddr` on a text with a colon and without dot or percent
sign hands the text to `parseIPv6`. -/
theorem parseAddrScan_colon (s : List Char) : ∀ (cs : List Char),
    ':' ∈ cs → (∀ c ∈ cs, c ≠ '.' ∧ c ≠ '%') → parseAddrScan s cs = parseIPv6 s := by
  intro cs
  induction cs with
  | nil => intro h; simp at h
  | cons c cs ih =>
    intro hm hall
    have hc := hall c (by simp)
    simp only [parseAddrScan, hc.1, ↓reduceIte]
    split
    · rfl
    · rename_i hne
      simp only [hc.2, ↓reduceIte]
      rcases List.mem_cons.1 hm with h | h
      · exact absurd h.symm hne
      · exact ih h (fun d hd => hall d (by simp [hd]))

/-- The end of `parseIPv6`: a text without percent sign on which the loop ends at
the end of the text, in a state the final checks accept, is an address without
zone. -/
theorem parseIPv6_final (s rest0 : List Char) (e0 : Option Nat) (ip1 : List Nat)
    (ell1 : Option Nat)
    (hstart : (match s with
      | ':' :: ':' :: rest => (rest, some 0)
      | s => (s, none) : List Char × Option Nat) = (rest0, e0))
    (hcut : cutAt '%' s = (s, none))
    (hnot : ¬ (e0 = some 0 ∧ rest0 = []))
    (hloop : parseIPv6Loop 8 rest0 [] e0 = some ([], ip1, ell1))
    (hfin : (ip1.length < 16 ∧ ell1.isSome = true) ∨ (ip1.length = 16 ∧ ell1 = none)) :
    ∃ b, parseIPv6 s = some (Addr.v6 b "") := by
  unfold parseIPv6
  simp only [hcut, hstart, hnot, hloop]
  rcases hfin with ⟨hl, he⟩ | ⟨hl, he⟩
  · obtain ⟨e, hee⟩ := Option.isSome_iff_exists.1 he
    subst hee
    refine ⟨ip1.take e ++ List.replicate (16 - ip1.length) 0 ++ ip1.drop e, ?_⟩
    simp [hl]
  · subst he
    refine ⟨ip1, ?_⟩
    simp [hl]

/-- `parseIPv6` accepts the text `string6` writes for a list of 16 bytes, without a
zone. -/
theorem parseIPv6_string6 (ip : List Nat) (hb : ∀ b ∈ ip, b < 256) :
    (∃ b, parseIPv6 (string6 ip) = some (Addr.v6 b "")) ∧ ':' ∈ string6 ip := by
  have hspan := zeroSpan_span ip 8 0 (255, 255) (Or.inl ⟨rfl, rfl⟩)
  have hchars := appendGroups_chars ip hb (zeroSpan ip 8 0 (255, 255)).1
    (zeroSpan ip 8 0 (255, 255)).2 8 0
  unfold string6 at *
  simp only at *
  generalize (zeroSpan ip 8 0 (255, 255)).1 = zs at *
  generalize (zeroSpan ip 8 0 (255, 255)).2 = ze at *
  have hpct : '%' ∉ appendGroups ip zs ze 8 0 := fun hm => (hchars _ hm).2 rfl
  have hcut := cutAt_of_not_mem '%' _ hpct
  by_cases h0 : zs = 0
  · subst h0
    have hsp : 0 + 2 ≤ ze ∧ ze ≤ 8 := by
      rcases hspan with h | h
      · omega
      · exact h
    have hs := appendGroups_start ip 0 ze 7 (by omega)
    rw [show (7 : Nat) + 1 = 8 from rfl] at hs
    by_cases hze : ze ≥ 8
    · simp only [hze, ↓reduceIte] at hs
      rw [hs]
      exact ⟨⟨_, rfl⟩, by simp⟩
    · simp only [hze, ↓reduceIte] at hs
      obtain ⟨ip1, hrec, hlen⟩ := parseIPv6Loop_after ip hb 0 ze (by omega) (8 - ze) ze 7 8
        [] 0 rfl (by omega) (by omega) (by omega) (by omega)
      obtain ⟨h, t, ht, _, _, _⟩ := appendHex_head (v6u16 ip ze) (v6u16_lt ip hb ze)
      rw [hs] at hcut ⊢
      refine ⟨?_, by simp⟩
      have hl16 : ip1.length < 16 := by
        rw [hlen]
        simp only [List.length_nil]
        omega
      refine parseIPv6_final _ _ (some 0) ip1 (some 0) rfl hcut ?_ hrec (Or.inl ⟨hl16, rfl⟩)
      rw [ht]
      simp
  · have hs := appendGroups_zero ip zs ze 7 (fun e => h0 e.symm)
    rw [show (7 : Nat) + 1 = 8 from rfl] at hs
    obtain ⟨ip1, ell1, hrec, hfin⟩ := parseIPv6Loop_before ip hb zs ze hspan 8 0 7 8 [] rfl
      (by omega) (by omega) (by omega) (by omega) rfl
    obtain ⟨h, t, ht, hc, _, _⟩ := appendHex_head (v6u16 ip 0) (v6u16_lt ip hb 0)
    have hcolon : ':' ∈ appendGroups ip zs ze 7 1 := by
      by_cases h1 : 1 = zs
      · rw [← h1, show (7 : Nat) = 6 + 1 from rfl, appendGroups_start ip 1 ze 6 (by omega)]
        simp
      · rw [show (7 : Nat) = 6 + 1 from rfl,
          appendGroups_other ip zs ze 6 1 (by omega) h1 (by omega)]
        simp
    rw [hs] at hcut ⊢
    refine ⟨?_, List.mem_append_right _ hcolon⟩
    have hstart : (match appendHex (v6u16 ip 0) ++ appendGroups ip zs ze 7 1 with
        | ':' :: ':' :: rest => (rest, some 0)
        | s => (s, none) : List Char × Option Nat) =
        (appendHex (v6u16 ip 0) ++ appendGroups ip zs ze 7 1, none) := by
      rw [ht, List.cons_append]
      split
      · rename_i heq
        simp only [List.cons.injEq] at heq
        exact absurd heq.1 hc
      · rfl
    exact parseIPv6_final _ _ none ip1 ell1 hstart hcut (by simp) hrec hfin

/-- `net.ParseIP` accepts the text `net.IP.String` writes for a list of 16 bytes. -/
theorem ParseIP_String_isSome (ip : IP) (hl : ip.length = 16) (hb : ∀ b ∈ ip, b < 256) :
    (ParseIP (IP.String ip)).isSome = true := by
  unfold IP.String
  simp only [hl]
  simp only [Nat.reduceEqDiff, ↓reduceIte, ne_eq, not_true_eq_false, and_false]
  split
  · rename_i p4 h4
    have hlen4 := To4_length ip p4 h4
    have hb4 : ∀ b ∈ p4, b < 256 := by
      intro b hbm
      unfold To4 at h4
      simp only [hl] at h4
      simp only [Nat.reduceEqDiff, ↓reduceIte, true_and] at h4
      split at h4
      · cases h4
        exact hb b (List.mem_of_mem_drop hbm)
      · cases h4
    obtain ⟨a, b, c, d, rfl⟩ : ∃ a b c d, p4 = [a, b, c, d] := by
      match p4, hlen4 with
      | [a, b, c, d], _ => exact ⟨a, b, c, d, rfl⟩
    rw [ParseIP_string4 a b c d (hb4 a (by simp)) (hb4 b (by simp)) (hb4 c (by simp))
      (hb4 d (by simp))]
    rfl
  · obtain ⟨⟨b, hparse⟩, hcolon⟩ := parseIPv6_string6 ip hb
    have hchars : ∀ c ∈ string6 ip, c ≠ '.' ∧ c ≠ '%' :=
      appendGroups_chars ip hb _ _ 8 0
    have hscan : ParseAddr (String.mk (string6 ip)) = some (Addr.v6 b "") := by
      unfold ParseAddr
      show parseAddrScan (string6 ip) (string6 ip) = _
      rw [parseAddrScan_colon _ _ hcolon hchars, hparse]
    unfold ParseIP
    rw [hscan]
    rfl

/-- C20: for every parser and every request in which no preferred header has a
non-empty value, the string `ClientIP` returns is empty or parses as an IP
address: an address taken from `X-Forwarded-For`, `X-Real-IP` or `Forwarded` has
passed `net.ParseIP`, and the peer address is returned as the text of its parsed
form, which `net.ParseIP` accepts. -/
theorem C20_result_empty_or_ip (p : Parser) (req : Option Request)
    (customHeader : List String)
    (hpref : ∀ h ∈ p.xHeader ++ customHeader, headerValue req h = "") :
    p.ClientIP req customHeader = "" ∨
    (ParseIP (p.ClientIP req customHeader)).isSome = true := by
  cases req with
  | none => exact Or.inl rfl
  | some r =>
    obtain ⟨hdr, addr⟩ := r
    cases hdr with
    | none => exact Or.inl rfl
    | some header =>
      have hpref1 : ∀ h ∈ p.xHeader ++ customHeader, header.Get h = "" := hpref
      cases hp : ParseIP (remoteHost addr) with
      | none =>
        have hnone := firstHeaderValue_none header.Get _ hpref1
        exact Or.inl (by simp [Parser.ClientIP, hnone, hp])
      | some remoteIp =>
        right
        rcases ClientIP_peer_or_parsed p header addr customHeader remoteIp hpref1 hp
          with h | h
        · rw [h]
          exact ParseIP_String_isSome remoteIp (ParseIP_length _ _ hp) (ParseIP_bytes _ _ hp)
        · exact h

/-- C20 at an example: the peer `2001:DB8:0:0:0:0:0:1` is returned in parsed form,
`2001:db8::1`, which parses. -/
theorem C20_result_empty_or_ip_witness :
    exampleParser.ClientIP (some ⟨some [], "[2001:DB8:0:0:0:0:0:1]:443"⟩) [] = "2001:db8::1" ∧
    (exampleParser.ClientIP (some ⟨some [], "[2001:DB8:0:0:0:0:0:1]:443"⟩) [] = "" ∨
      (ParseIP (exampleParser.ClientIP
        (some ⟨some [], "[2001:DB8:0:0:0:0:0:1]:443"⟩) [])).isSome = true) :=
  ⟨by decide,
    C20_result_empty_or_ip exampleParser (some ⟨some [], "[2001:DB8:0:0:0:0:0:1]:443"⟩) []
      (by decide)⟩

/-! ## An empty list at construction -/

/-- C21: `NewParse` called with an empty but non-nil proxy list builds the same
parser as `NewParse(nil)`: its trusted set is the permissive default, under which
every IPv4 and IPv6 address is trusted; `SetTrustedProxies` with the same empty
list, on that parser, leaves a set that trusts nothing. -/
theorem C21_empty_list_at_construction (customHeader : List String) (ip : IP)
    (hl : ip.length = 4 ∨ ip.length = 16) :
    NewParse (some []) customHeader = NewParse none customHeader ∧
    NewParse (some []) customHeader = .ok ⟨some defaultTrustedCIDRs, customHeader⟩ ∧
    (⟨some defaultTrustedCIDRs, customHeader⟩ : Parser).isTrustedProxy ip = true ∧
    ((⟨some defaultTrustedCIDRs, customHeader⟩ : Parser).SetTrustedProxies (some [])).2
      = none ∧
    ((⟨some defaultTrustedCIDRs, customHeader⟩ : Parser).SetTrustedProxies
      (some [])).1.isTrustedProxy ip = false := by
  refine ⟨rfl, rfl, default_trusts ip hl, rfl, rfl⟩

/-- C21 at an example: the parser built from an empty list trusts `8.8.8.8`, and
stops trusting it after `SetTrustedProxies` with the same empty list. -/
theorem C21_empty_list_at_construction_witness :
    NewParse (some []) ["X-My-IP"] = NewParse none ["X-My-IP"] ∧
    NewParse (some []) ["X-My-IP"] = .ok ⟨some defaultTrustedCIDRs, ["X-My-IP"]⟩ ∧
    (⟨some defaultTrustedCIDRs, ["X-My-IP"]⟩ : Parser).isTrustedProxy
      [0, 0, 0, 0, 0, 0, 0, 0, 0, 0, 255, 255, 8, 8, 8, 8] = true ∧
    ((⟨some defaultTrustedCIDRs, ["X-My-IP"]⟩ : Parser).SetTrustedProxies (some [])).2
      = none ∧
    ((⟨some defaultTrustedCIDRs, ["X-My-IP"]⟩ : Parser).SetTrustedProxies
      (some [])).1.isTrustedProxy [0, 0, 0, 0, 0, 0, 0, 0, 0, 0, 255, 255, 8, 8, 8, 8] = false :=
  C21_empty_list_at_construction ["X-My-IP"]
    [0, 0, 0, 0, 0, 0, 0, 0, 0, 0, 255, 255, 8, 8, 8, 8] (Or.inr (by decide))

end GoIP
